import Mathlib

/-!
Verification development for the trace-generation engine of the
Algorithmic GlassBox Simulator repository (TypeScript sources under `src/`).

Modelling conventions (shallow embedding of the TypeScript code):

* JS `number` is modeled as `ℚ`.  All numbers the engine manipulates
  (edge costs, g/h/f scores, depths, priorities) are produced by exact
  arithmetic on the inputs, so `ℚ` is a faithful carrier for every run in
  which the inputs are rationals.  The only genuinely irrational source
  value is the Euclidean heuristic's `Math.sqrt`; the driver is therefore
  verified generically over an arbitrary heuristic function
  `hFn : Coord → Coord → ℚ` (the heuristic provider returns a pure
  function of the two coordinates, which is exactly what the driver
  consumes).
* JS `string` is modeled as Lean `String`; string manipulation
  (`key.split(",")`, template `` `${x},${y}` ``) is modeled on the
  underlying character list.
* JS `Set<string>` is modeled as a duplicate-free `List String` in
  insertion order (`add` appends if absent); `Map` as an association
  list in insertion order (`set` updates in place or appends).
* Fallible or partial JS operations (`pop` on an empty heap, missing
  map keys) are modeled with `Option`.
-/

set_option maxHeartbeats 1000000

namespace GlassBox

/-! ### Digit rendering and parsing for grid keys

The grid adapter stores cells under string keys `` `${x},${y}` `` and
recovers coordinates with `key.split(",")` + `Number(...)`.  We model the
decimal rendering of a natural number via `Nat.digits` and parsing as the
inverse fold.  (JS renders nonnegative integers exactly this way; keys with
signs, fractions, or junk characters are never produced by the engine, and
`Number`'s NaN results on junk are not modeled.) -/

/-- The character for a single decimal digit. -/
def digitChar (d : ℕ) : Char := Char.ofNat (48 + d)

/-- Little-endian decimal digits of `n`, recursing on a fuel bound
(`fuel ≥ n` suffices, as a number never has more digits than its value);
structural recursion keeps the definition kernel-computable. -/
def digitsAux : ℕ → ℕ → List ℕ
  | 0, _ => []
  | fuel + 1, n => if n = 0 then [] else n % 10 :: digitsAux fuel (n / 10)

theorem digitsAux_eq_digits : ∀ (fuel n : ℕ), n ≤ fuel →
    digitsAux fuel n = Nat.digits 10 n := by
  intro fuel
  induction fuel with
  | zero => intro n hn; interval_cases n; simp [digitsAux]
  | succ fuel ih =>
    intro n hn
    by_cases h0 : n = 0
    · subst h0; simp [digitsAux]
    · rw [digitsAux, if_neg h0,
        Nat.digits_def' (by norm_num : 1 < 10) (Nat.pos_of_ne_zero h0),
        ih (n / 10) (by omega)]


/-- Decimal rendering of a natural number, most significant digit first
(the JS rendering of a nonnegative integer). -/
def natChars (n : ℕ) : List Char :=
  if n = 0 then ['0'] else ((digitsAux n n).map digitChar).reverse

theorem natChars_eq_digits (n : ℕ) :
    natChars n = if n = 0 then ['0'] else ((Nat.digits 10 n).map digitChar).reverse := by
  unfold natChars
  rw [digitsAux_eq_digits n n le_rfl]

/-- Parse a digit string back to a natural number (`Number("…")` on the
canonical rendering of a nonnegative integer; junk characters are mapped
through the same digit-value fold rather than to NaN, which the engine
never observes on well-formed keys). -/
def parseNat (cs : List Char) : ℕ :=
  Nat.ofDigits 10 ((cs.map (fun c => c.toNat - 48)).reverse)

theorem digitChar_toNat {d : ℕ} (hd : d < 10) : (digitChar d).toNat = 48 + d := by
  interval_cases d <;> decide

theorem digitChar_ne_comma {d : ℕ} (hd : d < 10) : digitChar d ≠ ',' := by
  interval_cases d <;> decide

theorem parseNat_natChars (n : ℕ) : parseNat (natChars n) = n := by
  rw [natChars_eq_digits]; unfold parseNat
  rcases Nat.eq_zero_or_pos n with h0 | h0
  · subst h0; decide
  rw [if_neg (Nat.pos_iff_ne_zero.mp h0)]
  rw [List.map_reverse, List.reverse_reverse, List.map_map]
  have h : ((Nat.digits 10 n).map ((fun c => c.toNat - 48) ∘ digitChar)) =
      (Nat.digits 10 n).map id := by
    apply List.map_congr_left
    intro d hd
    have hlt : d < 10 := Nat.digits_lt_base (by norm_num) hd
    simp [Function.comp, digitChar_toNat hlt]
  rw [h, List.map_id, Nat.ofDigits_digits]

theorem comma_notMem_natChars (n : ℕ) : ',' ∉ natChars n := by
  rw [natChars_eq_digits]
  rcases Nat.eq_zero_or_pos n with h0 | h0
  · subst h0; decide
  rw [if_neg (Nat.pos_iff_ne_zero.mp h0)]
  intro hmem
  rw [List.mem_reverse, List.mem_map] at hmem
  obtain ⟨d, hd, hEq⟩ := hmem
  exact digitChar_ne_comma (Nat.digits_lt_base (by norm_num) hd) hEq

/-! ### Splitting on commas (model of `key.split(",")`) -/

/-- Split a character list at commas; `splitCommaAux cs acc` prepends the
accumulated (reversed) current field.  `"a,b".split(",") = ["a","b"]`,
`"".split(",") = [""]`. -/
def splitCommaAux : List Char → List Char → List (List Char)
  | [], acc => [acc.reverse]
  | c :: rest, acc =>
    if c = ',' then acc.reverse :: splitCommaAux rest []
    else splitCommaAux rest (c :: acc)

def splitComma (cs : List Char) : List (List Char) := splitCommaAux cs []

theorem splitCommaAux_no_comma {A : List Char} (hA : ',' ∉ A) (acc : List Char) :
    splitCommaAux A acc = [acc.reverse ++ A] := by
  induction A generalizing acc with
  | nil => simp [splitCommaAux]
  | cons c rest ih =>
    have hc : c ≠ ',' := fun h => hA (h ▸ List.mem_cons_self c rest)
    have hrest : ',' ∉ rest := fun h => hA (List.mem_cons_of_mem c h)
    simp [splitCommaAux, hc, ih hrest]

theorem splitCommaAux_append {A B : List Char} (hA : ',' ∉ A) (acc : List Char) :
    splitCommaAux (A ++ ',' :: B) acc = (acc.reverse ++ A) :: splitComma B := by
  induction A generalizing acc with
  | nil => simp [splitCommaAux, splitComma]
  | cons c rest ih =>
    have hc : c ≠ ',' := fun h => hA (h ▸ List.mem_cons_self c rest)
    have hrest : ',' ∉ rest := fun h => hA (List.mem_cons_of_mem c h)
    simp [splitCommaAux, hc, ih hrest]

theorem splitComma_pair {A B : List Char} (hA : ',' ∉ A) (hB : ',' ∉ B) :
    splitComma (A ++ ',' :: B) = [A, B] := by
  unfold splitComma
  rw [splitCommaAux_append hA]
  unfold splitComma
  rw [splitCommaAux_no_comma hB]
  simp

/-! ### Core data model (src/src/core/types.ts) -/

/-- `Coord` from types.ts; JS numbers as `ℚ`. -/
structure Coord where
  x : ℚ
  y : ℚ
deriving DecidableEq, Repr

inductive AlgorithmId | bfs | dfs | dijkstra | astar
deriving DecidableEq, Repr

inductive HeuristicId | manhattan | euclidean
deriving DecidableEq, Repr

inductive EnvironmentId | grid | city | campus | dungeon | custom | realworld
deriving DecidableEq, Repr

inductive EnvironmentKind | grid | graph | map
deriving DecidableEq, Repr

inductive FrontierKind | queue | stack | minheap
deriving DecidableEq, Repr

inductive Phase | init | select | expand | relax | enqueue | found | exhausted
deriving DecidableEq, Repr

/-- Comparison metric; `"g" | "f"` for SelectionReason, `"g" | "f" | "depth"`
for RejectionReason — modeled with a single inductive. -/
inductive Metric | g | f | depth
deriving DecidableEq, Repr

/-- `Grid` from types.ts; `walls : ReadonlySet<string>` as a list of keys
(insertion order, duplicate-free by the `Set` semantics; only membership
is consulted by the engine). -/
structure Grid where
  width : ℚ
  height : ℚ
  walls : List String
deriving DecidableEq, Repr

structure GraphNode where
  id : String
  «at» : Coord
deriving DecidableEq, Repr

structure GraphEdge where
  fromKey : String   -- `from` in the source (Lean keyword)
  toKey : String     -- `to` in the source
  cost : ℚ
deriving DecidableEq, Repr

structure Graph where
  directed : Bool
  nodes : List GraphNode
  edges : List GraphEdge
deriving DecidableEq, Repr

/-- `Environment` from types.ts (rendering-only fields omitted: `name`,
`explanationPoints`, node `label`/`explanation` — the engine never reads
them). -/
structure Environment where
  id : EnvironmentId
  kind : EnvironmentKind
  grid : Option Grid
  graph : Option Graph
  defaultStartKey : String
  defaultGoalKey : String
deriving DecidableEq, Repr

structure RunOptions where
  environmentId : EnvironmentId
  algorithm : AlgorithmId
  heuristic : HeuristicId
  heuristicWeight : ℚ
  diagonal : Bool
deriving DecidableEq, Repr

/-- `FrontierItem`; the optional algorithm-specific fields are `Option`. -/
structure FrontierItem where
  key : String
  «at» : Coord
  g : Option ℚ := none
  h : Option ℚ := none
  f : Option ℚ := none
  depth : Option ℚ := none
  priority : Option ℚ := none
deriving DecidableEq, Repr

structure RelaxationEvent where
  fromKey : String   -- `from` in the source
  toKey : String     -- `to` in the source
  oldG : Option ℚ    -- `number | null`
  newG : ℚ
  improved : Bool
deriving DecidableEq, Repr

inductive SelectionReason
  | fifo
  | lifo
  | min (metric : Metric) (value : ℚ)
  | goal
deriving DecidableEq, Repr

/-- `RejectionReason`; the two value fields are JS numbers that may be
`Number.POSITIVE_INFINITY` (the `?? Number.POSITIVE_INFINITY` defaults in
`compareWhyNot`), hence `WithTop ℚ`. -/
structure RejectionReason where
  candidate : FrontierItem
  chosen : FrontierItem
  metric : Metric
  candidateValue : WithTop ℚ
  chosenValue : WithTop ℚ
deriving DecidableEq, Repr

/-- `StepSnapshot`; `ReadonlySet`s as insertion-ordered duplicate-free
lists, `ReadonlyMap`s as insertion-ordered association lists. -/
structure StepSnapshot where
  index : ℕ
  phase : Phase
  currentKey : Option String
  current : Option Coord := none
  frontierKind : FrontierKind
  frontier : List FrontierItem
  selected : Option FrontierItem := none
  visited : List String
  closed : List String
  cameFrom : List (String × String)
  gScore : List (String × ℚ)
  relaxation : Option RelaxationEvent := none
  selectionReason : Option SelectionReason := none
  whyNot : Option (List RejectionReason) := none
  path : Option (List Coord) := none
  warnings : Option (List String) := none
deriving DecidableEq, Repr

structure TraceMetrics where
  explored : ℕ
  relaxations : ℕ
  peakFrontier : ℕ
  peakClosed : ℕ
  runtimeSteps : ℕ
deriving DecidableEq, Repr

structure Trace where
  options : RunOptions
  steps : List StepSnapshot
  found : Bool
  path : List Coord
  metrics : TraceMetrics
deriving DecidableEq, Repr

/-! ### JS `Set` / `Map` models -/

/-- `Set.add`: append if absent (JS sets keep insertion order). -/
def sAdd (s : List String) (k : String) : List String :=
  if k ∈ s then s else s ++ [k]

/-- `Map.get`: value of the (unique) entry for `k`, if any. -/
def mGet {α : Type} (m : List (String × α)) (k : String) : Option α :=
  (m.find? (fun p => p.1 = k)).map (fun p => p.2)

/-- `Map.set`: update in place if present (JS maps keep the original
insertion position on update), append otherwise. -/
def mSet {α : Type} (m : List (String × α)) (k : String) (v : α) :
    List (String × α) :=
  if (m.find? (fun p => p.1 = k)).isSome then
    m.map (fun p => if p.1 = k then (k, v) else p)
  else m ++ [(k, v)]

@[simp] theorem sAdd_nil (k : String) : sAdd [] k = [k] := rfl

theorem mem_sAdd (s : List String) (k j : String) :
    j ∈ sAdd s k ↔ j ∈ s ∨ j = k := by
  unfold sAdd
  by_cases h : k ∈ s
  · simp only [if_pos h]
    exact ⟨Or.inl, fun hj => hj.elim id (fun e => e ▸ h)⟩
  · simp [if_neg h, List.mem_append]

theorem sAdd_subset (s : List String) (k : String) : s ⊆ sAdd s k := by
  intro j hj; rw [mem_sAdd]; exact Or.inl hj

/-! ### Grid key rendering and parsing (src/src/core/grid.ts) -/

/-- Rendering of a JS number into a key fragment.  The engine only ever
formats the nonnegative integers produced by the grid adapter; other
values get an injective placeholder rendering (never relied upon). -/
def numChars (q : ℚ) : List Char :=
  if q.den = 1 then
    if q.num < 0 then '-' :: natChars (-q.num).toNat else natChars q.num.toNat
  else '#' :: natChars q.num.natAbs ++ '/' :: natChars q.den

/-- `keyOf` from grid.ts: `` `${x},${y}` ``. -/
def keyOf (c : Coord) : String :=
  ⟨numChars c.x ++ ',' :: numChars c.y⟩

/-- Parse one key fragment as a number (`Number(xs)`). -/
def parseNum (cs : List Char) : ℚ := (parseNat cs : ℚ)

/-- `coordOf` from grid.ts: `key.split(",")`, then `Number` on the first
two fragments (a missing second fragment is JS `Number(undefined) = NaN`;
modeled as 0, never reached on well-formed keys). -/
def coordOf (key : String) : Coord :=
  match splitComma key.data with
  | xs :: ys :: _ => ⟨parseNum xs, parseNum ys⟩
  | [xs] => ⟨parseNum xs, 0⟩
  | [] => ⟨0, 0⟩

/-- A coordinate with nonnegative integer entries (every cell coordinate
the grid adapter manipulates). -/
def Coord.IsCell (c : Coord) : Prop := c.x.den = 1 ∧ 0 ≤ c.x.num ∧ c.y.den = 1 ∧ 0 ≤ c.y.num

instance (c : Coord) : Decidable c.IsCell := by
  unfold Coord.IsCell; infer_instance

theorem numChars_cell {q : ℚ} (h1 : q.den = 1) (h2 : 0 ≤ q.num) :
    numChars q = natChars q.num.toNat := by
  unfold numChars
  simp [h1, Int.not_lt.mpr h2]

theorem parseNum_natChars_cell {q : ℚ} (h1 : q.den = 1) (h2 : 0 ≤ q.num) :
    parseNum (natChars q.num.toNat) = q := by
  unfold parseNum
  rw [parseNat_natChars]
  have hq : q = (q.num : ℚ) := by
    conv_lhs => rw [← Rat.num_div_den q]
    rw [h1]
    simp
  rw [hq]
  exact_mod_cast congrArg (fun z : ℤ => (z : ℚ)) (Int.toNat_of_nonneg h2)

theorem comma_notMem_numChars_cell {q : ℚ} (h1 : q.den = 1) (h2 : 0 ≤ q.num) :
    ',' ∉ numChars q := by
  rw [numChars_cell h1 h2]
  exact comma_notMem_natChars _

/-- Round trip: parsing a rendered cell key recovers the coordinate. -/
theorem coordOf_keyOf {c : Coord} (hc : c.IsCell) : coordOf (keyOf c) = c := by
  obtain ⟨hx1, hx2, hy1, hy2⟩ := hc
  unfold coordOf keyOf
  show (match splitComma (numChars c.x ++ ',' :: numChars c.y) with
    | xs :: ys :: _ => ⟨parseNum xs, parseNum ys⟩
    | [xs] => ⟨parseNum xs, 0⟩
    | [] => ⟨0, 0⟩ : Coord) = c
  rw [splitComma_pair (comma_notMem_numChars_cell hx1 hx2) (comma_notMem_numChars_cell hy1 hy2)]
  simp only
  rw [numChars_cell hx1 hx2, numChars_cell hy1 hy2,
    parseNum_natChars_cell hx1 hx2, parseNum_natChars_cell hy1 hy2]

/-- Key rendering is injective on cell coordinates. -/
theorem keyOf_injective {c d : Coord} (hc : c.IsCell) (hd : d.IsCell)
    (h : keyOf c = keyOf d) : c = d := by
  have := congrArg coordOf h
  rwa [coordOf_keyOf hc, coordOf_keyOf hd] at this

/-! ### MinHeap (src/src/core/structures/MinHeap.ts)

The backing `arr` is a list; index accesses of the source are modeled with
`List.get?`/`List.set`.  All accesses the source performs are in range, so
the out-of-range fallbacks below are never exercised. -/

structure HeapNode (α : Type) where
  id : String
  value : α
  priority : ℚ
deriving DecidableEq, Repr

/-- Priority at index `j` (in-range in every reachable call). -/
def prioAt {α : Type} (a : List (HeapNode α)) (j : ℕ) : ℚ :=
  ((a.get? j).map (fun n => n.priority)).getD 0

/-- Swap the entries at two (in-range) indices:
`[this.arr[i], this.arr[j]] = [this.arr[j], this.arr[i]]`. -/
def swapAt {α : Type} (a : List (HeapNode α)) (i j : ℕ) : List (HeapNode α) :=
  match a.get? i, a.get? j with
  | some x, some y => (a.set i y).set j x
  | _, _ => a

/-- `bubbleUp` from MinHeap.ts, recursing on a fuel bound (`fuel ≥ i`
suffices, since the index moves to the strictly smaller parent
`(i - 1) / 2` each round); structural recursion keeps the definition
kernel-computable.  At fuel 0 the index is 0 and the loop is over. -/
def bubbleUpAux {α : Type} : ℕ → List (HeapNode α) → ℕ → List (HeapNode α)
  | 0, a, _ => a
  | fuel + 1, a, i =>
    if i = 0 then a
    else if prioAt a ((i - 1) / 2) ≤ prioAt a i then a
    else bubbleUpAux fuel (swapAt a ((i - 1) / 2) i) ((i - 1) / 2)

/-- `bubbleUp` from MinHeap.ts (the parent index `p` is `(i - 1) / 2`). -/
def bubbleUp {α : Type} (a : List (HeapNode α)) (i : ℕ) : List (HeapNode α) :=
  bubbleUpAux i a i

theorem bubbleUpAux_zero {α : Type} (fuel : ℕ) (a : List (HeapNode α)) :
    bubbleUpAux fuel a 0 = a := by
  cases fuel <;> simp [bubbleUpAux]

theorem bubbleUpAux_congr {α : Type} : ∀ (fuel fuel' : ℕ)
    (a : List (HeapNode α)) (i : ℕ), i ≤ fuel → i ≤ fuel' →
    bubbleUpAux fuel a i = bubbleUpAux fuel' a i := by
  intro fuel
  induction fuel with
  | zero =>
    intro fuel' a i hi _
    interval_cases i
    rw [bubbleUpAux_zero, bubbleUpAux_zero]
  | succ fuel ih =>
    intro fuel' a i hi hi'
    rcases Nat.eq_zero_or_pos i with h0 | h0
    · subst h0; rw [bubbleUpAux_zero, bubbleUpAux_zero]
    rcases fuel' with _ | fuel'
    · omega
    rw [bubbleUpAux, bubbleUpAux, if_neg (show ¬(i = 0) by omega),
      if_neg (show ¬(i = 0) by omega)]
    by_cases hp : prioAt a ((i - 1) / 2) ≤ prioAt a i
    · rw [if_pos hp, if_pos hp]
    · rw [if_neg hp, if_neg hp]
      exact ih fuel' _ _ (by omega) (by omega)

/-- The original recursion equation of the `bubbleUp` loop. -/
theorem bubbleUp_eq {α : Type} (a : List (HeapNode α)) (i : ℕ) :
    bubbleUp a i =
      if 0 < i then
        if prioAt a ((i - 1) / 2) ≤ prioAt a i then a
        else bubbleUp (swapAt a ((i - 1) / 2) i) ((i - 1) / 2)
      else a := by
  unfold bubbleUp
  rcases i with _ | k
  · simp [bubbleUpAux]
  rw [if_pos (Nat.succ_pos k), bubbleUpAux, if_neg (Nat.succ_ne_zero k)]
  by_cases hp : prioAt a ((k + 1 - 1) / 2) ≤ prioAt a (k + 1)
  · rw [if_pos hp, if_pos hp]
  · rw [if_neg hp, if_neg hp]
    exact bubbleUpAux_congr k _ _ _ (Nat.div_le_self _ _) le_rfl

theorem swapAt_length {α : Type} (a : List (HeapNode α)) (i j : ℕ) :
    (swapAt a i j).length = a.length := by
  unfold swapAt
  rcases a.get? i with _ | x <;> rcases a.get? j with _ | y <;> simp

/-- The `smallest` index computed by one round of `bubbleDown`
(left/right child comparisons of MinHeap.ts). -/
def smallestIdx {α : Type} (a : List (HeapNode α)) (i : ℕ) : ℕ :=
  let n := a.length
  let l := i * 2 + 1
  let r := i * 2 + 2
  let s₁ := if l < n ∧ prioAt a l < prioAt a i then l else i
  if r < n ∧ prioAt a r < prioAt a s₁ then r else s₁

theorem smallestIdx_ge {α : Type} (a : List (HeapNode α)) (i : ℕ) :
    i ≤ smallestIdx a i := by
  unfold smallestIdx
  simp only
  split <;> split <;> omega

theorem smallestIdx_lt {α : Type} (a : List (HeapNode α)) (i : ℕ)
    (h : smallestIdx a i ≠ i) : smallestIdx a i < a.length := by
  unfold smallestIdx at *
  simp only at h ⊢
  split_ifs at h ⊢ <;> omega

theorem smallestIdx_of_le {α : Type} (a : List (HeapNode α)) (i : ℕ)
    (h : a.length ≤ i) : smallestIdx a i = i := by
  by_contra hne
  have h1 := smallestIdx_ge a i
  have h2 := smallestIdx_lt a i hne
  omega

/-- `bubbleDown` from MinHeap.ts, recursing on a fuel bound
(`fuel ≥ a.length - i` suffices, since the index moves to a strictly
larger child each round and `swapAt` preserves the length); structural
recursion keeps the definition kernel-computable.  At fuel 0 the index
is past the end and the loop is over. -/
def bubbleDownAux {α : Type} : ℕ → List (HeapNode α) → ℕ → List (HeapNode α)
  | 0, a, _ => a
  | fuel + 1, a, i =>
    if smallestIdx a i = i then a
    else bubbleDownAux fuel (swapAt a i (smallestIdx a i)) (smallestIdx a i)

/-- `bubbleDown` from MinHeap.ts. -/
def bubbleDown {α : Type} (a : List (HeapNode α)) (i : ℕ) : List (HeapNode α) :=
  bubbleDownAux a.length a i

theorem bubbleDownAux_of_eq {α : Type} (fuel : ℕ) (a : List (HeapNode α))
    (i : ℕ) (h : smallestIdx a i = i) : bubbleDownAux fuel a i = a := by
  cases fuel
  · rfl
  · rw [bubbleDownAux, if_pos h]

theorem bubbleDownAux_congr {α : Type} : ∀ (fuel fuel' : ℕ)
    (a : List (HeapNode α)) (i : ℕ),
    a.length - i ≤ fuel → a.length - i ≤ fuel' →
    bubbleDownAux fuel a i = bubbleDownAux fuel' a i := by
  intro fuel
  induction fuel with
  | zero =>
    intro fuel' a i hi _
    have heq := smallestIdx_of_le a i (by omega)
    rw [bubbleDownAux_of_eq _ _ _ heq, bubbleDownAux_of_eq _ _ _ heq]
  | succ fuel ih =>
    intro fuel' a i hi hi'
    by_cases heq : smallestIdx a i = i
    · rw [bubbleDownAux_of_eq _ _ _ heq, bubbleDownAux_of_eq _ _ _ heq]
    rcases fuel' with _ | fuel'
    · have := smallestIdx_of_le a i (by omega)
      exact absurd this heq
    rw [bubbleDownAux, bubbleDownAux, if_neg heq, if_neg heq]
    have h1 := smallestIdx_ge a i
    have h2 := smallestIdx_lt a i heq
    have hlen := swapAt_length a i (smallestIdx a i)
    exact ih fuel' _ _ (by omega) (by omega)

/-- The original recursion equation of the `bubbleDown` loop. -/
theorem bubbleDown_eq {α : Type} (a : List (HeapNode α)) (i : ℕ) :
    bubbleDown a i =
      if smallestIdx a i = i then a
      else bubbleDown (swapAt a i (smallestIdx a i)) (smallestIdx a i) := by
  unfold bubbleDown
  by_cases heq : smallestIdx a i = i
  · rw [if_pos heq, bubbleDownAux_of_eq _ _ _ heq]
  rw [if_neg heq]
  have h1 := smallestIdx_ge a i
  have h2 := smallestIdx_lt a i heq
  have hlen := swapAt_length a i (smallestIdx a i)
  rcases hn : a.length with _ | n
  · omega
  rw [bubbleDownAux, if_neg heq]
  exact bubbleDownAux_congr n _ _ _ (by omega) (by omega)

structure MinHeap (α : Type) where
  arr : List (HeapNode α) := []
deriving DecidableEq, Repr

namespace MinHeap

def size {α : Type} (h : MinHeap α) : ℕ := h.arr.length

/-- `toArray` returns `[...this.arr]` — a copy of the backing array. -/
def toArray {α : Type} (h : MinHeap α) : List (HeapNode α) := h.arr

/-- `peek`: `this.arr[0] ?? null`. -/
def peek {α : Type} (h : MinHeap α) : Option (HeapNode α) := h.arr.head?

/-- `push`: append then sift up from the last index. -/
def push {α : Type} (h : MinHeap α) (node : HeapNode α) : MinHeap α :=
  ⟨bubbleUp (h.arr ++ [node]) h.arr.length⟩

/-- `pop`: return the root; move the last element to the root and sift
down (the state-changing half is returned alongside, since the model is
pure). -/
def pop {α : Type} (h : MinHeap α) : Option (HeapNode α) × MinHeap α :=
  match hh : h.arr with
  | [] => (none, h)
  | top :: _ =>
    let rest := h.arr.dropLast
    let lastN := h.arr.getLast (by rw [hh]; exact List.cons_ne_nil _ _)
    if rest.isEmpty then (some top, ⟨rest⟩)
    else (some top, ⟨bubbleDown (rest.set 0 lastN) 0⟩)

end MinHeap

theorem bubbleUpAux_length {α : Type} : ∀ (fuel : ℕ)
    (a : List (HeapNode α)) (i : ℕ), (bubbleUpAux fuel a i).length = a.length := by
  intro fuel
  induction fuel with
  | zero => intro a i; rfl
  | succ fuel ih =>
    intro a i
    rw [bubbleUpAux]
    split
    · rfl
    split
    · rfl
    · rw [ih, swapAt_length]

theorem bubbleUp_length {α : Type} (a : List (HeapNode α)) (i : ℕ) :
    (bubbleUp a i).length = a.length := bubbleUpAux_length i a i

theorem bubbleDownAux_length {α : Type} : ∀ (fuel : ℕ)
    (a : List (HeapNode α)) (i : ℕ), (bubbleDownAux fuel a i).length = a.length := by
  intro fuel
  induction fuel with
  | zero => intro a i; rfl
  | succ fuel ih =>
    intro a i
    rw [bubbleDownAux]
    split
    · rfl
    · rw [ih, swapAt_length]

theorem bubbleDown_length {α : Type} (a : List (HeapNode α)) (i : ℕ) :
    (bubbleDown a i).length = a.length := bubbleDownAux_length a.length a i

theorem MinHeap.pop_some_length {α : Type} {h : MinHeap α} {n : HeapNode α}
    {h' : MinHeap α} (hp : MinHeap.pop h = (some n, h')) :
    h'.arr.length + 1 = h.arr.length := by
  unfold MinHeap.pop at hp
  split at hp
  · simp at hp
  · rename_i top rest hh
    simp only at hp
    split at hp <;> rename_i hempty <;>
      simp only [Prod.mk.injEq] at hp <;>
      obtain ⟨-, hsnd⟩ := hp <;> subst hsnd
    · simp only
      rw [List.length_dropLast, hh]
      simp only [List.length_cons]
      omega
    · simp only
      rw [bubbleDown_length, List.length_set, List.length_dropLast, hh]
      simp

/-! ### Heuristic provider (src/src/core/heuristics.ts)

`manhattan` is exact rational arithmetic.  `euclidean` calls `Math.sqrt`
and is not a rational function; `buildTrace` below is therefore verified
generically over the provided heuristic function `hFn : Coord → Coord → ℚ`
(the driver consumes nothing but that function). -/

def manhattan (a b : Coord) : ℚ := |a.x - b.x| + |a.y - b.y|

/-! ### Environment adapter (src/src/core/engine/buildTrace.ts, lines 96–142) -/

structure Neighbor where
  key : String
  cost : ℚ
deriving DecidableEq, Repr

inductive AdapterKind | grid | graph
deriving DecidableEq, Repr

inductive EdgeCostMode | unit | weighted
deriving DecidableEq, Repr

structure Adapter where
  kind : AdapterKind
  coordOfKey : String → Coord
  neighbors : String → List Neighbor
  edgeCostMode : EdgeCostMode

/-- Grid neighbor enumeration: the four axis-aligned candidates, bounds
checked, walls skipped (cost always 1). -/
def gridNeighbors (grid : Grid) (key : String) : List Neighbor :=
  let c := coordOf key
  let candidates : List Coord :=
    [⟨c.x + 1, c.y⟩, ⟨c.x - 1, c.y⟩, ⟨c.x, c.y + 1⟩, ⟨c.x, c.y - 1⟩]
  candidates.filterMap (fun nb =>
    if nb.x < 0 ∨ nb.y < 0 ∨ grid.width ≤ nb.x ∨ grid.height ≤ nb.y then none
    else if keyOf nb ∈ grid.walls then none
    else some ⟨keyOf nb, 1⟩)

/-- `new Map(g.nodes.map((n) => [n.id, n.at]))`. -/
def buildNodeAt (g : Graph) : List (String × Coord) :=
  g.nodes.foldl (fun m n => mSet m n.id n.«at») []

/-- One step of adjacency construction (`for (const e of g.edges)` body):
`arr = adj.get(e.from) ?? []; arr.push({key: e.to, cost}); adj.set(...)`,
and the reverse direction when the graph is undirected. -/
def buildAdjStep (g : Graph) (adj : List (String × List Neighbor))
    (e : GraphEdge) : List (String × List Neighbor) :=
  let adj := mSet adj e.fromKey ((mGet adj e.fromKey).getD [] ++ [⟨e.toKey, e.cost⟩])
  if g.directed then adj
  else mSet adj e.toKey ((mGet adj e.toKey).getD [] ++ [⟨e.fromKey, e.cost⟩])

/-- The adjacency map built once from the edge list; undirected graphs
insert each edge in both directions. -/
def buildAdj (g : Graph) : List (String × List Neighbor) :=
  g.edges.foldl (buildAdjStep g) []

def graphCoordOfKey (g : Graph) (k : String) : Coord :=
  (mGet (buildNodeAt g) k).getD ⟨0, 0⟩

def graphNeighbors (g : Graph) (k : String) : List Neighbor :=
  (mGet (buildAdj g) k).getD []

/-- The adapter construction at the top of `buildTrace` (`env.grid!` /
`env.graph!` non-null assertions modeled with defaults; "graph" and "map"
kinds handled the same way). -/
def adapterOf (env : Environment) : Adapter :=
  if env.kind = EnvironmentKind.grid then
    let grid := env.grid.getD ⟨0, 0, []⟩
    ⟨.grid, coordOf, gridNeighbors grid, .unit⟩
  else
    let g := env.graph.getD ⟨false, [], []⟩
    ⟨.graph, graphCoordOfKey g, graphNeighbors g, .weighted⟩

/-! ### Frontier discipline, items, why-not analysis
(src/src/core/engine/buildTrace.ts, lines 26–88) -/

def frontierKindFor : AlgorithmId → FrontierKind
  | .bfs => .queue
  | .dfs => .stack
  | .dijkstra => .minheap
  | .astar => .minheap

def makeItem (c : Coord) (key : String) (algorithm : AlgorithmId)
    (g h depth w : ℚ) : FrontierItem :=
  if algorithm = .bfs ∨ algorithm = .dfs then
    { key := key, «at» := c, depth := some depth }
  else if algorithm = .dijkstra then
    { key := key, «at» := c, g := some g, priority := some g }
  else
    let f := g + w * h
    { key := key, «at» := c, g := some g, h := some h, f := some f,
      priority := some f }

/-- The metric value of an item, with the source's defaults: `depth ?? 0`,
`g ?? Number.POSITIVE_INFINITY`, `f ?? Number.POSITIVE_INFINITY`. -/
def metricValueOf (metric : Metric) (it : FrontierItem) : WithTop ℚ :=
  match metric with
  | .depth => some (it.depth.getD 0)
  | .g => match it.g with | some v => (v : WithTop ℚ) | none => ⊤
  | .f => match it.f with | some v => (v : WithTop ℚ) | none => ⊤

structure WhyCand where
  candidate : FrontierItem
  candidateValue : WithTop ℚ
deriving DecidableEq, Repr

/-- Stable ascending sort by `candidateValue`
(`sort((a, b) => a.candidateValue - b.candidateValue)`; V8's sort is
stable, and a stable sort's output is unique, so insertion placing later
elements after equal earlier ones reproduces it exactly). -/
def insertByValue (x : WhyCand) : List WhyCand → List WhyCand
  | [] => [x]
  | y :: ys =>
    if x.candidateValue < y.candidateValue then x :: y :: ys
    else y :: insertByValue x ys

def sortByValue (l : List WhyCand) : List WhyCand :=
  l.foldl (fun acc x => insertByValue x acc) []

/-- `compareWhyNot` (lines 53–88): filter out the chosen key, sort the
rest ascending by the metric, TAKE THE FIRST FOUR, and only then drop
exact ties with the chosen value. -/
def compareWhyNot (frontier : List FrontierItem) (chosen : FrontierItem)
    (metric : Metric) : List RejectionReason :=
  let chosenValue := metricValueOf metric chosen
  let candidates :=
    ((sortByValue ((frontier.filter (fun x => x.key ≠ chosen.key)).map
        (fun c => ⟨c, metricValueOf metric c⟩))).take 4).filter
      (fun c => c.candidateValue ≠ chosenValue)
  candidates.map (fun c =>
    { candidate := c.candidate, chosen := chosen, metric := metric,
      candidateValue := c.candidateValue, chosenValue := chosenValue })

/-! ### Engine state and snapshot emission
(src/src/core/engine/buildTrace.ts, lines 167–229) -/

structure Ctx where
  adapter : Adapter
  options : RunOptions
  hFn : Coord → Coord → ℚ
  startKey : String
  goalKey : String
  start : Coord
  goal : Coord
  fk : FrontierKind
  sizeBasis : ℚ

structure EngineState where
  visited : List String
  closed : List String
  cameFrom : List (String × String)
  gScore : List (String × ℚ)
  steps : List StepSnapshot
  relaxations : ℕ
  peakFrontier : ℕ
  peakClosed : ℕ
  queue : List FrontierItem
  stack : List FrontierItem
  heap : MinHeap FrontierItem

def frontierToArray (ctx : Ctx) (st : EngineState) : List FrontierItem :=
  match ctx.fk with
  | .queue => st.queue
  | .stack => st.stack
  | .minheap => st.heap.toArray.map (fun n => n.value)

/-- The per-call fields of `pushStep` (the `partial` argument). -/
structure StepPartial where
  phase : Phase
  currentKey : Option String
  current : Option Coord := none
  selected : Option FrontierItem := none
  relaxation : Option RelaxationEvent := none
  selectionReason : Option SelectionReason := none
  whyNot : Option (List RejectionReason) := none
  path : Option (List Coord) := none
  warnings : Option (List String) := none

/-- The snapshot built by one `pushStep` call: the partial fields plus a
point-in-time copy of the working state (copies are value equality in the
pure model). -/
def snapOf (ctx : Ctx) (st : EngineState) (p : StepPartial) : StepSnapshot :=
  { index := st.steps.length,
    phase := p.phase,
    currentKey := p.currentKey,
    current := p.current,
    frontierKind := ctx.fk,
    frontier := frontierToArray ctx st,
    selected := p.selected,
    visited := st.visited,
    closed := st.closed,
    cameFrom := st.cameFrom,
    gScore := st.gScore,
    relaxation := p.relaxation,
    selectionReason := p.selectionReason,
    whyNot := p.whyNot,
    path := p.path,
    warnings := p.warnings }

/-- `pushStep` (lines 192–208): record peaks and append one snapshot. -/
def pushStep (ctx : Ctx) (st : EngineState) (p : StepPartial) : EngineState :=
  { st with
    peakFrontier := max st.peakFrontier (frontierToArray ctx st).length,
    peakClosed := max st.peakClosed st.closed.length,
    steps := st.steps ++ [snapOf ctx st p] }

/-! ### Path reconstruction (lines 147–165)

The backward walk is a `while` loop; it is modeled with fuel
`cameFrom.length + 1`, which suffices for every acyclic parent map and in
particular for every map the engine builds (each step consumes a distinct
map entry). -/

def walkChainAux (m : List (String × String)) (startK : String) :
    String → ℕ → List String
  | _, 0 => []
  | cur, fuel + 1 =>
    if cur = startK then []
    else match mGet m cur with
      | none => []
      | some prev => prev :: walkChainAux m startK prev fuel

def reconstructPathCoords (coordOfKey : String → Coord)
    (cameFromMap : List (String × String)) (startK goalK : String) :
    List Coord :=
  if startK = goalK then [coordOfKey startK]
  else if (mGet cameFromMap goalK).isNone then []
  else
    let out := goalK :: walkChainAux cameFromMap startK goalK (cameFromMap.length + 1)
    (out.reverse).map coordOfKey

/-! ### Warning strings (verbatim from the source) -/

def exhaustedWarning : String :=
  "Stopped early to avoid an infinite/very long run (iteration cap hit)."

def bfsGridWarning : String :=
  "BFS frontier is growing large — BFS can become memory-intensive on wide open maps."

def bfsGraphWarning : String :=
  "BFS frontier is growing large — BFS can become memory-intensive on wide/branchy graphs."

def dfsDeepWarning : String :=
  "DFS is going very deep — DFS can get “stuck” exploring long branches before finding a good route."

def weightedExpandWarning : String :=
  "Weighted A*: heuristic is amplified — may trade optimality for speed."

def weightedFoundWarning : String :=
  "This A* run uses a weighted heuristic (>1), which can be faster but may produce a suboptimal path."

/-! ### Selection (lines 260–294) -/

/-- The stale-entry-skipping heap pop (discard closed keys and entries
whose `g` exceeds the best-known `g`), recursing on a fuel bound
(`fuel ≥ h.arr.length` suffices, since each discarded pop shrinks the
heap by one); structural recursion keeps the definition
kernel-computable.  At fuel 0 the heap is empty and `pop` yields `none`. -/
def popNonStaleAux (closed : List String) (gScore : List (String × ℚ)) :
    ℕ → MinHeap FrontierItem → Option FrontierItem × MinHeap FrontierItem
  | 0, h => (none, h)
  | fuel + 1, h =>
    match MinHeap.pop h with
    | (none, h') => (none, h')
    | (some node, h') =>
      let popped := node.value
      if popped.key ∈ closed then popNonStaleAux closed gScore fuel h'
      else
        match mGet gScore popped.key, popped.g with
        | some bestKnown, some gg =>
          if gg > bestKnown then popNonStaleAux closed gScore fuel h'
          else (some popped, h')
        | _, _ => (some popped, h')

def popNonStale (closed : List String) (gScore : List (String × ℚ))
    (h : MinHeap FrontierItem) : Option FrontierItem × MinHeap FrontierItem :=
  popNonStaleAux closed gScore h.arr.length h

/-- Pop one item from the live frontier container (lines 261–275).
Returns the item (if any) and the updated state. -/
def selectItem (ctx : Ctx) (st : EngineState) :
    Option FrontierItem × EngineState :=
  match ctx.fk with
  | .queue =>
    match st.queue with
    | [] => (none, st)
    | x :: rest => (some x, { st with queue := rest })
  | .stack => (st.stack.getLast?, { st with stack := st.stack.dropLast })
  | .minheap =>
    match popNonStale st.closed st.gScore st.heap with
    | (popped, h') => (popped, { st with heap := h' })

/-- The `selectionReason` computed for the selected item (lines 279–294). -/
def selectionReasonFor (algorithm : AlgorithmId) (selected : FrontierItem) :
    SelectionReason :=
  match algorithm with
  | .bfs => .fifo
  | .dfs => .lifo
  | .dijkstra => .min .g (selected.g.getD 0)
  | .astar => .min .f (selected.f.getD (selected.priority.getD 0))

/-- Per-neighbor processing (lines 382–483): the body of the
`for (const nb of neighborList)` loop.  `continue` is modeled by
returning the state unchanged. -/
def processNeighbor (ctx : Ctx) (selected : FrontierItem)
    (selectionReason : SelectionReason) (curG curDepth : ℚ)
    (st : EngineState) (nb : Neighbor) : EngineState :=
  let nbKey := nb.key
  if nbKey ∈ st.closed then st
  else
    let nbCoord := ctx.adapter.coordOfKey nbKey
    let stepCost : ℚ :=
      if ctx.options.algorithm = .bfs ∨ ctx.options.algorithm = .dfs then 1
      else if ctx.adapter.edgeCostMode = .weighted then nb.cost else 1
    if ctx.options.algorithm = .bfs ∨ ctx.options.algorithm = .dfs then
      if nbKey ∈ st.visited then st
      else
        let st := { st with
          visited := sAdd st.visited nbKey,
          cameFrom := mSet st.cameFrom nbKey selected.key }
        let nbItem := makeItem nbCoord nbKey ctx.options.algorithm
          (curG + stepCost) 0 (curDepth + 1) ctx.options.heuristicWeight
        let st := pushStep ctx st
          { phase := .enqueue, currentKey := some selected.key,
            current := some selected.«at», selected := some selected,
            selectionReason := some selectionReason,
            relaxation := some
              { fromKey := selected.key, toKey := nbKey, oldG := none,
                newG := curG + stepCost, improved := true } }
        let st :=
          if ctx.fk = .queue then { st with queue := st.queue ++ [nbItem] }
          else { st with stack := st.stack ++ [nbItem] }
        pushStep ctx st
          { phase := .enqueue, currentKey := some selected.key,
            current := some selected.«at», selected := some selected,
            selectionReason := some selectionReason }
    else
      -- Dijkstra / A*
      let tentativeG := curG + stepCost
      let oldG : Option ℚ := mGet st.gScore nbKey
      let improved : Bool := match oldG with
        | none => true
        | some o => decide (tentativeG < o)
      if improved = false then st
      else
        let st := { st with
          cameFrom := mSet st.cameFrom nbKey selected.key,
          gScore := mSet st.gScore nbKey tentativeG,
          visited := sAdd st.visited nbKey,
          relaxations := st.relaxations + 1 }
        let h := if ctx.options.algorithm = .astar then ctx.hFn nbCoord ctx.goal else 0
        let nbItem := makeItem nbCoord nbKey ctx.options.algorithm tentativeG h
          (curDepth + 1) ctx.options.heuristicWeight
        let st := pushStep ctx st
          { phase := .relax, currentKey := some selected.key,
            current := some selected.«at», selected := some selected,
            selectionReason := some selectionReason,
            relaxation := some
              { fromKey := selected.key, toKey := nbKey, oldG := oldG,
                newG := tentativeG, improved := true } }
        let st := { st with
          heap := st.heap.push
            { id := nbKey, value := nbItem,
              priority := nbItem.priority.getD tentativeG } }
        pushStep ctx st
          { phase := .enqueue, currentKey := some selected.key,
            current := some selected.«at», selected := some selected,
            selectionReason := some selectionReason }

/-- The anomaly warnings of the expand phase (lines 344–366); `addWarning`
deduplicates, and the three candidate messages are pairwise distinct, so
at most one copy of each is appended.  The JS literal `0.35` is modeled as
`35/100` (the engine only compares it against values far from the
double-rounding error in every reasoned-about run). -/
def expandWarnings (ctx : Ctx) (selected : FrontierItem)
    (frontierSize : ℕ) : List String :=
  (if ctx.options.algorithm = .bfs ∧
      (frontierSize : ℚ) > ctx.sizeBasis * (35/100) then
    [if ctx.adapter.kind = .grid then bfsGridWarning else bfsGraphWarning]
  else []) ++
  (if ctx.options.algorithm = .dfs ∧
      selected.depth.getD 0 > ctx.sizeBasis * (35/100) then
    [dfsDeepWarning]
  else []) ++
  (if ctx.options.algorithm = .astar ∧ ctx.options.heuristicWeight > 1 then
    [weightedExpandWarning]
  else [])

/-- The expansion half of an iteration (lines 334–483): mark the selected
key closed, emit the "expand" snapshot, emit a second "expand" snapshot
when anomaly warnings fire, then relax every neighbor. -/
def expandPhase (ctx : Ctx) (selected : FrontierItem)
    (selectionReason : SelectionReason) (st : EngineState) : EngineState :=
  let st := { st with closed := sAdd st.closed selected.key }
  let st := pushStep ctx st
    { phase := .expand, currentKey := some selected.key,
      current := some selected.«at», selected := some selected,
      selectionReason := some selectionReason }
  let warnings := expandWarnings ctx selected (frontierToArray ctx st).length
  let st :=
    if warnings ≠ [] then
      pushStep ctx st
        { phase := .expand, currentKey := some selected.key,
          current := some selected.«at», selected := some selected,
          selectionReason := some selectionReason,
          warnings := some warnings }
    else st
  let curG := (mGet st.gScore selected.key).getD 0
  let curDepth := selected.depth.getD 0
  let neighborList := ctx.adapter.neighbors selected.key
  neighborList.foldl
    (processNeighbor ctx selected selectionReason curG curDepth) st

/-- One iteration of the main `while` loop after the iteration-cap check
(lines 258–483).  The boolean is `true` when the loop continues and
`false` on `break`. -/
def loopBody (ctx : Ctx) (st : EngineState) : EngineState × Bool :=
  match selectItem ctx st with
  | (none, st) => (st, false)
  | (some selected, st) =>
    if selected.key ∈ st.closed then (st, true)
    else
      let selectionReason := selectionReasonFor ctx.options.algorithm selected
      let frontierNow := frontierToArray ctx st
      let whyNot : Option (List RejectionReason) :=
        if ctx.fk = .minheap then
          some (compareWhyNot (selected :: frontierNow) selected
            (if ctx.options.algorithm = .dijkstra then .g else .f))
        else none
      let st := pushStep ctx st
        { phase := .select, currentKey := some selected.key,
          current := some selected.«at», selected := some selected,
          selectionReason := some selectionReason, whyNot := whyNot }
      if selected.key = ctx.goalKey then
        let path := reconstructPathCoords ctx.adapter.coordOfKey st.cameFrom
          ctx.startKey ctx.goalKey
        let st := pushStep ctx st
          { phase := .found, currentKey := some selected.key,
            current := some selected.«at», selected := some selected,
            selectionReason := some .goal, path := some path,
            warnings :=
              if ctx.options.algorithm = .astar ∧ ctx.options.heuristicWeight > 1
              then some [weightedFoundWarning] else none }
        (st, false)
      else (expandPhase ctx selected selectionReason st, true)

/-- The main loop with the iteration cap as fuel: the source increments
`iterations` at the top of each pass and emits the "exhausted" snapshot
when `iterations > maxIterations`, so the body runs at most
`⌊maxIterations⌋` times and a nonempty frontier at fuel 0 produces the
exhausted snapshot. -/
def runLoop (ctx : Ctx) (st : EngineState) : ℕ → EngineState
  | 0 =>
    if (frontierToArray ctx st).length > 0 then
      pushStep ctx st
        { phase := .exhausted, currentKey := none,
          warnings := some [exhaustedWarning] }
    else st
  | fuel + 1 =>
    if (frontierToArray ctx st).length > 0 then
      match loopBody ctx st with
      | (st', true) => runLoop ctx st' fuel
      | (st', false) => st'
    else st

/-! ### buildTrace (src/src/core/engine/buildTrace.ts, lines 90–520) -/

def sizeBasisOf (env : Environment) : ℚ :=
  if env.kind = .grid then
    (env.grid.getD ⟨0, 0, []⟩).width * (env.grid.getD ⟨0, 0, []⟩).height
  else ((env.graph.getD ⟨false, [], []⟩).nodes.length : ℚ)

def maxIterationsOf (env : Environment) : ℚ :=
  max 100 (min (sizeBasisOf env * 20) 10000)

def mkCtx (hFn : Coord → Coord → ℚ) (env : Environment)
    (startKey goalKey : String) (options : RunOptions) : Ctx :=
  let adapter := adapterOf env
  { adapter := adapter, options := options, hFn := hFn,
    startKey := startKey, goalKey := goalKey,
    start := adapter.coordOfKey startKey,
    goal := adapter.coordOfKey goalKey,
    fk := frontierKindFor options.algorithm,
    sizeBasis := sizeBasisOf env }

/-- The seeded state after lines 167–229: start marked visited, gScore 0,
start item in the chosen container, "init" snapshot emitted. -/
def seedState (ctx : Ctx) : EngineState :=
  let startItem := makeItem ctx.start ctx.startKey ctx.options.algorithm 0
    (ctx.hFn ctx.start ctx.goal) 0 ctx.options.heuristicWeight
  let st : EngineState := {
    visited := sAdd [] ctx.startKey,
    closed := [],
    cameFrom := [],
    gScore := mSet [] ctx.startKey 0,
    steps := [],
    relaxations := 0,
    peakFrontier := 0,
    peakClosed := 0,
    queue := if ctx.fk = .queue then [startItem] else [],
    stack := if ctx.fk = .stack then [startItem] else [],
    heap := if ctx.fk = .minheap then
        MinHeap.push ⟨[]⟩
          { id := ctx.startKey, value := startItem,
            priority := startItem.priority.getD 0 }
      else ⟨[]⟩ }
  pushStep ctx st { phase := .init, currentKey := none }

/-- `buildTrace` — the engine entry point.  `hFn` is the heuristic function
provided by `heuristicFn(options.heuristic)` (see the heuristics section).
The trailing `console.log`/`console.warn` diagnostics of the source do not
touch the returned trace and are not modeled. -/
def buildTrace (hFn : Coord → Coord → ℚ) (env : Environment)
    (startKey goalKey : String) (options : RunOptions) : Trace :=
  let ctx := mkCtx hFn env startKey goalKey options
  let stF := runLoop ctx (seedState ctx) ⌊maxIterationsOf env⌋₊
  let found := stF.steps.any (fun s => s.phase = .found)
  let path : List Coord :=
    if found then
      (((stF.steps.reverse).find?
        (fun s => s.phase = .found ∧ s.path.isSome)).bind
          (fun s => s.path)).getD []
    else []
  { options := options,
    steps := stF.steps,
    found := found,
    path := path,
    metrics := {
      explored := stF.closed.length,
      relaxations := stF.relaxations,
      peakFrontier := stF.peakFrontier,
      peakClosed := stF.peakClosed,
      runtimeSteps := stF.steps.length } }

/-! ### Structural lemmas: pushStep, selectItem, frontier -/

@[simp] theorem pushStep_steps (ctx : Ctx) (st : EngineState) (p : StepPartial) :
    (pushStep ctx st p).steps = st.steps ++ [snapOf ctx st p] := rfl

@[simp] theorem pushStep_visited (ctx : Ctx) (st : EngineState) (p : StepPartial) :
    (pushStep ctx st p).visited = st.visited := rfl

@[simp] theorem pushStep_closed (ctx : Ctx) (st : EngineState) (p : StepPartial) :
    (pushStep ctx st p).closed = st.closed := rfl

@[simp] theorem pushStep_cameFrom (ctx : Ctx) (st : EngineState) (p : StepPartial) :
    (pushStep ctx st p).cameFrom = st.cameFrom := rfl

@[simp] theorem pushStep_gScore (ctx : Ctx) (st : EngineState) (p : StepPartial) :
    (pushStep ctx st p).gScore = st.gScore := rfl

@[simp] theorem pushStep_queue (ctx : Ctx) (st : EngineState) (p : StepPartial) :
    (pushStep ctx st p).queue = st.queue := rfl

@[simp] theorem pushStep_stack (ctx : Ctx) (st : EngineState) (p : StepPartial) :
    (pushStep ctx st p).stack = st.stack := rfl

@[simp] theorem pushStep_heap (ctx : Ctx) (st : EngineState) (p : StepPartial) :
    (pushStep ctx st p).heap = st.heap := rfl

@[simp] theorem pushStep_relaxations (ctx : Ctx) (st : EngineState) (p : StepPartial) :
    (pushStep ctx st p).relaxations = st.relaxations := rfl

@[simp] theorem snapOf_phase (ctx : Ctx) (st : EngineState) (p : StepPartial) :
    (snapOf ctx st p).phase = p.phase := rfl

@[simp] theorem snapOf_closed (ctx : Ctx) (st : EngineState) (p : StepPartial) :
    (snapOf ctx st p).closed = st.closed := rfl

@[simp] theorem snapOf_visited (ctx : Ctx) (st : EngineState) (p : StepPartial) :
    (snapOf ctx st p).visited = st.visited := rfl

@[simp] theorem snapOf_whyNot (ctx : Ctx) (st : EngineState) (p : StepPartial) :
    (snapOf ctx st p).whyNot = p.whyNot := rfl

@[simp] theorem snapOf_selected (ctx : Ctx) (st : EngineState) (p : StepPartial) :
    (snapOf ctx st p).selected = p.selected := rfl

@[simp] theorem snapOf_warnings (ctx : Ctx) (st : EngineState) (p : StepPartial) :
    (snapOf ctx st p).warnings = p.warnings := rfl

@[simp] theorem snapOf_frontierKind (ctx : Ctx) (st : EngineState) (p : StepPartial) :
    (snapOf ctx st p).frontierKind = ctx.fk := rfl

@[simp] theorem snapOf_frontier (ctx : Ctx) (st : EngineState) (p : StepPartial) :
    (snapOf ctx st p).frontier = frontierToArray ctx st := rfl

@[simp] theorem snapOf_currentKey (ctx : Ctx) (st : EngineState) (p : StepPartial) :
    (snapOf ctx st p).currentKey = p.currentKey := rfl

@[simp] theorem snapOf_path (ctx : Ctx) (st : EngineState) (p : StepPartial) :
    (snapOf ctx st p).path = p.path := rfl

@[simp] theorem snapOf_cameFrom (ctx : Ctx) (st : EngineState) (p : StepPartial) :
    (snapOf ctx st p).cameFrom = st.cameFrom := rfl

@[simp] theorem snapOf_gScore (ctx : Ctx) (st : EngineState) (p : StepPartial) :
    (snapOf ctx st p).gScore = st.gScore := rfl

@[simp] theorem selectItem_closed (ctx : Ctx) (st : EngineState) :
    (selectItem ctx st).2.closed = st.closed := by
  unfold selectItem
  rcases ctx.fk
  case queue => rcases st.queue <;> rfl
  case stack => rfl
  case minheap => rcases popNonStale st.closed st.gScore st.heap <;> rfl

@[simp] theorem selectItem_steps (ctx : Ctx) (st : EngineState) :
    (selectItem ctx st).2.steps = st.steps := by
  unfold selectItem
  rcases ctx.fk
  case queue => rcases st.queue <;> rfl
  case stack => rfl
  case minheap => rcases popNonStale st.closed st.gScore st.heap <;> rfl

@[simp] theorem selectItem_visited (ctx : Ctx) (st : EngineState) :
    (selectItem ctx st).2.visited = st.visited := by
  unfold selectItem
  rcases ctx.fk
  case queue => rcases st.queue <;> rfl
  case stack => rfl
  case minheap => rcases popNonStale st.closed st.gScore st.heap <;> rfl

@[simp] theorem selectItem_cameFrom (ctx : Ctx) (st : EngineState) :
    (selectItem ctx st).2.cameFrom = st.cameFrom := by
  unfold selectItem
  rcases ctx.fk
  case queue => rcases st.queue <;> rfl
  case stack => rfl
  case minheap => rcases popNonStale st.closed st.gScore st.heap <;> rfl

@[simp] theorem selectItem_gScore (ctx : Ctx) (st : EngineState) :
    (selectItem ctx st).2.gScore = st.gScore := by
  unfold selectItem
  rcases ctx.fk
  case queue => rcases st.queue <;> rfl
  case stack => rfl
  case minheap => rcases popNonStale st.closed st.gScore st.heap <;> rfl

/-! ### The per-snapshot invariant carried through the loop -/

/-- Facts every snapshot a run emits satisfies: the recorded frontier kind
is the run's; a "select" snapshot records the selected item, its key is
outside the recorded closed set, and its `whyNot` is exactly the
`compareWhyNot` analysis of its recorded frontier (present only under the
heap discipline); an "exhausted" snapshot carries exactly the cap-hit
warning. -/
def MasterInv (ctx : Ctx) (s : StepSnapshot) : Prop :=
  s.frontierKind = ctx.fk ∧
  (s.phase = .select → ∃ sel, s.selected = some sel ∧ sel.key ∉ s.closed ∧
    s.whyNot = (if ctx.fk = .minheap then
        some (compareWhyNot (sel :: s.frontier) sel
          (if ctx.options.algorithm = .dijkstra then .g else .f))
      else none)) ∧
  (s.phase = .exhausted → s.warnings = some [exhaustedWarning])

theorem processNeighbor_spec (ctx : Ctx) (sel : FrontierItem)
    (r : SelectionReason) (cg cd : ℚ) (st : EngineState) (nb : Neighbor) :
    (processNeighbor ctx sel r cg cd st nb).closed = st.closed ∧
    ∃ Δ, (processNeighbor ctx sel r cg cd st nb).steps = st.steps ++ Δ ∧
      ∀ s ∈ Δ, s.frontierKind = ctx.fk ∧
        (s.phase = .enqueue ∨ s.phase = .relax) ∧ s.closed = st.closed := by
  by_cases hclosed : nb.key ∈ st.closed
  · exact ⟨by simp [processNeighbor, hclosed], [],
      by simp [processNeighbor, hclosed], by simp⟩
  · by_cases halg : ctx.options.algorithm = .bfs ∨ ctx.options.algorithm = .dfs
    · by_cases hvis : nb.key ∈ st.visited
      · exact ⟨by simp [processNeighbor, hclosed, halg, hvis], [],
          by simp [processNeighbor, hclosed, halg, hvis], by simp⟩
      · simp only [processNeighbor, if_neg hclosed, if_pos halg, if_neg hvis]
        split
        all_goals constructor
        all_goals try rfl
        all_goals simp only [pushStep_steps, List.append_assoc, List.singleton_append]
        all_goals refine ⟨_, rfl, ?_⟩
        all_goals rintro s hs
        all_goals simp only [List.mem_cons, List.not_mem_nil, or_false] at hs
        all_goals rcases hs with rfl | rfl
        all_goals exact ⟨rfl, Or.inl rfl, rfl⟩
    · simp only [processNeighbor, if_neg hclosed, if_neg halg]
      rcases hold : mGet st.gScore nb.key with _ | o
      · simp only [hold]
        rw [if_neg (by decide : ¬(true = false))]
        constructor
        · rfl
        · simp only [pushStep_steps, List.append_assoc, List.singleton_append]
          refine ⟨_, rfl, ?_⟩
          rintro s hs
          simp only [List.mem_cons, List.not_mem_nil, or_false] at hs
          rcases hs with rfl | rfl
          · exact ⟨rfl, Or.inr rfl, rfl⟩
          · exact ⟨rfl, Or.inl rfl, rfl⟩
      · simp only [hold]
        by_cases himp : cg + (if ctx.adapter.edgeCostMode = .weighted then nb.cost else 1) < o
        · rw [if_neg (by simp [himp] : ¬(decide (cg + (if ctx.adapter.edgeCostMode = .weighted then nb.cost else 1) < o) = false))]
          constructor
          · rfl
          · simp only [pushStep_steps, List.append_assoc, List.singleton_append]
            refine ⟨_, rfl, ?_⟩
            rintro s hs
            simp only [List.mem_cons, List.not_mem_nil, or_false] at hs
            rcases hs with rfl | rfl
            · exact ⟨rfl, Or.inr rfl, rfl⟩
            · exact ⟨rfl, Or.inl rfl, rfl⟩
        · rw [if_pos (by simp [himp] : (decide (cg + (if ctx.adapter.edgeCostMode = .weighted then nb.cost else 1) < o) = false))]
          exact ⟨rfl, [], by simp, by simp⟩

theorem foldl_processNeighbor_spec (ctx : Ctx) (sel : FrontierItem)
    (r : SelectionReason) (cg cd : ℚ) (nbs : List Neighbor) (st : EngineState) :
    (nbs.foldl (processNeighbor ctx sel r cg cd) st).closed = st.closed ∧
    ∃ Δ, (nbs.foldl (processNeighbor ctx sel r cg cd) st).steps = st.steps ++ Δ ∧
      ∀ s ∈ Δ, s.frontierKind = ctx.fk ∧
        (s.phase = .enqueue ∨ s.phase = .relax) ∧ s.closed = st.closed := by
  induction nbs generalizing st with
  | nil => exact ⟨rfl, [], by simp, by simp⟩
  | cons nb rest ih =>
    rw [List.foldl_cons]
    obtain ⟨hc1, Δ₁, hs1, hm1⟩ := processNeighbor_spec ctx sel r cg cd st nb
    obtain ⟨hc2, Δ₂, hs2, hm2⟩ := ih (processNeighbor ctx sel r cg cd st nb)
    refine ⟨by rw [hc2, hc1], Δ₁ ++ Δ₂, ?_, ?_⟩
    · rw [hs2, hs1, List.append_assoc]
    · rintro s hs
      rcases List.mem_append.mp hs with h | h
      · exact hm1 s h
      · obtain ⟨hk, hp, hcl⟩ := hm2 s h
        exact ⟨hk, hp, by rw [hcl, hc1]⟩

/-- What `expandPhase` does to `closed` and `steps`. -/
theorem expandPhase_spec (ctx : Ctx) (sel : FrontierItem)
    (r : SelectionReason) (st : EngineState) :
    (expandPhase ctx sel r st).closed = sAdd st.closed sel.key ∧
    ∃ Δ, (expandPhase ctx sel r st).steps = st.steps ++ Δ ∧
      ∀ s ∈ Δ, s.frontierKind = ctx.fk ∧
        (s.phase = .expand ∨ s.phase = .enqueue ∨ s.phase = .relax) ∧
        s.closed = sAdd st.closed sel.key := by
  simp only [expandPhase]
  by_cases hw : expandWarnings ctx sel
      (frontierToArray ctx (pushStep ctx
        { st with closed := sAdd st.closed sel.key }
        { phase := .expand, currentKey := some sel.key,
          current := some sel.«at», selected := some sel,
          selectionReason := some r })).length ≠ []
  · rw [if_pos hw]
    obtain ⟨hcf, Δf, hsf, hmf⟩ := foldl_processNeighbor_spec ctx sel r _ _ _ _
    refine ⟨by rw [hcf]; rfl, ?_⟩
    rw [hsf]
    simp only [pushStep_steps, List.append_assoc, List.singleton_append, List.cons_append, List.nil_append]
    refine ⟨_, rfl, ?_⟩
    rintro s hs
    simp only [List.mem_cons] at hs
    rcases hs with rfl | rfl | hs
    · exact ⟨rfl, Or.inl rfl, rfl⟩
    · exact ⟨rfl, Or.inl rfl, rfl⟩
    · obtain ⟨hk, hp, hcl⟩ := hmf s hs
      exact ⟨hk, Or.inr hp, by rw [hcl]; rfl⟩
  · rw [if_neg hw]
    obtain ⟨hcf, Δf, hsf, hmf⟩ := foldl_processNeighbor_spec ctx sel r _ _ _ _
    refine ⟨by rw [hcf]; rfl, ?_⟩
    rw [hsf]
    simp only [pushStep_steps, List.append_assoc, List.singleton_append, List.cons_append, List.nil_append]
    refine ⟨_, rfl, ?_⟩
    rintro s hs
    simp only [List.mem_cons] at hs
    rcases hs with rfl | hs
    · exact ⟨rfl, Or.inl rfl, rfl⟩
    · obtain ⟨hk, hp, hcl⟩ := hmf s hs
      exact ⟨hk, Or.inr hp, by rw [hcl]; rfl⟩

/-- What one loop iteration does to `closed` and `steps`: closed only
grows, snapshots are only appended, every appended snapshot satisfies the
master invariant and is not "exhausted", and at most one appended snapshot
is a "select". -/
theorem loopBody_spec (ctx : Ctx) (st : EngineState) :
    (∀ x ∈ st.closed, x ∈ (loopBody ctx st).1.closed) ∧
    ∃ Δ, (loopBody ctx st).1.steps = st.steps ++ Δ ∧
      (∀ s ∈ Δ, MasterInv ctx s ∧ s.phase ≠ .exhausted ∧
        (∀ x ∈ s.closed, x ∈ (loopBody ctx st).1.closed) ∧
        (∀ x ∈ st.closed, x ∈ s.closed)) ∧
      Δ.countP (fun s => decide (s.phase = .select)) ≤ 1 ∧
      Δ.Pairwise (fun a b => ∀ x ∈ a.closed, x ∈ b.closed) := by
  have hcl0 := selectItem_closed ctx st
  have hst0 := selectItem_steps ctx st
  rcases hsel : selectItem ctx st with ⟨_ | sel, st₀⟩ <;>
    rw [hsel] at hcl0 hst0 <;>
    simp only at hcl0 hst0 <;>
    unfold loopBody <;> rw [hsel]
  · exact ⟨fun x hx => by rw [hcl0]; exact hx, [], by simp [hst0], by simp, by simp⟩
  · by_cases hcl : sel.key ∈ st₀.closed
    · simp only [hcl, if_true]
      exact ⟨fun x hx => by rw [hcl0]; exact hx, [], by simp [hst0], by simp, by simp⟩
    · simp only [hcl, if_false]
      by_cases hgoal : sel.key = ctx.goalKey
      · simp only [hgoal, if_true]
        refine ⟨fun x hx => by simp only [pushStep_closed]; rw [hcl0]; exact hx, ?_⟩
        simp only [pushStep_steps, hst0, List.append_assoc, List.singleton_append,
          List.cons_append, List.nil_append]
        refine ⟨_, rfl, ?_, ?_, ?_⟩
        · rintro s hs
          simp only [List.mem_cons, List.not_mem_nil, or_false] at hs
          rcases hs with rfl | rfl
          · refine ⟨⟨rfl, ?_, by simp⟩, by simp, ?_, ?_⟩
            · intro _
              exact ⟨sel, rfl, hcl, rfl⟩
            · intro x hx
              simp only [snapOf_closed] at hx
              simp only [pushStep_closed]
              rw [hcl0] at hx ⊢
              exact hx
            · intro x hx
              simp only [snapOf_closed]
              rw [hcl0]
              exact hx
          · refine ⟨⟨rfl, by simp, by simp⟩, by simp, ?_, ?_⟩
            · intro x hx
              simp only [snapOf_closed, pushStep_closed] at hx
              simp only [pushStep_closed]
              exact hx
            · intro x hx
              simp only [snapOf_closed, pushStep_closed]
              rw [hcl0]
              exact hx
        · simp [List.countP_cons]
        · refine List.pairwise_cons.mpr ⟨?_, ?_⟩
          · rintro b hb
            simp only [List.mem_singleton] at hb
            subst hb
            intro x hx
            simp only [snapOf_closed, pushStep_closed] at hx ⊢
            exact hx
          · simp
      · simp only [hgoal, if_false]
        obtain ⟨hce, Δe, hse, hme⟩ := expandPhase_spec ctx sel
          (selectionReasonFor ctx.options.algorithm sel) (pushStep ctx st₀
            { phase := .select, currentKey := some sel.key,
              current := some sel.«at», selected := some sel,
              selectionReason := some (selectionReasonFor ctx.options.algorithm sel),
              whyNot :=
                if ctx.fk = .minheap then
                  some (compareWhyNot (sel :: frontierToArray ctx st₀) sel
                    (if ctx.options.algorithm = .dijkstra then .g else .f))
                else none })
        refine ⟨?_, ?_⟩
        · intro x hx
          rw [hce]
          simp only [pushStep_closed]
          rw [hcl0]
          exact sAdd_subset _ _ hx
        rw [hse]
        simp only [pushStep_steps, hst0, List.append_assoc, List.singleton_append,
          List.cons_append, List.nil_append]
        refine ⟨_, rfl, ?_, ?_, ?_⟩
        · rintro s hs
          simp only [List.mem_cons] at hs
          rcases hs with rfl | hs
          · refine ⟨⟨rfl, ?_, by simp⟩, by simp, ?_, ?_⟩
            · intro _
              exact ⟨sel, rfl, hcl, rfl⟩
            · intro x hx
              simp only [snapOf_closed] at hx
              rw [hce]
              simp only [pushStep_closed]
              exact sAdd_subset _ _ hx
            · intro x hx
              simp only [snapOf_closed]
              rw [hcl0]
              exact hx
          · obtain ⟨hk, hp, hclo⟩ := hme s hs
            refine ⟨⟨hk, ?_, ?_⟩, ?_, ?_, ?_⟩
            · intro hps
              rcases hp with h | h | h <;> rw [hps] at h <;> exact absurd h (by decide)
            · intro hps
              rcases hp with h | h | h <;> rw [hps] at h <;> exact absurd h (by decide)
            · rcases hp with h | h | h <;> rw [h] <;> decide
            · intro x hx
              rw [hclo] at hx
              rw [hce]
              exact hx
            · intro x hx
              rw [hclo]
              simp only [pushStep_closed]
              rw [hcl0]
              exact sAdd_subset _ _ hx
        · rw [List.countP_cons]
          have hze : Δe.countP (fun s => decide (s.phase = .select)) = 0 := by
            rw [List.countP_eq_zero]
            intro s hs
            obtain ⟨-, hp, -⟩ := hme s hs
            rcases hp with h | h | h <;> rw [h] <;> decide
          simp [hze]
        · refine List.pairwise_cons.mpr ⟨?_, ?_⟩
          · rintro b hb
            obtain ⟨-, -, hclo⟩ := hme b hb
            intro x hx
            simp only [snapOf_closed] at hx
            rw [hclo]
            simp only [pushStep_closed]
            exact sAdd_subset _ _ hx
          · refine List.pairwise_of_forall_mem_list ?_
            intro a ha b hb
            obtain ⟨-, -, hcla⟩ := hme a ha
            obtain ⟨-, -, hclb⟩ := hme b hb
            intro x hx
            rw [hcla] at hx
            rw [hclb]
            exact hx

theorem mem_dropLast_append {α : Type} {s : α} {A B : List α}
    (h : s ∈ (A ++ B).dropLast) : s ∈ A ∨ s ∈ B.dropLast := by
  rcases B with _ | ⟨b, bs⟩
  · rw [List.append_nil] at h
    exact Or.inl ((List.dropLast_sublist A).subset h)
  · rw [List.dropLast_append_of_ne_nil A (List.cons_ne_nil b bs)] at h
    exact List.mem_append.mp h

/-- The cumulative effect of the capped loop: closed only grows, snapshots
are only appended, all appended snapshots satisfy the master invariant and
have monotonically growing closed sets, at most `fuel` of them are
"select" snapshots, and only the very last one can be "exhausted". -/
theorem runLoop_spec (ctx : Ctx) (fuel : ℕ) (st : EngineState) :
    (∀ x ∈ st.closed, x ∈ (runLoop ctx st fuel).closed) ∧
    ∃ Δ, (runLoop ctx st fuel).steps = st.steps ++ Δ ∧
      (∀ s ∈ Δ, MasterInv ctx s ∧
        (∀ x ∈ s.closed, x ∈ (runLoop ctx st fuel).closed) ∧
        (∀ x ∈ st.closed, x ∈ s.closed)) ∧
      Δ.countP (fun s => decide (s.phase = .select)) ≤ fuel ∧
      (∀ s ∈ Δ.dropLast, s.phase ≠ .exhausted) ∧
      Δ.Pairwise (fun a b => ∀ x ∈ a.closed, x ∈ b.closed) := by
  induction fuel generalizing st with
  | zero =>
    unfold runLoop
    by_cases hf : (frontierToArray ctx st).length > 0
    · rw [if_pos hf]
      refine ⟨fun x hx => hx, ?_⟩
      simp only [pushStep_steps]
      refine ⟨_, rfl, ?_, by simp, by simp, by simp⟩
      rintro s hs
      simp only [List.mem_singleton] at hs
      subst hs
      exact ⟨⟨rfl, by simp, fun _ => rfl⟩, fun x hx => hx, fun x hx => hx⟩
    · rw [if_neg hf]
      exact ⟨fun x hx => hx, [], by simp, by simp, by simp, by simp, by simp⟩
  | succ n ih =>
    unfold runLoop
    by_cases hf : (frontierToArray ctx st).length > 0
    · rw [if_pos hf]
      rcases hlb : loopBody ctx st with ⟨st', cont⟩
      obtain ⟨hbc, Δb, hbs, hbm, hbcnt, hbpw⟩ := loopBody_spec ctx st
      rw [hlb] at hbc hbs hbm
      simp only at hbc hbs hbm
      rcases cont
      · -- break
        refine ⟨hbc, Δb, hbs, ?_, ?_, ?_, hbpw⟩
        · intro s hs
          obtain ⟨hmi, -, hsub, hentry⟩ := hbm s hs
          exact ⟨hmi, hsub, hentry⟩
        · calc Δb.countP (fun s => decide (s.phase = .select)) ≤ 1 := hbcnt
            _ ≤ n + 1 := by omega
        · intro s hs
          obtain ⟨-, hne, -⟩ := hbm s ((List.dropLast_sublist Δb).subset hs)
          exact hne
      · -- continue
        obtain ⟨hrc, Δr, hrs, hrm, hrcnt, hrex, hrpw⟩ := ih st'
        refine ⟨fun x hx => hrc x (hbc x hx), Δb ++ Δr, ?_, ?_, ?_, ?_, ?_⟩
        · rw [hrs, hbs, List.append_assoc]
        · intro s hs
          rcases List.mem_append.mp hs with h | h
          · obtain ⟨hmi, -, hsub, hentry⟩ := hbm s h
            exact ⟨hmi, fun x hx => hrc x (hsub x hx), hentry⟩
          · obtain ⟨hmi, hsub, hentry⟩ := hrm s h
            exact ⟨hmi, hsub, fun x hx => hentry x (hbc x hx)⟩
        · rw [List.countP_append]
          omega
        · intro s hs
          rcases mem_dropLast_append hs with h | h
          · obtain ⟨-, hne, -⟩ := hbm s h
            exact hne
          · exact hrex s h
        · refine List.pairwise_append.mpr ⟨hbpw, hrpw, ?_⟩
          intro a ha b hb
          obtain ⟨-, -, hsub, -⟩ := hbm a ha
          obtain ⟨-, -, hentry⟩ := hrm b hb
          intro x hx
          exact hentry x (hsub x hx)
    · rw [if_neg hf]
      exact ⟨fun x hx => hx, [], by simp, by simp, by simp, by simp, by simp⟩

/-! ### Trace-level consequences -/

theorem buildTrace_steps_eq (hFn : Coord → Coord → ℚ) (env : Environment)
    (sK gK : String) (o : RunOptions) :
    (buildTrace hFn env sK gK o).steps =
      (runLoop (mkCtx hFn env sK gK o) (seedState (mkCtx hFn env sK gK o))
        ⌊maxIterationsOf env⌋₊).steps := rfl

theorem seedState_steps (ctx : Ctx) :
    ∃ s0, (seedState ctx).steps = [s0] ∧ s0.phase = .init ∧
      s0.closed = [] ∧ s0.frontierKind = ctx.fk :=
  ⟨_, rfl, rfl, rfl, rfl⟩

/-- Every snapshot of every trace satisfies the master invariant. -/
theorem buildTrace_snap_inv (hFn : Coord → Coord → ℚ) (env : Environment)
    (sK gK : String) (o : RunOptions) :
    ∀ s ∈ (buildTrace hFn env sK gK o).steps,
      MasterInv (mkCtx hFn env sK gK o) s := by
  intro s hs
  rw [buildTrace_steps_eq] at hs
  obtain ⟨s0, hseed, hph, hcl, hfk⟩ := seedState_steps (mkCtx hFn env sK gK o)
  obtain ⟨-, Δ, hsteps, hm, -, -, -⟩ := runLoop_spec (mkCtx hFn env sK gK o)
    ⌊maxIterationsOf env⌋₊ (seedState (mkCtx hFn env sK gK o))
  rw [hsteps, hseed] at hs
  rcases List.mem_append.mp hs with h | h
  · simp only [List.mem_singleton] at h
    subst h
    refine ⟨hfk, ?_, ?_⟩
    · intro hsel
      rw [hph] at hsel
      exact absurd hsel (by decide)
    · intro hex
      rw [hph] at hex
      exact absurd hex (by decide)
  · exact (hm s h).1

/-- Closed sets recorded in a trace grow monotonically along the
snapshot sequence. -/
theorem buildTrace_closed_mono (hFn : Coord → Coord → ℚ) (env : Environment)
    (sK gK : String) (o : RunOptions) :
    ((buildTrace hFn env sK gK o).steps).Pairwise
      (fun a b => ∀ x ∈ a.closed, x ∈ b.closed) := by
  rw [buildTrace_steps_eq]
  obtain ⟨s0, hseed, hph, hcl, hfk⟩ := seedState_steps (mkCtx hFn env sK gK o)
  obtain ⟨-, Δ, hsteps, hm, -, -, hpw⟩ := runLoop_spec (mkCtx hFn env sK gK o)
    ⌊maxIterationsOf env⌋₊ (seedState (mkCtx hFn env sK gK o))
  rw [hsteps, hseed]
  refine List.pairwise_append.mpr ⟨List.pairwise_singleton _ _, hpw, ?_⟩
  intro a ha b hb
  simp only [List.mem_singleton] at ha
  subst ha
  rw [hcl]
  intro x hx
  exact absurd hx (List.not_mem_nil x)

/-- At most `⌊maxIterations⌋` "select" snapshots are ever emitted. -/
theorem buildTrace_select_count (hFn : Coord → Coord → ℚ) (env : Environment)
    (sK gK : String) (o : RunOptions) :
    ((buildTrace hFn env sK gK o).steps).countP
      (fun s => decide (s.phase = .select)) ≤ ⌊maxIterationsOf env⌋₊ := by
  rw [buildTrace_steps_eq]
  obtain ⟨s0, hseed, hph, -, -⟩ := seedState_steps (mkCtx hFn env sK gK o)
  obtain ⟨-, Δ, hsteps, -, hcnt, -, -⟩ := runLoop_spec (mkCtx hFn env sK gK o)
    ⌊maxIterationsOf env⌋₊ (seedState (mkCtx hFn env sK gK o))
  rw [hsteps, hseed, List.countP_append]
  have h0 : ([s0].countP (fun s => decide (s.phase = Phase.select))) = 0 := by
    simp [List.countP_cons, hph]
  omega

/-- No snapshot before the last one is "exhausted". -/
theorem buildTrace_exhausted_last (hFn : Coord → Coord → ℚ) (env : Environment)
    (sK gK : String) (o : RunOptions) :
    ∀ s ∈ ((buildTrace hFn env sK gK o).steps).dropLast,
      s.phase ≠ .exhausted := by
  rw [buildTrace_steps_eq]
  obtain ⟨s0, hseed, hph, -, -⟩ := seedState_steps (mkCtx hFn env sK gK o)
  obtain ⟨-, Δ, hsteps, -, -, hex, -⟩ := runLoop_spec (mkCtx hFn env sK gK o)
    ⌊maxIterationsOf env⌋₊ (seedState (mkCtx hFn env sK gK o))
  rw [hsteps, hseed]
  intro s hs
  rcases mem_dropLast_append hs with h | h
  · simp only [List.mem_singleton] at h
    subst h
    rw [hph]
    decide
  · exact hex s h

/-! ### Partial runs (intermediate states of the main loop)

`iterBody` runs the loop body `n` times (stopping early on a natural
break or an empty frontier, like the source loop); the state of the real
run after `n` of its at most `⌊maxIterations⌋` iterations is exactly
`iterBody n`. -/

def iterBody (ctx : Ctx) (st : EngineState) : ℕ → EngineState
  | 0 => st
  | n + 1 =>
    if (frontierToArray ctx st).length > 0 then
      match loopBody ctx st with
      | (st', true) => iterBody ctx st' n
      | (st', false) => st'
    else st

theorem iterBody_steps_prefix_runLoop (ctx : Ctx) :
    ∀ (n fuel : ℕ) (st : EngineState), n ≤ fuel →
      (iterBody ctx st n).steps <+: (runLoop ctx st fuel).steps := by
  intro n
  induction n with
  | zero =>
    intro fuel st _
    obtain ⟨-, Δ, hsteps, -, -, -, -⟩ := runLoop_spec ctx fuel st
    exact ⟨Δ, hsteps.symm⟩
  | succ m ih =>
    intro fuel st hle
    rcases fuel with _ | f
    · omega
    unfold iterBody runLoop
    by_cases hf : (frontierToArray ctx st).length > 0
    · rw [if_pos hf, if_pos hf]
      rcases hlb : loopBody ctx st with ⟨st', cont⟩
      rcases cont <;>
        first
          | exact List.prefix_refl _
          | exact ih f st' (by omega)
    · rw [if_neg hf, if_neg hf]

/-- The working state of the run after its first `n` loop iterations. -/
def partialRun (hFn : Coord → Coord → ℚ) (env : Environment)
    (sK gK : String) (o : RunOptions) (n : ℕ) : EngineState :=
  iterBody (mkCtx hFn env sK gK o) (seedState (mkCtx hFn env sK gK o)) n

/-! ### Concrete environments used as counterexamples and witnesses -/

/-- A 5×5 empty grid (the spec's example scenario). -/
def envGrid5 : Environment :=
  { id := .grid, kind := .grid, grid := some ⟨5, 5, []⟩, graph := none,
    defaultStartKey := "0,0", defaultGoalKey := "4,4" }

def optsBfs : RunOptions :=
  { environmentId := .grid, algorithm := .bfs, heuristic := .manhattan,
    heuristicWeight := 1, diagonal := false }

def optsDijkstra : RunOptions := { optsBfs with algorithm := .dijkstra }

/-- A star graph: `s` has five cost-1 edges and one cost-2 edge, goal `z`
unreachable.  After `s` is expanded, the Dijkstra frontier holds five
items of value 1 and one of value 2, so at the second selection the four
smallest values all tie the chosen value exactly. -/
def gWhy : Graph :=
  { directed := true,
    nodes := [⟨"s", ⟨0,0⟩⟩, ⟨"a", ⟨1,0⟩⟩, ⟨"b", ⟨2,0⟩⟩, ⟨"c", ⟨3,0⟩⟩,
              ⟨"d", ⟨4,0⟩⟩, ⟨"e", ⟨5,0⟩⟩, ⟨"p", ⟨6,0⟩⟩, ⟨"z", ⟨7,0⟩⟩],
    edges := [⟨"s","a",1⟩, ⟨"s","b",1⟩, ⟨"s","c",1⟩, ⟨"s","d",1⟩,
              ⟨"s","e",1⟩, ⟨"s","p",2⟩] }

def envWhy : Environment :=
  { id := .custom, kind := .graph, grid := none, graph := some gWhy,
    defaultStartKey := "s", defaultGoalKey := "z" }

/-- A graph with a single node and an edge to an id that is not in the
node list. -/
def gDangle : Graph :=
  { directed := true, nodes := [⟨"a", ⟨0,0⟩⟩], edges := [⟨"a","b",1⟩] }

def envDangle : Environment :=
  { id := .custom, kind := .graph, grid := none, graph := some gDangle,
    defaultStartKey := "a", defaultGoalKey := "b" }

/-- A default snapshot used only to spell `getD` accesses in witnesses. -/
def dummyStep : StepSnapshot :=
  { index := 0, phase := .init, currentKey := none,
    frontierKind := .queue, frontier := [], visited := [], closed := [],
    cameFrom := [], gScore := [] }

/-! ### The why-not list as the claim words it, and as the code computes it -/

/-- The why-not list as claim C1 states it: among the frontier items other
than the chosen one, exact ties with the chosen value are excluded, and
the up-to-4 items with the smallest metric values are reported, ascending.
(Written from the claim's words — ties dropped BEFORE the four slots are
filled — for comparison with the source's `compareWhyNot`.) -/
def specWhyNot (frontier : List FrontierItem) (chosen : FrontierItem)
    (metric : Metric) : List RejectionReason :=
  let chosenValue := metricValueOf metric chosen
  let candidates :=
    (((sortByValue ((frontier.filter (fun x => x.key ≠ chosen.key)).map
        (fun c => ⟨c, metricValueOf metric c⟩))).filter
      (fun c => c.candidateValue ≠ chosenValue))).take 4
  candidates.map (fun c =>
    { candidate := c.candidate, chosen := chosen, metric := metric,
      candidateValue := c.candidateValue, chosenValue := chosenValue })

/-- The why-not list as the amended claim states it: sort ascending by the
metric, keep the FIRST FOUR, and only then drop exact ties with the
chosen value (so ties occupy slots, and fewer than four items may be
reported even when further non-tie items exist). -/
def amendedWhyNot (frontier : List FrontierItem) (chosen : FrontierItem)
    (metric : Metric) : List RejectionReason :=
  let chosenValue := metricValueOf metric chosen
  let candidates :=
    ((sortByValue ((frontier.filter (fun x => x.key ≠ chosen.key)).map
        (fun c => ⟨c, metricValueOf metric c⟩))).take 4).filter
      (fun c => c.candidateValue ≠ chosenValue)
  candidates.map (fun c =>
    { candidate := c.candidate, chosen := chosen, metric := metric,
      candidateValue := c.candidateValue, chosenValue := chosenValue })

/-- The amended description coincides with the source's computation. -/
theorem amendedWhyNot_eq_compareWhyNot :
    amendedWhyNot = compareWhyNot := rfl

/-! ### Basic lemmas about the `Set`/`Map` models -/

theorem mSet_update_pred {α : Type} (k j : String) (v : α) :
    ((fun p : String × α => decide (p.1 = j)) ∘
      (fun p => if p.1 = k then (k, v) else p)) =
    (fun p : String × α => decide (p.1 = j)) := by
  funext p
  by_cases hp : p.1 = k
  · by_cases hj : k = j <;> simp [Function.comp, hp, hj]
  · simp [Function.comp, hp]

theorem mGet_mSet_self {α : Type} (m : List (String × α)) (k : String) (v : α) :
    mGet (mSet m k v) k = some v := by
  unfold mGet mSet
  by_cases hfind : (m.find? (fun p => p.1 = k)).isSome
  · rw [if_pos hfind, List.find?_map, mSet_update_pred k k v]
    obtain ⟨q, hq⟩ := Option.isSome_iff_exists.mp hfind
    have hqk : q.1 = k := by simpa using List.find?_some hq
    simp [hq, hqk]
  · rw [if_neg hfind, List.find?_append]
    rw [Option.not_isSome_iff_eq_none] at hfind
    simp [hfind, List.find?]

theorem mGet_mSet_ne {α : Type} (m : List (String × α)) {k j : String} (v : α)
    (hne : j ≠ k) : mGet (mSet m k v) j = mGet m j := by
  unfold mGet mSet
  by_cases hfind : (m.find? (fun p => p.1 = k)).isSome
  · rw [if_pos hfind, List.find?_map, mSet_update_pred k j v]
    rcases hq : m.find? (fun p => p.1 = j) with _ | q
    · simp [hq]
    · have hqj : q.1 = j := by simpa using List.find?_some hq
      have hqk : ¬ q.1 = k := by rw [hqj]; exact hne
      simp [hq, hqk, Function.comp]
  · rw [if_neg hfind, List.find?_append]
    rcases hq : m.find? (fun p => p.1 = j) with _ | q
    · simp [hq, List.find?, Ne.symm hne]
    · simp [hq]

theorem mGet_nil {α : Type} (k : String) : mGet ([] : List (String × α)) k = none := rfl

/-! ### Per-key adjacency in the graph adapter

`specAdjacency` restates the adjacency the spec describes, per key and in
edge-list order, written from the spec's words ("neighbors come from a
precomputed adjacency built once from the edge list; if the graph is
undirected, each edge is inserted in both directions") — note that it is
built from the edge list alone, with no reference to the node list. -/

def specAdjStep (g : Graph) (k : String) (acc : List Neighbor)
    (e : GraphEdge) : List Neighbor :=
  let acc := if e.fromKey = k then acc ++ [⟨e.toKey, e.cost⟩] else acc
  if g.directed then acc
  else if e.toKey = k then acc ++ [⟨e.fromKey, e.cost⟩] else acc

def specAdjacency (g : Graph) (k : String) : List Neighbor :=
  g.edges.foldl (specAdjStep g k) []

theorem buildAdjStep_get (g : Graph) (adj : List (String × List Neighbor))
    (e : GraphEdge) (k : String) :
    (mGet (buildAdjStep g adj e) k).getD [] =
      specAdjStep g k ((mGet adj k).getD []) e := by
  unfold buildAdjStep specAdjStep
  by_cases hdir : g.directed
  · simp only [hdir, if_true]
    by_cases hf : e.fromKey = k
    · subst hf
      rw [mGet_mSet_self]
      simp
    · rw [mGet_mSet_ne _ _ (fun h => hf h.symm)]
      simp [hf]
  · simp only [Bool.not_eq_true] at hdir
    simp only [hdir, Bool.false_eq_true, if_false]
    by_cases hf : e.fromKey = k
    · subst hf
      by_cases ht : e.toKey = e.fromKey
      · rw [ht, mGet_mSet_self, mGet_mSet_self]
        simp [ht]
      · rw [mGet_mSet_ne _ _ (fun hh => ht hh.symm), mGet_mSet_self]
        simp [ht]
    · by_cases ht : e.toKey = k
      · subst ht
        rw [mGet_mSet_self, mGet_mSet_ne _ _ (fun h => hf h.symm)]
        simp [hf]
      · rw [mGet_mSet_ne _ _ (fun h => ht h.symm), mGet_mSet_ne _ _ (fun h => hf h.symm)]
        simp [hf, ht]

theorem graphNeighbors_eq_specAdjacency (g : Graph) (k : String) :
    graphNeighbors g k = specAdjacency g k := by
  unfold graphNeighbors buildAdj specAdjacency
  suffices h : ∀ (es : List GraphEdge) (adj : List (String × List Neighbor)),
      (mGet (es.foldl (buildAdjStep g) adj) k).getD []
      = es.foldl (specAdjStep g k) ((mGet adj k).getD []) by
    have := h g.edges []
    simpa using this
  intro es
  induction es with
  | nil => intro adj; rfl
  | cons e rest ih =>
    intro adj
    rw [List.foldl_cons, List.foldl_cons, ih, buildAdjStep_get]

/-- Membership form: a key shows up among `k`'s neighbors exactly when the
edge list makes it one, independently of the node list. -/
theorem mem_graphNeighbors_iff (g : Graph) (k : String) (nb : Neighbor) :
    nb ∈ graphNeighbors g k ↔
      (∃ e ∈ g.edges, e.fromKey = k ∧ e.toKey = nb.key ∧ e.cost = nb.cost) ∨
      (g.directed = false ∧
        ∃ e ∈ g.edges, e.toKey = k ∧ e.fromKey = nb.key ∧ e.cost = nb.cost) := by
  rw [graphNeighbors_eq_specAdjacency]
  unfold specAdjacency
  suffices h : ∀ (es : List GraphEdge) (acc : List Neighbor),
      nb ∈ es.foldl (specAdjStep g k) acc ↔
      nb ∈ acc ∨
      (∃ e ∈ es, e.fromKey = k ∧ e.toKey = nb.key ∧ e.cost = nb.cost) ∨
      (g.directed = false ∧
        ∃ e ∈ es, e.toKey = k ∧ e.fromKey = nb.key ∧ e.cost = nb.cost) by
    rw [h g.edges []]
    simp only [List.not_mem_nil, false_or]
  intro es
  induction es with
  | nil => intro acc; simp
  | cons e rest ih =>
    intro acc
    rw [List.foldl_cons, ih]
    unfold specAdjStep
    rcases nb with ⟨nbk, nbc⟩
    by_cases hdir : g.directed <;> by_cases hf : e.fromKey = k <;>
      by_cases ht : e.toKey = k <;>
      simp only [hdir, Bool.not_eq_true, hf, ht, if_true, if_false,
        Bool.false_eq_true, Bool.true_eq_false, List.mem_append,
        List.mem_singleton, List.mem_cons, Neighbor.mk.injEq] <;>
      constructor <;> intro hcase <;>
      aesop

/-! ## Further helper lemmas for the claims -/

/-- A key that is no node's id has no entry in the node-coordinate map. -/
theorem mGet_buildNodeAt_none (g : Graph) (k : String)
    (h : ∀ n ∈ g.nodes, n.id ≠ k) : mGet (buildNodeAt g) k = none := by
  unfold buildNodeAt
  suffices hgen : ∀ (ns : List GraphNode) (m : List (String × Coord)),
      (∀ n ∈ ns, n.id ≠ k) → mGet m k = none →
      mGet (ns.foldl (fun m n => mSet m n.id n.«at») m) k = none by
    exact hgen g.nodes [] h (mGet_nil k)
  intro ns
  induction ns with
  | nil => intro m _ hm; exact hm
  | cons n rest ih =>
    intro m hns hm
    rw [List.foldl_cons]
    refine ih _ (fun x hx => hns x (List.mem_cons_of_mem n hx)) ?_
    rw [mGet_mSet_ne _ _ (Ne.symm (hns n (List.mem_cons_self n rest)))]
    exact hm

/-- Whether the source loop would still be running after `n` iterations:
the frontier is nonempty and no iteration so far hit a `break`. -/
def iterAlive (ctx : Ctx) (st : EngineState) : ℕ → Bool
  | 0 => decide ((frontierToArray ctx st).length > 0)
  | n + 1 =>
    if (frontierToArray ctx st).length > 0 then
      match loopBody ctx st with
      | (st', true) => iterAlive ctx st' n
      | (_, false) => false
    else false

/-- When the loop is still alive after all `fuel` permitted iterations,
`runLoop` appends exactly one final "exhausted" snapshot carrying the
cap warning to the state the iterations produced. -/
theorem runLoop_exhausted_of_alive (ctx : Ctx) : ∀ (fuel : ℕ)
    (st : EngineState), iterAlive ctx st fuel = true →
    ∃ s, (runLoop ctx st fuel).steps = (iterBody ctx st fuel).steps ++ [s] ∧
      s.phase = .exhausted ∧ s.warnings = some [exhaustedWarning] := by
  intro fuel
  induction fuel with
  | zero =>
    intro st halive
    rw [iterAlive, decide_eq_true_iff] at halive
    rw [iterBody, runLoop, if_pos halive, pushStep_steps]
    exact ⟨_, rfl, rfl, rfl⟩
  | succ n ih =>
    intro st halive
    rw [iterAlive] at halive
    by_cases hf : (frontierToArray ctx st).length > 0
    · rw [if_pos hf] at halive
      rw [runLoop, if_pos hf, iterBody, if_pos hf]
      rcases hlb : loopBody ctx st with ⟨st', cont⟩
      rw [hlb] at halive
      rcases cont
      · exact Bool.noConfusion halive
      · exact ih st' halive
    · rw [if_neg hf] at halive
      exact Bool.noConfusion halive

/-! ## The claims

Each claim is settled by one theorem; where the claim as worded fails, a
counterexample theorem exhibits a concrete run refuting it and the main
theorem proves the amended statement. -/

/-- Claim C1 (corrected).  In every run, every "select" snapshot records
the selected item, and carries a whyNot list exactly when the frontier
discipline is the min-heap (Dijkstra and A*); the list is `amendedWhyNot`
over the snapshot's recorded frontier and the metric g for Dijkstra and f
for A*: sort the other frontier items ascending by the metric, keep the
FIRST FOUR, and only then drop exact ties with the chosen value.  The
claim's reading — ties dropped before the four slots are filled — is
refuted by `C1_counterexample`.  Queue and stack selections never carry a
whyNot list (the `if … then none` branch). -/
theorem C1_select_whyNot (hFn : Coord → Coord → ℚ) (env : Environment)
    (sK gK : String) (o : RunOptions) :
    ∀ s ∈ (buildTrace hFn env sK gK o).steps, s.phase = .select →
      ∃ sel, s.selected = some sel ∧
        s.whyNot = (if frontierKindFor o.algorithm = .minheap then
            some (amendedWhyNot (sel :: s.frontier) sel
              (if o.algorithm = .dijkstra then .g else .f))
          else none) := by
  intro s hs hph
  obtain ⟨-, hsel, -⟩ := buildTrace_snap_inv hFn env sK gK o s hs
  obtain ⟨sel, h1, -, h3⟩ := hsel hph
  refine ⟨sel, h1, ?_⟩
  rw [amendedWhyNot_eq_compareWhyNot]
  exact h3

/-- Claim C1's witness: the second selection of the `envWhy` Dijkstra run,
instantiating `C1_select_whyNot` at a concrete emitted snapshot. -/
theorem C1_select_whyNot_witness :
    ∃ sel, ((buildTrace manhattan envWhy "s" "z" optsDijkstra).steps.getD
        15 dummyStep).selected = some sel ∧
      ((buildTrace manhattan envWhy "s" "z" optsDijkstra).steps.getD
        15 dummyStep).whyNot =
        (if frontierKindFor optsDijkstra.algorithm = .minheap then
          some (amendedWhyNot
            (sel :: ((buildTrace manhattan envWhy "s" "z"
              optsDijkstra).steps.getD 15 dummyStep).frontier) sel
            (if optsDijkstra.algorithm = .dijkstra then .g else .f))
        else none) :=
  C1_select_whyNot manhattan envWhy "s" "z" optsDijkstra
    ((buildTrace manhattan envWhy "s" "z" optsDijkstra).steps.getD 15 dummyStep)
    (by with_unfolding_all decide) (by with_unfolding_all decide)

/-- Claim C1's counterexample.  In the `envWhy` Dijkstra run the second
"select" snapshot (five frontier items tie the chosen g exactly, one item
of value 2 remains) carries an EMPTY whyNot list, while the claim's
description — ties excluded before the four slots are filled — yields the
value-2 item: the source fills the four slots first (`slice(0, 4)`) and
filters ties afterwards. -/
theorem C1_counterexample :
    ∃ s ∈ (buildTrace manhattan envWhy "s" "z" optsDijkstra).steps,
      s.phase = .select ∧
      s.whyNot ≠ s.selected.map
        (fun sel => specWhyNot (sel :: s.frontier) sel Metric.g) := by
  refine ⟨(buildTrace manhattan envWhy "s" "z" optsDijkstra).steps.getD
    15 dummyStep, ?_, ?_, ?_⟩
  · with_unfolding_all decide
  · with_unfolding_all decide
  · with_unfolding_all decide

/-- Claim C2 (corrected).  The graph adapter's adjacency is built from the
edge list alone: a neighbor is enumerated for `k` exactly when an edge
makes it one (both directions when undirected), with NO check against the
node list — an edge endpoint absent from the node list is NOT dropped (see
`C2_counterexample`) but enumerated like any neighbor, and its coordinate
lookup falls back to `(0, 0)` (`nodeAt.get(key) ?? {x: 0, y: 0}`).  The
run does not fail on such data: `buildTrace` is total and every trace
carries its snapshots. -/
theorem C2_adjacency (env : Environment) (g : Graph)
    (hk : env.kind ≠ .grid) (hg : env.graph = some g) (k : String) :
    (adapterOf env).neighbors k = graphNeighbors g k ∧
    (∀ nb : Neighbor, nb ∈ graphNeighbors g k ↔
      (∃ e ∈ g.edges, e.fromKey = k ∧ e.toKey = nb.key ∧ e.cost = nb.cost) ∨
      (g.directed = false ∧
        ∃ e ∈ g.edges, e.toKey = k ∧ e.fromKey = nb.key ∧ e.cost = nb.cost)) ∧
    (∀ j, (∀ n ∈ g.nodes, n.id ≠ j) →
      (adapterOf env).coordOfKey j = ⟨0, 0⟩) := by
  have hadapter : adapterOf env =
      ⟨.graph, graphCoordOfKey g, graphNeighbors g, .weighted⟩ := by
    unfold adapterOf
    rw [if_neg hk, hg]
    rfl
  refine ⟨by rw [hadapter], fun nb => mem_graphNeighbors_iff g k nb, ?_⟩
  intro j hj
  rw [hadapter]
  show graphCoordOfKey g j = ⟨0, 0⟩
  unfold graphCoordOfKey
  rw [mGet_buildNodeAt_none g j hj]
  rfl

/-- Claim C2's witness: `C2_adjacency` instantiated at the dangling-edge
environment, key "a". -/
theorem C2_adjacency_witness :
    (adapterOf envDangle).neighbors "a" = graphNeighbors gDangle "a" ∧
    (∀ nb : Neighbor, nb ∈ graphNeighbors gDangle "a" ↔
      (∃ e ∈ gDangle.edges,
        e.fromKey = "a" ∧ e.toKey = nb.key ∧ e.cost = nb.cost) ∨
      (gDangle.directed = false ∧
        ∃ e ∈ gDangle.edges,
          e.toKey = "a" ∧ e.fromKey = nb.key ∧ e.cost = nb.cost)) ∧
    (∀ j, (∀ n ∈ gDangle.nodes, n.id ≠ j) →
      (adapterOf envDangle).coordOfKey j = ⟨0, 0⟩) :=
  C2_adjacency envDangle gDangle (by decide) rfl "a"

/-- Claim C2's counterexample.  In `envDangle` the edge a→b names the id
"b" that is not in the node list, yet the adapter enumerates "b" as a
neighbor of "a": the unresolvable edge is not dropped. -/
theorem C2_counterexample :
    ∃ nb ∈ (adapterOf envDangle).neighbors "a",
      ∀ n ∈ gDangle.nodes, n.id ≠ nb.key := by
  with_unfolding_all decide

/-- Claim C4 (confirmed).  The embedded engine consults no clock,
randomness, or ambient state (none occurs in the source; the trailing
console diagnostics do not touch the returned trace), so `buildTrace` is
a pure function of heuristic, environment, start key, goal key and
options: two invocations on identical inputs yield one and the same Trace
value — snapshot sequence, its ordering and the whyNot lists included. -/
theorem C4_deterministic (hFn : Coord → Coord → ℚ) (env : Environment)
    (sK gK : String) (o : RunOptions) (t₁ t₂ : Trace)
    (h₁ : t₁ = buildTrace hFn env sK gK o)
    (h₂ : t₂ = buildTrace hFn env sK gK o) :
    t₁ = t₂ ∧ t₁.steps = t₂.steps ∧ t₁.path = t₂.path := by
  subst h₁; subst h₂
  exact ⟨rfl, rfl, rfl⟩

/-- Claim C4's witness: two invocations on the dangling-edge graph. -/
theorem C4_deterministic_witness :
    buildTrace manhattan envDangle "a" "b" optsBfs =
        buildTrace manhattan envDangle "a" "b" optsBfs ∧
      (buildTrace manhattan envDangle "a" "b" optsBfs).steps =
        (buildTrace manhattan envDangle "a" "b" optsBfs).steps ∧
      (buildTrace manhattan envDangle "a" "b" optsBfs).path =
        (buildTrace manhattan envDangle "a" "b" optsBfs).path :=
  C4_deterministic manhattan envDangle "a" "b" optsBfs _ _ rfl rfl

/-- Claim C7 (confirmed).  The steps a run has emitted after its first `n`
loop iterations are, position by position, a prefix of the final trace's
snapshot list: later iterations only append snapshots and never alter an
emitted one — in particular each snapshot's frontier, visited, closed,
cameFrom and gScore fields stay exactly the point-in-time copies
`pushStep` recorded (the pure model's counterpart of "an independent
copy", which no later mutation can reach). -/
theorem C7_snapshot_frame (hFn : Coord → Coord → ℚ) (env : Environment)
    (sK gK : String) (o : RunOptions) (n : ℕ)
    (hn : n ≤ ⌊maxIterationsOf env⌋₊) :
    (partialRun hFn env sK gK o n).steps <+:
      (buildTrace hFn env sK gK o).steps := by
  rw [buildTrace_steps_eq]
  exact iterBody_steps_prefix_runLoop (mkCtx hFn env sK gK o) n
    ⌊maxIterationsOf env⌋₊ (seedState (mkCtx hFn env sK gK o)) hn

/-- Claim C7's witness: after two iterations of the `envWhy` Dijkstra run,
the emitted snapshots are a prefix of the final trace. -/
theorem C7_snapshot_frame_witness :
    (partialRun manhattan envWhy "s" "z" optsDijkstra 2).steps <+:
      (buildTrace manhattan envWhy "s" "z" optsDijkstra).steps :=
  C7_snapshot_frame manhattan envWhy "s" "z" optsDijkstra 2
    (by with_unfolding_all decide)

/-- Claim C6 (confirmed).  The iteration budget is
maxIterations = max(100, min(sizeBasis·20, 10000)) with sizeBasis the
grid's cell count (width·height) for grid environments and the node count
otherwise; the loop body runs at most ⌊maxIterations⌋ times (it is the
model's fuel), so a trace holds at most that many "select" snapshots;
and when the budget is spent with the run still going (`iterAlive`), the
engine appends exactly one final "exhausted" snapshot carrying the cap
warning and stops — an "exhausted" snapshot never occurs elsewhere. -/
theorem C6_iteration_cap (hFn : Coord → Coord → ℚ) (env : Environment)
    (sK gK : String) (o : RunOptions) :
    maxIterationsOf env = max 100 (min (sizeBasisOf env * 20) 10000) ∧
    (env.kind = .grid → sizeBasisOf env =
      (env.grid.getD ⟨0, 0, []⟩).width * (env.grid.getD ⟨0, 0, []⟩).height) ∧
    (env.kind ≠ .grid → sizeBasisOf env =
      ((env.graph.getD ⟨false, [], []⟩).nodes.length : ℚ)) ∧
    (buildTrace hFn env sK gK o).steps.countP
      (fun s => decide (s.phase = .select)) ≤ ⌊maxIterationsOf env⌋₊ ∧
    (∀ s ∈ ((buildTrace hFn env sK gK o).steps).dropLast,
      s.phase ≠ .exhausted) ∧
    (∀ s ∈ (buildTrace hFn env sK gK o).steps, s.phase = .exhausted →
      s.warnings = some [exhaustedWarning]) ∧
    (iterAlive (mkCtx hFn env sK gK o) (seedState (mkCtx hFn env sK gK o))
        ⌊maxIterationsOf env⌋₊ = true →
      ∃ s, (buildTrace hFn env sK gK o).steps.getLast? = some s ∧
        s.phase = .exhausted ∧ s.warnings = some [exhaustedWarning]) := by
  refine ⟨rfl, ?_, ?_, buildTrace_select_count hFn env sK gK o,
    buildTrace_exhausted_last hFn env sK gK o,
    fun s hs hex => (buildTrace_snap_inv hFn env sK gK o s hs).2.2 hex, ?_⟩
  · intro h
    unfold sizeBasisOf
    rw [if_pos h]
  · intro h
    unfold sizeBasisOf
    rw [if_neg h]
  · intro halive
    obtain ⟨s, hsteps, hph, hw⟩ := runLoop_exhausted_of_alive
      (mkCtx hFn env sK gK o) ⌊maxIterationsOf env⌋₊
      (seedState (mkCtx hFn env sK gK o)) halive
    refine ⟨s, ?_, hph, hw⟩
    rw [buildTrace_steps_eq, hsteps, List.getLast?_concat]

/-- Claim C8 (confirmed).  Throughout every trace — all four algorithms,
stale duplicate heap entries included — a "select" snapshot's selected
key lies outside the closed set recorded in that snapshot and in every
earlier snapshot: once a key enters the closed set it is never selected
again (the selection loops discard closed candidates before emitting
"select"). -/
theorem C8_no_revisit (hFn : Coord → Coord → ℚ) (env : Environment)
    (sK gK : String) (o : RunOptions) (i j : ℕ)
    (hi : i < (buildTrace hFn env sK gK o).steps.length)
    (hj : j < (buildTrace hFn env sK gK o).steps.length)
    (hij : i ≤ j) (sel : FrontierItem)
    (hph : ((buildTrace hFn env sK gK o).steps.get ⟨j, hj⟩).phase = .select)
    (hsel : ((buildTrace hFn env sK gK o).steps.get ⟨j, hj⟩).selected
      = some sel) :
    sel.key ∉ ((buildTrace hFn env sK gK o).steps.get ⟨i, hi⟩).closed := by
  have hmem : (buildTrace hFn env sK gK o).steps.get ⟨j, hj⟩
      ∈ (buildTrace hFn env sK gK o).steps := List.get_mem _ _ _
  obtain ⟨-, hs, -⟩ := buildTrace_snap_inv hFn env sK gK o _ hmem
  obtain ⟨sel', h1, h2, -⟩ := hs hph
  rw [hsel] at h1
  obtain rfl : sel = sel' := by injection h1
  rcases Nat.lt_or_ge i j with hlt | hge
  · intro hin
    have hmono := List.pairwise_iff_get.mp
      (buildTrace_closed_mono hFn env sK gK o) ⟨i, hi⟩ ⟨j, hj⟩ hlt
    exact h2 (hmono sel.key hin)
  · have : i = j := by omega
    subst this
    exact h2

/-- Claim C8's witness: in the `envWhy` Dijkstra run the second selection
(step 15, key "a") is not in the closed set of step 3. -/
theorem C8_no_revisit_witness :
    3 < (buildTrace manhattan envWhy "s" "z" optsDijkstra).steps.length ∧
    15 < (buildTrace manhattan envWhy "s" "z" optsDijkstra).steps.length ∧
    ∀ h3 : 3 < (buildTrace manhattan envWhy "s" "z"
        optsDijkstra).steps.length,
      ∀ h15 : 15 < (buildTrace manhattan envWhy "s" "z"
        optsDijkstra).steps.length,
      "a" ∉ ((buildTrace manhattan envWhy "s" "z"
        optsDijkstra).steps.get ⟨3, h3⟩).closed := by
  refine ⟨by with_unfolding_all decide, by with_unfolding_all decide, ?_⟩
  intro h3 h15
  have hEq : ((buildTrace manhattan envWhy "s" "z" optsDijkstra).steps.getD
      15 dummyStep) = (buildTrace manhattan envWhy "s" "z"
        optsDijkstra).steps.get ⟨15, h15⟩ := by
    rw [List.getD_eq_get?, List.get?_eq_get h15]
    rfl
  refine C8_no_revisit manhattan envWhy "s" "z" optsDijkstra 3 15 h3 h15
    (by omega)
    { key := "a", «at» := ⟨1, 0⟩, g := some 1, priority := some 1 } ?_ ?_
  · rw [← hEq]
    with_unfolding_all decide
  · rw [← hEq]
    with_unfolding_all decide

/-! ## The first iteration when start equals goal (claim C9) -/

/-- The item seeded into the frontier (the local `startItem` of the
source's setup block). -/
def startItemOf (ctx : Ctx) : FrontierItem :=
  makeItem ctx.start ctx.startKey ctx.options.algorithm 0
    (ctx.hFn ctx.start ctx.goal) 0 ctx.options.heuristicWeight

theorem makeItem_key (c : Coord) (k : String) (a : AlgorithmId)
    (g h d w : ℚ) : (makeItem c k a g h d w).key = k := by
  unfold makeItem
  split_ifs <;> rfl

theorem makeItem_g_cases (c : Coord) (k : String) (a : AlgorithmId)
    (g h d w : ℚ) :
    (makeItem c k a g h d w).g = none ∨ (makeItem c k a g h d w).g = some g := by
  unfold makeItem
  split_ifs <;> simp

theorem startItemOf_key (ctx : Ctx) : (startItemOf ctx).key = ctx.startKey :=
  makeItem_key _ _ _ _ _ _ _

theorem seedState_closed (ctx : Ctx) : (seedState ctx).closed = [] := rfl

theorem seedState_relaxations (ctx : Ctx) :
    (seedState ctx).relaxations = 0 := rfl

@[simp] theorem selectItem_relaxations (ctx : Ctx) (st : EngineState) :
    (selectItem ctx st).2.relaxations = st.relaxations := by
  unfold selectItem
  rcases ctx.fk
  case queue => rcases st.queue <;> rfl
  case stack => rfl
  case minheap => rcases popNonStale st.closed st.gScore st.heap <;> rfl

theorem frontierToArray_seedState (ctx : Ctx) :
    frontierToArray ctx (seedState ctx) = [startItemOf ctx] := by
  rcases hfk : ctx.fk <;>
    simp [frontierToArray, seedState, pushStep, hfk, startItemOf,
      MinHeap.push, MinHeap.toArray, bubbleUp, bubbleUpAux]

theorem selectItem_seedState (ctx : Ctx) :
    (selectItem ctx (seedState ctx)).1 = some (startItemOf ctx) := by
  rcases hfk : ctx.fk
  case queue =>
    simp [selectItem, hfk, seedState, pushStep, startItemOf]
  case stack =>
    simp [selectItem, hfk, seedState, pushStep, startItemOf]
  case minheap =>
    have harr : (seedState ctx).heap =
        ⟨[{ id := ctx.startKey, value := startItemOf ctx,
            priority := (startItemOf ctx).priority.getD 0 }]⟩ := by
      simp [seedState, pushStep, hfk, MinHeap.push, bubbleUp, bubbleUpAux,
        startItemOf]
    have hg : (seedState ctx).gScore = mSet [] ctx.startKey 0 := rfl
    have hc : (seedState ctx).closed = [] := rfl
    simp only [selectItem, hfk, harr, hg, hc]
    unfold popNonStale
    simp only [List.length_cons, List.length_nil]
    unfold popNonStaleAux
    simp only [MinHeap.pop, List.dropLast_single, List.isEmpty_nil,
      if_true, List.not_mem_nil, if_false, ite_false, startItemOf_key]
    rw [mGet_mSet_self]
    have hgc : (startItemOf ctx).g = none ∨ (startItemOf ctx).g = some 0 :=
      makeItem_g_cases ctx.start ctx.startKey ctx.options.algorithm 0
        (ctx.hFn ctx.start ctx.goal) 0 ctx.options.heuristicWeight
    rcases hgc with hgc | hgc <;> rw [hgc] <;> simp

theorem buildTrace_found_eq (hFn : Coord → Coord → ℚ) (env : Environment)
    (sK gK : String) (o : RunOptions) :
    (buildTrace hFn env sK gK o).found =
      ((runLoop (mkCtx hFn env sK gK o) (seedState (mkCtx hFn env sK gK o))
        ⌊maxIterationsOf env⌋₊).steps).any (fun s => s.phase = .found) := rfl

theorem buildTrace_path_eq (hFn : Coord → Coord → ℚ) (env : Environment)
    (sK gK : String) (o : RunOptions) :
    (buildTrace hFn env sK gK o).path =
      (if (buildTrace hFn env sK gK o).found then
        ((((runLoop (mkCtx hFn env sK gK o)
            (seedState (mkCtx hFn env sK gK o))
            ⌊maxIterationsOf env⌋₊).steps.reverse).find?
          (fun s => s.phase = .found ∧ s.path.isSome)).bind
            (fun s => s.path)).getD []
      else []) := rfl

theorem buildTrace_explored_eq (hFn : Coord → Coord → ℚ) (env : Environment)
    (sK gK : String) (o : RunOptions) :
    (buildTrace hFn env sK gK o).metrics.explored =
      (runLoop (mkCtx hFn env sK gK o) (seedState (mkCtx hFn env sK gK o))
        ⌊maxIterationsOf env⌋₊).closed.length := rfl

theorem buildTrace_relaxations_eq (hFn : Coord → Coord → ℚ)
    (env : Environment) (sK gK : String) (o : RunOptions) :
    (buildTrace hFn env sK gK o).metrics.relaxations =
      (runLoop (mkCtx hFn env sK gK o) (seedState (mkCtx hFn env sK gK o))
        ⌊maxIterationsOf env⌋₊).relaxations := rfl

theorem hundred_le_floor_maxIterations (env : Environment) :
    100 ≤ ⌊maxIterationsOf env⌋₊ := by
  apply Nat.le_floor
  unfold maxIterationsOf
  have h : ((100 : ℕ) : ℚ) = 100 := by norm_num
  rw [h]
  exact le_max_left _ _

/-- Claim C9 (confirmed).  For every environment, heuristic and options,
when the start key equals the goal key the trace is exactly three
snapshots — "init", a first "select" that selects the start item (current
key = start key), and immediately a "found" — the returned path is the
single start coordinate, found is true, and the metrics report
explored = 0 and relaxations = 0. -/
theorem C9_start_eq_goal (hFn : Coord → Coord → ℚ) (env : Environment)
    (sK : String) (o : RunOptions) :
    ∃ s0 s1 s2, (buildTrace hFn env sK sK o).steps = [s0, s1, s2] ∧
      s0.phase = .init ∧ s1.phase = .select ∧
      s1.currentKey = some sK ∧
      (∃ sel, s1.selected = some sel ∧ sel.key = sK) ∧
      s2.phase = .found ∧
      (buildTrace hFn env sK sK o).found = true ∧
      (buildTrace hFn env sK sK o).path = [(adapterOf env).coordOfKey sK] ∧
      (buildTrace hFn env sK sK o).metrics.explored = 0 ∧
      (buildTrace hFn env sK sK o).metrics.relaxations = 0 := by
  have hcap := hundred_le_floor_maxIterations env
  rw [buildTrace_path_eq, buildTrace_found_eq, buildTrace_steps_eq,
    buildTrace_explored_eq, buildTrace_relaxations_eq]
  rcases hfuel : ⌊maxIterationsOf env⌋₊ with _ | f
  · omega
  have hlen : (frontierToArray (mkCtx hFn env sK sK o)
      (seedState (mkCtx hFn env sK sK o))).length > 0 := by
    rw [frontierToArray_seedState]
    simp
  have hcl0 := selectItem_closed (mkCtx hFn env sK sK o)
    (seedState (mkCtx hFn env sK sK o))
  have hst0 := selectItem_steps (mkCtx hFn env sK sK o)
    (seedState (mkCtx hFn env sK sK o))
  have hrel0 := selectItem_relaxations (mkCtx hFn env sK sK o)
    (seedState (mkCtx hFn env sK sK o))
  have hsel1 := selectItem_seedState (mkCtx hFn env sK sK o)
  rcases hsel : selectItem (mkCtx hFn env sK sK o)
      (seedState (mkCtx hFn env sK sK o)) with ⟨osel, st₀⟩
  rw [hsel] at hcl0 hst0 hrel0 hsel1
  simp only at hcl0 hst0 hrel0 hsel1
  have hncl : (startItemOf (mkCtx hFn env sK sK o)).key ∉ st₀.closed := by
    rw [hcl0, seedState_closed]
    exact List.not_mem_nil _
  have hgoal : (startItemOf (mkCtx hFn env sK sK o)).key =
      (mkCtx hFn env sK sK o).goalKey := startItemOf_key _
  obtain ⟨s0, hseed, hph0, -, -⟩ := seedState_steps (mkCtx hFn env sK sK o)
  have hncl2 : (mkCtx hFn env sK sK o).goalKey ∉ st₀.closed := by
    rw [hcl0, seedState_closed]
    exact List.not_mem_nil _
  rw [runLoop, if_pos hlen]
  unfold loopBody
  rw [hsel, hsel1]
  simp only [hncl, hncl2, List.not_mem_nil, if_false, hgoal, if_true,
    ite_false, ite_true, pushStep_steps, pushStep_closed,
    pushStep_relaxations, hst0, hcl0, hrel0, hseed, seedState_closed,
    seedState_relaxations, List.append_assoc, List.singleton_append,
    List.cons_append, List.nil_append]
  refine ⟨s0, _, _, rfl, hph0, ?_⟩
  simp only [snapOf_phase, snapOf_currentKey, snapOf_selected, snapOf_path]
  refine ⟨trivial, rfl, ⟨startItemOf (mkCtx hFn env sK sK o), rfl,
    startItemOf_key _⟩, trivial, ?_, ?_, ?_, ?_⟩
  · simp [List.any_cons, hph0, snapOf_phase]
  · simp only [List.any_cons, List.any_nil, hph0, snapOf_phase]
    simp only [List.reverse_cons, List.reverse_nil, List.nil_append,
      List.cons_append, List.singleton_append]
    rw [if_pos (by simp)]
    rw [List.find?_cons_of_pos _ (by simp [snapOf_phase, snapOf_path])]
    simp only [Option.bind_some, snapOf_path, Option.some_bind]
    unfold reconstructPathCoords
    rw [if_pos (show (mkCtx hFn env sK sK o).startKey =
      (mkCtx hFn env sK sK o).goalKey from rfl)]
    rfl
  · simp
  · trivial

/-! ## MinHeap correctness (claim C10)

The heap-order invariant every reachable heap state satisfies, the root
minimality it implies, and the permutation and preservation facts for
`push` and `pop`. -/

/-- The binary-heap order: every non-root entry is no smaller than its
parent. -/
def IsHeap {α : Type} (a : List (HeapNode α)) : Prop :=
  ∀ i, 0 < i → i < a.length → prioAt a ((i - 1) / 2) ≤ prioAt a i

theorem prioAt_get {α : Type} (a : List (HeapNode α)) (j : ℕ)
    (h : j < a.length) : prioAt a j = (a.get ⟨j, h⟩).priority := by
  unfold prioAt
  rw [List.get?_eq_get h]
  rfl

/-- Swapping two in-range indices exchanges the two priorities and leaves
every other position alone. -/
theorem prioAt_swapAt {α : Type} (a : List (HeapNode α)) {i j : ℕ} (k : ℕ)
    (hi : i < a.length) (hj : j < a.length) :
    prioAt (swapAt a i j) k =
      if k = j then prioAt a i
      else if k = i then prioAt a j else prioAt a k := by
  obtain ⟨x, hx⟩ := Option.isSome_iff_exists.mp
    ((List.get?_eq_get hi) ▸ rfl : (a.get? i).isSome)
  obtain ⟨y, hy⟩ := Option.isSome_iff_exists.mp
    ((List.get?_eq_get hj) ▸ rfl : (a.get? j).isSome)
  unfold swapAt prioAt
  rw [hx, hy]
  simp only [List.get?_set]
  by_cases hkj : j = k <;> by_cases hki : i = k <;>
    simp [hkj, hki, hx, hy, Ne.symm, Option.map_eq_map] <;>
    simp_all [List.get?_eq_get hi, List.get?_eq_get hj]

theorem swapAt_perm {α : Type} (a : List (HeapNode α)) (i j : ℕ) :
    List.Perm (swapAt a i j) a := by
  classical
  unfold swapAt
  rcases hx : a.get? i with _ | x
  · exact List.Perm.refl a
  rcases hy : a.get? j with _ | y
  · exact List.Perm.refl a
  have hmemx : x ∈ a := List.get?_mem hx
  have hmemy : y ∈ a := List.get?_mem hy
  rw [List.get?_eq_getElem?] at hx hy
  obtain ⟨hilen, hgi⟩ := List.getElem?_eq_some_iff.mp hx
  obtain ⟨hjlen, hgj⟩ := List.getElem?_eq_some_iff.mp hy
  have hpx : 0 < List.count x a := List.count_pos_iff_mem.mpr hmemx
  have hpy : 0 < List.count y a := List.count_pos_iff_mem.mpr hmemy
  by_cases hij : i = j
  · subst hij
    obtain rfl : x = y := by rw [hgi] at hgj; exact hgj
    apply List.perm_iff_count.mpr
    intro c
    rw [List.count_set x c _ _ (by rw [List.length_set]; exact hilen),
      List.count_set x c a i hilen]
    rw [List.getElem_set, if_pos rfl, hgi]
    by_cases hxc : x = c
    · subst hxc
      simp only [beq_self_eq_true, if_true]
      omega
    · simp [beq_iff_eq, hxc]
  · apply List.perm_iff_count.mpr
    intro c
    rw [List.count_set x c _ _ (by rw [List.length_set]; exact hjlen),
      List.count_set y c a i hilen]
    rw [List.getElem_set, if_neg hij, hgi, hgj]
    by_cases hxc : x = c
    · subst hxc
      by_cases hyc : y = x
      · subst hyc
        simp only [beq_self_eq_true, if_true]
        omega
      · simp only [beq_self_eq_true, if_true, beq_iff_eq, hyc, if_false]
        omega
    · by_cases hyc : y = c
      · subst hyc
        simp only [beq_self_eq_true, if_true, beq_iff_eq, hxc, if_false]
        omega
      · simp [beq_iff_eq, hxc, hyc]

theorem bubbleDownAux_perm {α : Type} : ∀ (fuel : ℕ)
    (a : List (HeapNode α)) (i : ℕ),
    List.Perm (bubbleDownAux fuel a i) a := by
  intro fuel
  induction fuel with
  | zero => intro a i; exact List.Perm.refl a
  | succ fuel ih =>
    intro a i
    rw [bubbleDownAux]
    split
    · exact List.Perm.refl a
    · exact (ih _ _).trans (swapAt_perm a i (smallestIdx a i))

theorem bubbleDown_perm {α : Type} (a : List (HeapNode α)) (i : ℕ) :
    List.Perm (bubbleDown a i) a := bubbleDownAux_perm a.length a i

/-- In a heap, the root priority is minimal over all indices. -/
theorem IsHeap.root_le {α : Type} {a : List (HeapNode α)} (h : IsHeap a) :
    ∀ i, i < a.length → prioAt a 0 ≤ prioAt a i := by
  intro i
  induction i using Nat.strong_induction_on with
  | _ i ih =>
    intro hi
    rcases Nat.eq_zero_or_pos i with h0 | h0
    · subst h0; exact le_refl _
    calc prioAt a 0 ≤ prioAt a ((i - 1) / 2) :=
          ih ((i - 1) / 2) (by omega) (by omega)
      _ ≤ prioAt a i := h i h0 hi

/-- In a heap, every stored element's priority is at least the root's. -/
theorem IsHeap.root_min {α : Type} {a : List (HeapNode α)} (h : IsHeap a) :
    ∀ m ∈ a, prioAt a 0 ≤ m.priority := by
  intro m hm
  obtain ⟨⟨i, hi⟩, hgi⟩ := List.mem_iff_get.mp hm
  rw [← hgi, ← prioAt_get a i hi]
  exact h.root_le i hi

/-- Pop on an empty heap returns none and leaves the heap empty. -/
theorem MinHeap.pop_empty {α : Type} (h : MinHeap α) (he : h.arr = []) :
    h.pop = (none, h) := by
  rcases h with ⟨arr⟩
  simp only at he
  subst he
  rfl

/-- When `smallestIdx` stays put, the entry at `i` is no larger than
either of its in-range children. -/
theorem smallestIdx_eq_spec {α : Type} {a : List (HeapNode α)} {i : ℕ}
    (h : smallestIdx a i = i) :
    ∀ c, 0 < c → c < a.length → (c - 1) / 2 = i →
      prioAt a i ≤ prioAt a c := by
  intro c hc0 hclen hpar
  have hch : c = i * 2 + 1 ∨ c = i * 2 + 2 := by omega
  unfold smallestIdx at h
  simp only at h
  split_ifs at h with h1 h2 h2 <;> try omega
  push_neg at h1 h2
  rcases hch with rfl | rfl
  · exact h1 hclen
  · exact h2 hclen

/-- When `smallestIdx` moves, it names an in-range child of `i` that is
strictly smaller than `i` and no larger than the sibling. -/
theorem smallestIdx_ne_spec {α : Type} {a : List (HeapNode α)} {i : ℕ}
    (h : smallestIdx a i ≠ i) :
    (smallestIdx a i - 1) / 2 = i ∧ i < smallestIdx a i ∧
    smallestIdx a i < a.length ∧
    prioAt a (smallestIdx a i) < prioAt a i ∧
    (∀ c, 0 < c → c < a.length → (c - 1) / 2 = i →
      prioAt a (smallestIdx a i) ≤ prioAt a c) := by
  unfold smallestIdx at *
  simp only at h ⊢
  split_ifs at h ⊢ with h1 h2 h2 <;> try omega
  · -- left child smaller, right child smaller still
    refine ⟨by omega, by omega, h2.1, lt_trans h2.2 h1.2, ?_⟩
    intro c hc0 hclen hpar
    have hch : c = i * 2 + 1 ∨ c = i * 2 + 2 := by omega
    rcases hch with rfl | rfl
    · exact le_of_lt h2.2
    · exact le_refl _
  · -- left child smaller, right not smaller than it
    push_neg at h2
    refine ⟨by omega, by omega, h1.1, h1.2, ?_⟩
    intro c hc0 hclen hpar
    have hch : c = i * 2 + 1 ∨ c = i * 2 + 2 := by omega
    rcases hch with rfl | rfl
    · exact le_refl _
    · exact h2 hclen
  · -- left not smaller, right smaller
    push_neg at h1
    refine ⟨by omega, by omega, h2.1, h2.2, ?_⟩
    intro c hc0 hclen hpar
    have hch : c = i * 2 + 1 ∨ c = i * 2 + 2 := by omega
    rcases hch with rfl | rfl
    · exact le_trans (le_of_lt h2.2) (h1 hclen)
    · exact le_refl _

/-- The invariant of the `bubbleDown` loop: every parent-child pair is
heap-ordered except possibly the pairs below `j`, and (when `j` is not
the root) `j`'s parent is already no larger than `j`'s children. -/
def DownInv {α : Type} (a : List (HeapNode α)) (j : ℕ) : Prop :=
  (∀ i, 0 < i → i < a.length → (i - 1) / 2 ≠ j →
    prioAt a ((i - 1) / 2) ≤ prioAt a i) ∧
  (∀ c, 0 < c → c < a.length → 0 < j → (c - 1) / 2 = j →
    prioAt a ((j - 1) / 2) ≤ prioAt a c)

theorem bubbleDownAux_isHeap {α : Type} : ∀ (fuel : ℕ)
    (a : List (HeapNode α)) (j : ℕ), a.length - j ≤ fuel → j < a.length →
    DownInv a j → IsHeap (bubbleDownAux fuel a j) := by
  intro fuel
  induction fuel with
  | zero => intro a j hfuel hj _; omega
  | succ fuel ih =>
    intro a j hfuel hj hinv
    rw [bubbleDownAux]
    by_cases heq : smallestIdx a j = j
    · rw [if_pos heq]
      intro i hi0 hilen
      by_cases hpar : (i - 1) / 2 = j
      · rw [hpar]
        exact smallestIdx_eq_spec heq i hi0 hilen hpar
      · exact hinv.1 i hi0 hilen hpar
    · rw [if_neg heq]
      obtain ⟨hpar, hlt, hslen, hsmall, hmin⟩ := smallestIdx_ne_spec heq
      set s := smallestIdx a j with hs
      have hlen' : (swapAt a j s).length = a.length := swapAt_length a j s
      have hprio := fun k => prioAt_swapAt a k hj hslen
      have hsj : s ≠ j := fun hc => heq hc
      refine ih (swapAt a j s) s (by omega) (by omega) ⟨?_, ?_⟩
      · -- clause 1 at the new pivot s
        intro i hi0 hilen hpari
        rw [hlen'] at hilen
        rw [hprio i, hprio ((i - 1) / 2)]
        by_cases hij : i = j
        · -- i = j > 0: its parent pair, via old clause 2 applied to s
          subst hij
          rw [if_neg (show ¬((i - 1) / 2 = s) by omega),
            if_neg (show ¬((i - 1) / 2 = i) by omega),
            if_neg (show ¬(i = s) by omega), if_pos rfl]
          exact hinv.2 s (by omega) hslen hi0 hpar
        by_cases his : i = s
        · -- i = s: its parent is j, which now holds the old s value
          subst his
          rw [hpar, if_neg (Ne.symm hsj), if_pos rfl, if_pos rfl]
          exact le_of_lt hsmall
        · rw [if_neg his, if_neg hij]
          by_cases hpj : (i - 1) / 2 = j
          · -- i is the sibling of s under j
            rw [hpj, if_neg (Ne.symm hsj), if_pos rfl]
            exact hmin i hi0 hilen hpj
          · rw [if_neg hpari, if_neg hpj]
            exact hinv.1 i hi0 hilen hpj
      · -- clause 2 at the new pivot s
        intro c hc0 hclen hs0 hparc
        rw [hlen'] at hclen
        rw [hprio c, hprio ((s - 1) / 2), hpar]
        have hcs : c ≠ s := by omega
        have hcj : c ≠ j := by omega
        rw [if_neg hcs, if_neg hcj, if_neg (Ne.symm hsj), if_pos rfl,
          ← hparc]
        refine hinv.1 c hc0 hclen ?_
        rw [hparc]
        exact hsj

/-- The invariant of the `bubbleUp` loop: every parent-child pair is
heap-ordered except possibly at `j`, and (when `j` is not the root) `j`'s
parent is already no larger than `j`'s children. -/
def UpInv {α : Type} (a : List (HeapNode α)) (j : ℕ) : Prop :=
  (∀ i, 0 < i → i < a.length → i ≠ j →
    prioAt a ((i - 1) / 2) ≤ prioAt a i) ∧
  (∀ c, 0 < c → c < a.length → 0 < j → (c - 1) / 2 = j →
    prioAt a ((j - 1) / 2) ≤ prioAt a c)

theorem bubbleUpAux_isHeap {α : Type} : ∀ (fuel : ℕ)
    (a : List (HeapNode α)) (j : ℕ), j ≤ fuel → j < a.length →
    UpInv a j → IsHeap (bubbleUpAux fuel a j) := by
  intro fuel
  induction fuel with
  | zero =>
    intro a j hfuel _ hinv
    interval_cases j
    intro i hi0 hilen
    exact hinv.1 i hi0 hilen (by omega)
  | succ fuel ih =>
    intro a j hfuel hj hinv
    rw [bubbleUpAux]
    by_cases hj0 : j = 0
    · rw [if_pos hj0]
      subst hj0
      intro i hi0 hilen
      exact hinv.1 i hi0 hilen (by omega)
    rw [if_neg hj0]
    by_cases hle : prioAt a ((j - 1) / 2) ≤ prioAt a j
    · rw [if_pos hle]
      intro i hi0 hilen
      by_cases hij : i = j
      · subst hij; exact hle
      · exact hinv.1 i hi0 hilen hij
    · rw [if_neg hle]
      push_neg at hle
      have hpj : (j - 1) / 2 < j := by omega
      have hplen : (j - 1) / 2 < a.length := by omega
      have hlen' : (swapAt a ((j - 1) / 2) j).length = a.length :=
        swapAt_length a _ j
      have hprio := fun k => prioAt_swapAt a (i := (j - 1) / 2) (j := j)
        k hplen hj
      have hpne : (j - 1) / 2 ≠ j := by omega
      refine ih (swapAt a ((j - 1) / 2) j) ((j - 1) / 2)
        (by omega) (by omega) ⟨?_, ?_⟩
      · intro i hi0 hilen hip
        rw [hlen'] at hilen
        rw [hprio i, hprio ((i - 1) / 2)]
        by_cases hij : i = j
        · subst hij
          rw [if_neg (show ¬((i - 1) / 2 = i) by omega), if_pos rfl,
            if_pos rfl]
          exact le_of_lt hle
        rw [if_neg hij, if_neg hip]
        by_cases hpar : (i - 1) / 2 = j
        · rw [if_pos hpar]
          have h2 := hinv.2 i hi0 hilen (by omega) hpar
          exact h2
        · rw [if_neg hpar]
          by_cases hparp : (i - 1) / 2 = (j - 1) / 2
          · rw [if_pos hparp]
            refine le_trans (le_of_lt hle) ?_
            have h1 := hinv.1 i hi0 hilen hij
            rw [hparp] at h1
            exact h1
          · rw [if_neg hparp]
            exact hinv.1 i hi0 hilen hij
      · intro c hc0 hclen hp0 hparc
        rw [hlen'] at hclen
        have hgp : ((j - 1) / 2 - 1) / 2 < (j - 1) / 2 := by omega
        rw [hprio c, hprio (((j - 1) / 2 - 1) / 2)]
        rw [if_neg (show ¬(((j - 1) / 2 - 1) / 2 = j) by omega),
          if_neg (show ¬(((j - 1) / 2 - 1) / 2 = (j - 1) / 2) by omega)]
        by_cases hcj : c = j
        · rw [if_pos hcj]
          exact hinv.1 ((j - 1) / 2) hp0 hplen hpne
        · rw [if_neg hcj, if_neg (show ¬(c = (j - 1) / 2) by omega)]
          refine le_trans (hinv.1 ((j - 1) / 2) hp0 hplen hpne) ?_
          have h1 := hinv.1 c hc0 hclen hcj
          rw [hparc] at h1
          exact h1

theorem prioAt_append_left {α : Type} (a b : List (HeapNode α)) (k : ℕ)
    (h : k < a.length) : prioAt (a ++ b) k = prioAt a k := by
  unfold prioAt
  rw [List.get?_append h]

/-- `push` preserves the heap order. -/
theorem push_isHeap {α : Type} (h : MinHeap α) (node : HeapNode α)
    (hh : IsHeap h.arr) : IsHeap (h.push node).arr := by
  show IsHeap (bubbleUp (h.arr ++ [node]) h.arr.length)
  unfold bubbleUp
  refine bubbleUpAux_isHeap h.arr.length (h.arr ++ [node]) h.arr.length
    le_rfl (by simp) ⟨?_, ?_⟩
  · intro i hi0 hilen hine
    rw [List.length_append, List.length_singleton] at hilen
    have hia : i < h.arr.length := by omega
    rw [prioAt_append_left _ _ _ hia,
      prioAt_append_left _ _ _ (by omega)]
    exact hh i hi0 hia
  · intro c hc0 hclen h0 hparc
    rw [List.length_append, List.length_singleton] at hclen
    omega

theorem prioAt_set_ne {α : Type} (l : List (HeapNode α)) (m k : ℕ)
    (v : HeapNode α) (hmk : m ≠ k) : prioAt (l.set m v) k = prioAt l k := by
  unfold prioAt
  rw [List.get?_set, if_neg hmk]

theorem prioAt_dropLast {α : Type} (l : List (HeapNode α)) (k : ℕ)
    (h : k < l.dropLast.length) : prioAt l.dropLast k = prioAt l k := by
  unfold prioAt
  rw [List.dropLast_eq_take] at h ⊢
  rw [List.get?_take (by rw [List.length_take] at h; omega)]

/-- `pop` on a nonempty heap: returns the root, which is minimal by
priority; the remaining heap is a permutation of the rest and keeps the
heap order. -/
theorem MinHeap.pop_spec {α : Type} {h : MinHeap α} (hne : h.arr ≠ [])
    (hheap : IsHeap h.arr) :
    ∃ n h', h.pop = (some n, h') ∧ List.Perm h.arr (n :: h'.arr) ∧
      (∀ m ∈ h.arr, n.priority ≤ m.priority) ∧ IsHeap h'.arr := by
  have hmin : ∀ m ∈ h.arr, prioAt h.arr 0 ≤ m.priority := hheap.root_min
  rcases h with ⟨arr⟩
  rcases arr with _ | ⟨top, rest⟩
  · exact absurd rfl hne
  simp only at hmin ⊢
  have htop : prioAt (top :: rest) 0 = top.priority := rfl
  rcases rest with _ | ⟨r, rs⟩
  · refine ⟨top, ⟨[]⟩, rfl, List.Perm.refl _, ?_, ?_⟩
    · intro m hm
      rw [← htop]
      exact hmin m hm
    · intro i hi0 hilen
      simp at hilen
  · -- at least two elements
    refine ⟨top, _, rfl, ?_, ?_, ?_⟩
    · -- permutation
      simp only
      refine List.Perm.trans ?_
        (List.Perm.cons top (bubbleDown_perm _ 0).symm)
      rw [List.dropLast_cons₂, List.set_cons_zero]
      have hsplit : r :: rs =
          (r :: rs).dropLast ++ [(r :: rs).getLast (List.cons_ne_nil r rs)] :=
        (List.dropLast_append_getLast (List.cons_ne_nil r rs)).symm
      refine List.Perm.cons top ?_
      conv_lhs => rw [hsplit]
      rw [List.getLast_cons (List.cons_ne_nil r rs)]
      exact List.perm_append_singleton _ _
    · intro m hm
      rw [← htop]
      exact hmin m hm
    · -- the remaining heap keeps the order
      simp only
      unfold bubbleDown
      set b := (top :: r :: rs).dropLast.set 0
        ((top :: r :: rs).getLast (by simp)) with hb
      have hblen : b.length = (r :: rs).length := by
        rw [hb, List.length_set, List.length_dropLast]
        simp
      refine bubbleDownAux_isHeap b.length b 0 le_rfl
        (by rw [hblen]; simp) ⟨?_, ?_⟩
      · intro i hi0 hilen hpar
        have hidrop : i < (top :: r :: rs).dropLast.length := by
          rw [hb, List.length_set] at hilen
          exact hilen
        have hpdrop : (i - 1) / 2 < (top :: r :: rs).dropLast.length := by
          omega
        rw [hb, prioAt_set_ne _ _ _ _ (by omega),
          prioAt_set_ne _ _ _ _ (by omega),
          prioAt_dropLast _ _ hidrop, prioAt_dropLast _ _ hpdrop]
        refine hheap i hi0 ?_
        rw [List.length_dropLast] at hidrop
        simp only [List.length_cons] at hidrop ⊢
        omega
      · intro c _ _ h0 _
        omega

/-- The heap states reachable by any sequence of `push` and `pop`
operations from the empty heap. -/
inductive ReachableHeap {α : Type} : MinHeap α → Prop
  | empty : ReachableHeap ⟨[]⟩
  | push (h : MinHeap α) (node : HeapNode α) :
      ReachableHeap h → ReachableHeap (h.push node)
  | pop (h : MinHeap α) : ReachableHeap h → ReachableHeap h.pop.2

/-- Every reachable heap satisfies the heap order. -/
theorem ReachableHeap.isHeap {α : Type} {h : MinHeap α}
    (hr : ReachableHeap h) : IsHeap h.arr := by
  induction hr with
  | empty =>
    intro i hi0 hilen
    simp at hilen
  | push h node _ ih => exact push_isHeap h node ih
  | pop h _ ih =>
    by_cases hne : h.arr = []
    · rw [MinHeap.pop_empty h hne]
      exact ih
    · obtain ⟨n, h', hpop, -, -, hh⟩ := MinHeap.pop_spec hne ih
      rw [hpop]
      exact hh

/-- Claim C10 (confirmed).  On every heap state reachable by a sequence
of push and pop operations: pop on an empty heap returns none and changes
nothing; pop on a nonempty heap removes (the remaining contents are a
permutation of the old contents minus the returned node) and returns a
node whose priority is minimal among all stored nodes (comparison by
priority only); `toArray` returns the contents as a plain list value —
which in the pure model is what "a copy that does not alias the internal
array" denotes: no later heap operation can change it. -/
theorem C10_minheap {α : Type} (h : MinHeap α) (hr : ReachableHeap h) :
    (h.arr = [] → h.pop = (none, h)) ∧
    (h.arr ≠ [] → ∃ n h', h.pop = (some n, h') ∧
      List.Perm h.arr (n :: h'.arr) ∧
      ∀ m ∈ h.arr, n.priority ≤ m.priority) ∧
    h.toArray = h.arr := by
  refine ⟨MinHeap.pop_empty h, ?_, rfl⟩
  intro hne
  obtain ⟨n, h', hpop, hperm, hmin, -⟩ := MinHeap.pop_spec hne hr.isHeap
  exact ⟨n, h', hpop, hperm, hmin⟩

/-- Claim C10's witness: push priorities 5 then 1 onto the empty heap;
pop must return the priority-1 node. -/
theorem C10_minheap_witness :
    ((MinHeap.push (MinHeap.push (⟨[]⟩ : MinHeap ℚ) ⟨"a", 5, 5⟩)
        ⟨"b", 1, 1⟩).arr = [] →
      (MinHeap.push (MinHeap.push (⟨[]⟩ : MinHeap ℚ) ⟨"a", 5, 5⟩)
        ⟨"b", 1, 1⟩).pop =
        (none, MinHeap.push (MinHeap.push (⟨[]⟩ : MinHeap ℚ) ⟨"a", 5, 5⟩)
          ⟨"b", 1, 1⟩)) ∧
    ((MinHeap.push (MinHeap.push (⟨[]⟩ : MinHeap ℚ) ⟨"a", 5, 5⟩)
        ⟨"b", 1, 1⟩).arr ≠ [] →
      ∃ n h', (MinHeap.push (MinHeap.push (⟨[]⟩ : MinHeap ℚ) ⟨"a", 5, 5⟩)
          ⟨"b", 1, 1⟩).pop = (some n, h') ∧
        List.Perm (MinHeap.push (MinHeap.push (⟨[]⟩ : MinHeap ℚ)
          ⟨"a", 5, 5⟩) ⟨"b", 1, 1⟩).arr (n :: h'.arr) ∧
        ∀ m ∈ (MinHeap.push (MinHeap.push (⟨[]⟩ : MinHeap ℚ) ⟨"a", 5, 5⟩)
          ⟨"b", 1, 1⟩).arr, n.priority ≤ m.priority) ∧
    (MinHeap.push (MinHeap.push (⟨[]⟩ : MinHeap ℚ) ⟨"a", 5, 5⟩)
      ⟨"b", 1, 1⟩).toArray =
      (MinHeap.push (MinHeap.push (⟨[]⟩ : MinHeap ℚ) ⟨"a", 5, 5⟩)
        ⟨"b", 1, 1⟩).arr :=
  C10_minheap (MinHeap.push (MinHeap.push (⟨[]⟩ : MinHeap ℚ) ⟨"a", 5, 5⟩)
      ⟨"b", 1, 1⟩)
    (ReachableHeap.push _ _ (ReachableHeap.push _ _ ReachableHeap.empty))

/-! ## A* with weight 0 degenerates to Dijkstra (claim C5)

Both runs use the min-heap frontier.  With weight 0 the A* item's
`f = g + 0·h` equals its `g`, so the two runs' states agree up to the
projection that erases the `h`/`f` bookkeeping fields (and the
selection-reason / why-not annotations, which name the metric).  The
lemmas below push that projection through every engine component. -/

/-- Erase the A*-only bookkeeping fields of an item. -/
def projItem (x : FrontierItem) : FrontierItem :=
  { key := x.key, «at» := x.«at», g := x.g, h := none, f := none,
    depth := x.depth, priority := x.priority }

def projNode (n : HeapNode FrontierItem) : HeapNode FrontierItem :=
  { id := n.id, value := projItem n.value, priority := n.priority }

/-- Erase the item bookkeeping and the metric-naming annotations of a
snapshot. -/
def projSnap (s : StepSnapshot) : StepSnapshot :=
  { s with
    frontier := List.map projItem s.frontier,
    selected := Option.map projItem s.selected,
    selectionReason := none,
    whyNot := none }

theorem prioAt_map_projNode (a : List (HeapNode FrontierItem)) (k : ℕ) :
    prioAt (a.map projNode) k = prioAt a k := by
  unfold prioAt
  rw [List.get?_map]
  rcases a.get? k <;> rfl

theorem swapAt_map_projNode (a : List (HeapNode FrontierItem)) (i j : ℕ) :
    swapAt (a.map projNode) i j = (swapAt a i j).map projNode := by
  unfold swapAt
  rw [List.get?_map, List.get?_map]
  rcases a.get? i <;> rcases a.get? j <;>
    simp [List.map_set]

theorem smallestIdx_map_projNode (a : List (HeapNode FrontierItem))
    (i : ℕ) : smallestIdx (a.map projNode) i = smallestIdx a i := by
  unfold smallestIdx
  simp only [List.length_map, prioAt_map_projNode]

theorem bubbleUpAux_map_projNode : ∀ (fuel : ℕ)
    (a : List (HeapNode FrontierItem)) (i : ℕ),
    bubbleUpAux fuel (a.map projNode) i = (bubbleUpAux fuel a i).map projNode := by
  intro fuel
  induction fuel with
  | zero => intro a i; rfl
  | succ fuel ih =>
    intro a i
    rw [bubbleUpAux, bubbleUpAux]
    simp only [prioAt_map_projNode]
    split
    · rfl
    split
    · rfl
    · rw [swapAt_map_projNode, ih]

theorem bubbleDownAux_map_projNode : ∀ (fuel : ℕ)
    (a : List (HeapNode FrontierItem)) (i : ℕ),
    bubbleDownAux fuel (a.map projNode) i =
      (bubbleDownAux fuel a i).map projNode := by
  intro fuel
  induction fuel with
  | zero => intro a i; rfl
  | succ fuel ih =>
    intro a i
    rw [bubbleDownAux, bubbleDownAux]
    simp only [smallestIdx_map_projNode]
    split
    · rfl
    · rw [swapAt_map_projNode, ih]

theorem push_map_projNode (a : List (HeapNode FrontierItem))
    (n : HeapNode FrontierItem) :
    (MinHeap.push ⟨a.map projNode⟩ (projNode n)).arr =
      ((MinHeap.push ⟨a⟩ n).arr).map projNode := by
  show bubbleUpAux _ _ _ = _
  simp only [MinHeap.push]
  rw [show a.map projNode ++ [projNode n] = (a ++ [n]).map projNode by
    simp, List.length_map]
  exact bubbleUpAux_map_projNode _ _ _

theorem pop_map_projNode (a : List (HeapNode FrontierItem)) :
    MinHeap.pop ⟨a.map projNode⟩ =
      ((MinHeap.pop ⟨a⟩).1.map projNode,
        ⟨((MinHeap.pop ⟨a⟩).2.arr).map projNode⟩) := by
  rcases a with _ | ⟨top, rest⟩
  · rfl
  rcases rest with _ | ⟨r, rs⟩
  · rfl
  show (some (projNode top),
      (⟨bubbleDown ((((top :: r :: rs).map projNode).dropLast).set 0
        (((top :: r :: rs).map projNode).getLast (by simp))) 0⟩ :
          MinHeap FrontierItem)) =
    (some (projNode top),
      ⟨(bubbleDown (((top :: r :: rs).dropLast).set 0
        ((top :: r :: rs).getLast (by simp))) 0).map projNode⟩)
  congr 1
  rw [List.getLast_map projNode (top :: r :: rs), ← List.map_dropLast,
    ← List.map_set]
  unfold bubbleDown
  rw [List.length_map]
  congr 1
  exact bubbleDownAux_map_projNode _ _ _

theorem popNonStaleAux_map_projNode (cl : List String)
    (gs : List (String × ℚ)) : ∀ (fuel : ℕ)
    (a : List (HeapNode FrontierItem)),
    popNonStaleAux cl gs fuel ⟨a.map projNode⟩ =
      ((popNonStaleAux cl gs fuel ⟨a⟩).1.map projItem,
        ⟨((popNonStaleAux cl gs fuel ⟨a⟩).2.arr).map projNode⟩) := by
  intro fuel
  induction fuel with
  | zero => intro a; rfl
  | succ fuel ih =>
    intro a
    rw [popNonStaleAux, popNonStaleAux, pop_map_projNode]
    rcases hpop : MinHeap.pop ⟨a⟩ with ⟨_ | node, h'⟩
    · rfl
    simp only [Option.map_some]
    show (if (projItem node.value).key ∈ cl then _ else _) = _
    have hkey : (projItem node.value).key = node.value.key := rfl
    have hg : (projItem node.value).g = node.value.g := rfl
    rw [hkey]
    by_cases hcl : node.value.key ∈ cl
    · rw [if_pos hcl, if_pos hcl]
      have := ih h'.arr
      rw [show (⟨h'.arr.map projNode⟩ : MinHeap FrontierItem) =
        ⟨h'.arr.map projNode⟩ from rfl] at this
      exact this
    · rw [if_neg hcl, if_neg hcl]
      show (match mGet gs (projItem node.value).key,
        (projItem node.value).g with
        | some bestKnown, some gg => _ | _, _ => _) = _
      rw [hkey, hg]
      rcases mGet gs node.value.key with _ | bk <;>
        rcases hgv : node.value.g with _ | gv <;>
        simp only
      · rfl
      · rfl
      · rfl
      · split
        · exact ih h'.arr
        · rfl

/-- The same context with the algorithm switched to Dijkstra (all other
options, the adapter, the keys and the frontier kind field unchanged). -/
def dijCtx (ctx : Ctx) : Ctx :=
  { ctx with options := { ctx.options with algorithm := .dijkstra } }

/-- The A*-run state (left) and Dijkstra-run state (right) agree up to
the projection: all bookkeeping maps coincide, and heaps and emitted
snapshots coincide after erasing the A*-only fields. -/
def SimState (stA stD : EngineState) : Prop :=
  stD.visited = stA.visited ∧ stD.closed = stA.closed ∧
  stD.cameFrom = stA.cameFrom ∧ stD.gScore = stA.gScore ∧
  stD.relaxations = stA.relaxations ∧
  stD.peakFrontier = stA.peakFrontier ∧ stD.peakClosed = stA.peakClosed ∧
  stD.heap.arr.map projNode = stA.heap.arr.map projNode ∧
  stD.steps.map projSnap = stA.steps.map projSnap

theorem frontier_sim (ctx : Ctx) (hfk : ctx.fk = .minheap)
    {stA stD : EngineState} (hsim : SimState stA stD) :
    (frontierToArray (dijCtx ctx) stD).map projItem =
      (frontierToArray ctx stA).map projItem := by
  obtain ⟨-, -, -, -, -, -, -, hheap, -⟩ := hsim
  show (frontierToArray (dijCtx ctx) stD).map projItem = _
  unfold frontierToArray
  have hfk' : (dijCtx ctx).fk = ctx.fk := rfl
  rw [hfk', hfk]
  simp only [MinHeap.toArray, List.map_map]
  have hcomp : (projItem ∘ fun n : HeapNode FrontierItem => n.value) =
      ((fun n : HeapNode FrontierItem => n.value) ∘ projNode) := rfl
  rw [hcomp, ← List.map_map, ← List.map_map, hheap]

theorem frontier_len_sim (ctx : Ctx) (hfk : ctx.fk = .minheap)
    {stA stD : EngineState} (hsim : SimState stA stD) :
    (frontierToArray (dijCtx ctx) stD).length =
      (frontierToArray ctx stA).length := by
  have h := congrArg List.length (frontier_sim ctx hfk hsim)
  simpa using h

theorem steps_len_sim {stA stD : EngineState} (hsim : SimState stA stD) :
    stD.steps.length = stA.steps.length := by
  have h := congrArg List.length hsim.2.2.2.2.2.2.2.2
  simpa using h

theorem pushStep_sim (ctx : Ctx) (hfk : ctx.fk = .minheap)
    {stA stD : EngineState} (hsim : SimState stA stD)
    (pA pD : StepPartial) (hph : pD.phase = pA.phase)
    (hck : pD.currentKey = pA.currentKey) (hcur : pD.current = pA.current)
    (hsel : Option.map projItem pD.selected =
      Option.map projItem pA.selected)
    (hrel : pD.relaxation = pA.relaxation)
    (hpath : pD.path = pA.path) (hwar : pD.warnings = pA.warnings) :
    SimState (pushStep ctx stA pA) (pushStep (dijCtx ctx) stD pD) := by
  obtain ⟨h1, h2, h3, h4, h5, h6, h7, h8, h9⟩ := hsim
  refine ⟨h1, h2, h3, h4, h5, ?_, ?_, h8, ?_⟩
  · show max stD.peakFrontier _ = max stA.peakFrontier _
    rw [h6, frontier_len_sim ctx hfk ⟨h1, h2, h3, h4, h5, h6, h7, h8, h9⟩]
  · show max stD.peakClosed _ = max stA.peakClosed _
    rw [h7, h2]
  · show (pushStep (dijCtx ctx) stD pD).steps.map projSnap =
      (pushStep ctx stA pA).steps.map projSnap
    simp only [pushStep_steps, List.map_append, h9]
    simp only [List.map_cons, List.map_nil]
    congr 2
    show projSnap (snapOf (dijCtx ctx) stD pD) =
      projSnap (snapOf ctx stA pA)
    unfold snapOf projSnap
    simp only
    rw [h1, h2, h3, h4, hph, hck, hcur, hsel, hrel, hpath, hwar,
      steps_len_sim ⟨h1, h2, h3, h4, h5, h6, h7, h8, h9⟩,
      frontier_sim ctx hfk ⟨h1, h2, h3, h4, h5, h6, h7, h8, h9⟩]
    rfl

theorem selectItem_sim (ctx : Ctx) (hfk : ctx.fk = .minheap)
    {stA stD : EngineState} (hsim : SimState stA stD) :
    Option.map projItem (selectItem (dijCtx ctx) stD).1 =
      Option.map projItem (selectItem ctx stA).1 ∧
    SimState (selectItem ctx stA).2 (selectItem (dijCtx ctx) stD).2 := by
  obtain ⟨h1, h2, h3, h4, h5, h6, h7, h8, h9⟩ := hsim
  unfold selectItem
  have hfk' : (dijCtx ctx).fk = ctx.fk := rfl
  rw [hfk', hfk]
  simp only
  unfold popNonStale
  have hlen : stD.heap.arr.length = stA.heap.arr.length := by
    have h := congrArg List.length h8
    simpa using h
  have hA := popNonStaleAux_map_projNode stA.closed stA.gScore
    stA.heap.arr.length stA.heap.arr
  have hD := popNonStaleAux_map_projNode stD.closed stD.gScore
    stD.heap.arr.length stD.heap.arr
  rw [h2, h4, hlen] at hD
  rw [h8] at hD
  have hDD : (Option.map projItem
        (popNonStaleAux stA.closed stA.gScore stA.heap.arr.length
          ⟨stD.heap.arr⟩).1,
      (⟨((popNonStaleAux stA.closed stA.gScore stA.heap.arr.length
          ⟨stD.heap.arr⟩).2.arr).map projNode⟩ : MinHeap FrontierItem)) =
      (Option.map projItem
        (popNonStaleAux stA.closed stA.gScore stA.heap.arr.length
          ⟨stA.heap.arr⟩).1,
      ⟨((popNonStaleAux stA.closed stA.gScore stA.heap.arr.length
          ⟨stA.heap.arr⟩).2.arr).map projNode⟩) := by
    rw [← hA, ← hD]
  obtain ⟨hfst, hsnd⟩ := Prod.mk.injEq _ _ _ _ ▸ hDD
  rcases hres : popNonStaleAux stA.closed stA.gScore stA.heap.arr.length
      ⟨stA.heap.arr⟩ with ⟨oA, hA'⟩
  rcases hresD : popNonStaleAux stA.closed stA.gScore stA.heap.arr.length
      ⟨stD.heap.arr⟩ with ⟨oD, hD'⟩
  rw [hres, hresD] at hfst hsnd
  simp only at hfst hsnd
  have hres' : popNonStaleAux stA.closed stA.gScore stA.heap.arr.length
      stA.heap = (oA, hA') := hres
  have hresD' : popNonStaleAux stA.closed stA.gScore stA.heap.arr.length
      stD.heap = (oD, hD') := hresD
  rw [h2, h4, hlen]
  rw [hresD']
  simp only
  refine ⟨hfst, h1, rfl, h3, rfl, h5, h6, h7, ?_, h9⟩
  have := congrArg MinHeap.arr hsnd
  simpa using this

theorem projItem_makeItem (c : Coord) (k : String) (g h h' d d' w' : ℚ) :
    projItem (makeItem c k .astar g h d 0) =
      projItem (makeItem c k .dijkstra g h' d' w') := by
  unfold makeItem projItem
  simp

theorem priority_makeItem (c : Coord) (k : String) (g h h' d d' w' : ℚ) :
    (makeItem c k .astar g h d 0).priority =
      (makeItem c k .dijkstra g h' d' w').priority := by
  unfold makeItem
  simp

theorem expandWarnings_astar0 (ctx : Ctx)
    (halg : ctx.options.algorithm = .astar)
    (hw : ctx.options.heuristicWeight = 0) (sel : FrontierItem) (n : ℕ) :
    expandWarnings ctx sel n = [] := by
  unfold expandWarnings
  rw [halg, hw]
  simp

theorem expandWarnings_dijCtx (ctx : Ctx) (sel : FrontierItem) (n : ℕ) :
    expandWarnings (dijCtx ctx) sel n = [] := by
  unfold expandWarnings
  have : (dijCtx ctx).options.algorithm = .dijkstra := rfl
  rw [this]
  simp

theorem processNeighbor_sim (ctx : Ctx)
    (halg : ctx.options.algorithm = .astar)
    (hw : ctx.options.heuristicWeight = 0) (hfk : ctx.fk = .minheap)
    {stA stD : EngineState} (hsim : SimState stA stD)
    {selA selD : FrontierItem} (hproj : projItem selD = projItem selA)
    (rA rD : SelectionReason) (cg cd : ℚ) (nb : Neighbor) :
    SimState (processNeighbor ctx selA rA cg cd stA nb)
      (processNeighbor (dijCtx ctx) selD rD cg cd stD nb) := by
  have hkey0 := congrArg FrontierItem.key hproj
  have hkey : selD.key = selA.key := hkey0
  have hat0 := congrArg FrontierItem.«at» hproj
  have hat : selD.«at» = selA.«at» := hat0
  have hclosed : stD.closed = stA.closed := hsim.2.1
  have hgs : stD.gScore = stA.gScore := hsim.2.2.2.1
  have halgD : (dijCtx ctx).options.algorithm = .dijkstra := rfl
  have hwD : (dijCtx ctx).options.heuristicWeight = 0 := hw
  have hnotA : ¬(ctx.options.algorithm = .bfs ∨
      ctx.options.algorithm = .dfs) := by
    rw [halg]; rintro (h | h) <;> exact AlgorithmId.noConfusion h
  have hnotD : ¬((dijCtx ctx).options.algorithm = .bfs ∨
      (dijCtx ctx).options.algorithm = .dfs) := by
    rw [halgD]; rintro (h | h) <;> exact AlgorithmId.noConfusion h
  have hadapter : (dijCtx ctx).adapter = ctx.adapter := rfl
  have hnotA2 : ¬(AlgorithmId.astar = AlgorithmId.bfs ∨
      AlgorithmId.astar = AlgorithmId.dfs) := by decide
  have hnotD2 : ¬(AlgorithmId.dijkstra = AlgorithmId.bfs ∨
      AlgorithmId.dijkstra = AlgorithmId.dfs) := by decide
  have hastar : (AlgorithmId.astar = AlgorithmId.astar) = True := by simp
  have hdij : (AlgorithmId.dijkstra = AlgorithmId.astar) = False := by
    simp
  simp only [processNeighbor, hclosed, hgs, hkey, hat, hadapter, halg,
    halgD, hw, hwD, if_neg hnotA2, if_neg hnotD2, hastar, hdij,
    if_true, if_false, ite_true, ite_false]
  by_cases hmem : nb.key ∈ stA.closed
  · rw [if_pos hmem, if_pos hmem]
    exact hsim
  rw [if_neg hmem, if_neg hmem]
  set sc : ℚ :=
    if ctx.adapter.edgeCostMode = .weighted then nb.cost else 1 with hsc
  split_ifs with himp
  · exact hsim
  obtain ⟨h1, h2, h3, h4, h5, h6, h7, h8, h9⟩ := hsim
  have hsim1 : SimState
      { stA with
        cameFrom := mSet stA.cameFrom nb.key selA.key,
        gScore := mSet stA.gScore nb.key (cg + sc),
        visited := sAdd stA.visited nb.key,
        relaxations := stA.relaxations + 1 }
      { stD with
        closed := stA.closed,
        cameFrom := mSet stD.cameFrom nb.key selA.key,
        gScore := mSet stA.gScore nb.key (cg + sc),
        visited := sAdd stD.visited nb.key,
        relaxations := stD.relaxations + 1 } := by
    refine ⟨?_, rfl, ?_, rfl, ?_, h6, h7, h8, h9⟩
    · show sAdd stD.visited nb.key = sAdd stA.visited nb.key
      rw [h1]
    · show mSet stD.cameFrom nb.key selA.key = _
      rw [h3]
    · show stD.relaxations + 1 = stA.relaxations + 1
      rw [h5]
  have hsim2 := pushStep_sim ctx hfk hsim1
    { phase := .relax, currentKey := some selA.key,
      current := some selA.«at», selected := some selA,
      selectionReason := some rA,
      relaxation := some
        { fromKey := selA.key, toKey := nb.key,
          oldG := mGet stA.gScore nb.key,
          newG := cg + sc, improved := true } }
    { phase := .relax, currentKey := some selA.key,
      current := some selA.«at», selected := some selD,
      selectionReason := some rD,
      relaxation := some
        { fromKey := selA.key, toKey := nb.key,
          oldG := mGet stA.gScore nb.key,
          newG := cg + sc, improved := true } }
    rfl rfl rfl (by exact congrArg some hproj) rfl rfl rfl
  set stA2 := pushStep ctx
    { stA with
      cameFrom := mSet stA.cameFrom nb.key selA.key,
      gScore := mSet stA.gScore nb.key (cg + sc),
      visited := sAdd stA.visited nb.key,
      relaxations := stA.relaxations + 1 }
    { phase := .relax, currentKey := some selA.key,
      current := some selA.«at», selected := some selA,
      selectionReason := some rA,
      relaxation := some
        { fromKey := selA.key, toKey := nb.key,
          oldG := mGet stA.gScore nb.key,
          newG := cg + sc, improved := true } } with hstA2
  set stD2 := pushStep (dijCtx ctx)
    { stD with
      closed := stA.closed,
      cameFrom := mSet stD.cameFrom nb.key selA.key,
      gScore := mSet stA.gScore nb.key (cg + sc),
      visited := sAdd stD.visited nb.key,
      relaxations := stD.relaxations + 1 }
    { phase := .relax, currentKey := some selA.key,
      current := some selA.«at», selected := some selD,
      selectionReason := some rD,
      relaxation := some
        { fromKey := selA.key, toKey := nb.key,
          oldG := mGet stA.gScore nb.key,
          newG := cg + sc, improved := true } } with hstD2
  have hnodeproj :
      projNode
        { id := nb.key,
          value := makeItem (ctx.adapter.coordOfKey nb.key) nb.key
            .dijkstra (cg + sc) 0 (cd + 1) 0,
          priority := (makeItem (ctx.adapter.coordOfKey nb.key) nb.key
            .dijkstra (cg + sc) 0 (cd + 1) 0).priority.getD (cg + sc) } =
      projNode
        { id := nb.key,
          value := makeItem (ctx.adapter.coordOfKey nb.key) nb.key
            .astar (cg + sc)
            (ctx.hFn (ctx.adapter.coordOfKey nb.key) ctx.goal)
            (cd + 1) 0,
          priority := (makeItem (ctx.adapter.coordOfKey nb.key) nb.key
            .astar (cg + sc)
            (ctx.hFn (ctx.adapter.coordOfKey nb.key) ctx.goal)
            (cd + 1) 0).priority.getD (cg + sc) } := by
    unfold projNode
    rw [projItem_makeItem (ctx.adapter.coordOfKey nb.key) nb.key (cg + sc)
        (ctx.hFn (ctx.adapter.coordOfKey nb.key) ctx.goal) 0 (cd + 1)
        (cd + 1) 0,
      priority_makeItem (ctx.adapter.coordOfKey nb.key) nb.key (cg + sc)
        (ctx.hFn (ctx.adapter.coordOfKey nb.key) ctx.goal) 0 (cd + 1)
        (cd + 1) 0]
  refine pushStep_sim ctx hfk ?_
    { phase := .enqueue, currentKey := some selA.key,
      current := some selA.«at», selected := some selA,
      selectionReason := some rA }
    { phase := .enqueue, currentKey := some selA.key,
      current := some selA.«at», selected := some selD,
      selectionReason := some rD }
    rfl rfl rfl (by exact congrArg some hproj) rfl rfl rfl
  obtain ⟨g1, g2, g3, g4, g5, g6, g7, g8, g9⟩ := hsim2
  refine ⟨g1, g2, g3, g4, g5, g6, g7, ?_, g9⟩
  show (MinHeap.push stD2.heap _).arr.map projNode =
    (MinHeap.push stA2.heap _).arr.map projNode
  rw [show stD2.heap = (⟨stD2.heap.arr⟩ : MinHeap FrontierItem) from rfl,
    show stA2.heap = (⟨stA2.heap.arr⟩ : MinHeap FrontierItem) from rfl,
    ← push_map_projNode, ← push_map_projNode, g8, hnodeproj]

theorem foldl_processNeighbor_sim (ctx : Ctx)
    (halg : ctx.options.algorithm = .astar)
    (hw : ctx.options.heuristicWeight = 0) (hfk : ctx.fk = .minheap)
    {selA selD : FrontierItem} (hproj : projItem selD = projItem selA)
    (rA rD : SelectionReason) (cg cd : ℚ) :
    ∀ (l : List Neighbor) {stA stD : EngineState}, SimState stA stD →
      SimState (l.foldl (processNeighbor ctx selA rA cg cd) stA)
        (l.foldl (processNeighbor (dijCtx ctx) selD rD cg cd) stD) := by
  intro l
  induction l with
  | nil => intro stA stD hsim; exact hsim
  | cons nb rest ih =>
    intro stA stD hsim
    rw [List.foldl_cons, List.foldl_cons]
    exact ih (processNeighbor_sim ctx halg hw hfk hsim hproj rA rD cg cd nb)

theorem expandPhase_sim (ctx : Ctx)
    (halg : ctx.options.algorithm = .astar)
    (hw : ctx.options.heuristicWeight = 0) (hfk : ctx.fk = .minheap)
    {stA stD : EngineState} (hsim : SimState stA stD)
    {selA selD : FrontierItem} (hproj : projItem selD = projItem selA)
    (rA rD : SelectionReason) :
    SimState (expandPhase ctx selA rA stA)
      (expandPhase (dijCtx ctx) selD rD stD) := by
  have hkey0 := congrArg FrontierItem.key hproj
  have hkey : selD.key = selA.key := hkey0
  have hat0 := congrArg FrontierItem.«at» hproj
  have hat : selD.«at» = selA.«at» := hat0
  have hdep0 := congrArg FrontierItem.depth hproj
  have hdep : selD.depth = selA.depth := hdep0
  have hclosed : stD.closed = stA.closed := hsim.2.1
  have hgsDA : stD.gScore = stA.gScore := hsim.2.2.2.1
  have hadapter : (dijCtx ctx).adapter = ctx.adapter := rfl
  have hwarnA := fun sel n => expandWarnings_astar0 ctx halg hw sel n
  have hwarnD := fun sel n => expandWarnings_dijCtx ctx sel n
  simp only [expandPhase, hclosed, hgsDA, hkey, hat, hdep, hadapter,
    hwarnA, hwarnD, ne_eq, not_true_eq_false, if_false, ite_false,
    pushStep_gScore]
  have hsim1 : SimState { stA with closed := sAdd stA.closed selA.key }
      { stD with
          closed := sAdd stA.closed selA.key
          gScore := stA.gScore } := by
    obtain ⟨h1, h2, h3, h4, h5, h6, h7, h8, h9⟩ := hsim
    exact ⟨h1, rfl, h3, rfl, h5, h6, h7, h8, h9⟩
  have hsim2 := pushStep_sim ctx hfk hsim1
    { phase := .expand, currentKey := some selA.key,
      current := some selA.«at», selected := some selA,
      selectionReason := some rA }
    { phase := .expand, currentKey := some selA.key,
      current := some selA.«at», selected := some selD,
      selectionReason := some rD }
    rfl rfl rfl (by exact congrArg some hproj) rfl rfl rfl
  exact foldl_processNeighbor_sim ctx halg hw hfk hproj rA rD
    ((mGet stA.gScore selA.key).getD 0) (selA.depth.getD 0) _ hsim2

theorem loopBody_sim (ctx : Ctx)
    (halg : ctx.options.algorithm = .astar)
    (hw : ctx.options.heuristicWeight = 0) (hfk : ctx.fk = .minheap)
    {stA stD : EngineState} (hsim : SimState stA stD) :
    SimState (loopBody ctx stA).1 (loopBody (dijCtx ctx) stD).1 ∧
      (loopBody ctx stA).2 = (loopBody (dijCtx ctx) stD).2 := by
  obtain ⟨hsel_eq, hsim'⟩ := selectItem_sim ctx hfk hsim
  unfold loopBody
  rcases hA : selectItem ctx stA with ⟨oA, stA'⟩
  rcases hD : selectItem (dijCtx ctx) stD with ⟨oD, stD'⟩
  rw [hA, hD] at hsel_eq hsim'
  simp only at hsel_eq hsim'
  rcases oA with _ | selA
  · have hDnone : oD = none := Option.map_eq_none.mp hsel_eq
    subst hDnone
    exact ⟨hsim', rfl⟩
  rcases oD with _ | selD
  · exact absurd hsel_eq (by simp)
  have hproj : projItem selD = projItem selA := by
    simpa using hsel_eq
  have hkey0 := congrArg FrontierItem.key hproj
  have hkey : selD.key = selA.key := hkey0
  have hat0 := congrArg FrontierItem.«at» hproj
  have hat : selD.«at» = selA.«at» := hat0
  have hclosed' : stD'.closed = stA'.closed := hsim'.2.1
  simp only
  by_cases hmem : selA.key ∈ stA'.closed
  · rw [if_pos hmem, if_pos (show selD.key ∈ stD'.closed by
      rw [hkey, hclosed']; exact hmem)]
    exact ⟨hsim', rfl⟩
  rw [if_neg hmem, if_neg (show ¬(selD.key ∈ stD'.closed) by
    rw [hkey, hclosed']; exact hmem)]
  have hgoalD : (dijCtx ctx).goalKey = ctx.goalKey := rfl
  have hsim2 := pushStep_sim ctx hfk hsim'
    { phase := .select, currentKey := some selA.key,
      current := some selA.«at», selected := some selA,
      selectionReason := some (selectionReasonFor ctx.options.algorithm
        selA),
      whyNot :=
        if ctx.fk = .minheap then
          some (compareWhyNot (selA :: frontierToArray ctx stA') selA
            (if ctx.options.algorithm = .dijkstra then .g else .f))
        else none }
    { phase := .select, currentKey := some selD.key,
      current := some selD.«at», selected := some selD,
      selectionReason := some (selectionReasonFor
        (dijCtx ctx).options.algorithm selD),
      whyNot :=
        if (dijCtx ctx).fk = .minheap then
          some (compareWhyNot (selD :: frontierToArray (dijCtx ctx) stD')
            selD
            (if (dijCtx ctx).options.algorithm = .dijkstra then .g
            else .f))
        else none }
    rfl (by rw [hkey]) (by rw [hat]) (by exact congrArg some hproj)
    rfl rfl rfl
  by_cases hgoal : selA.key = ctx.goalKey
  · rw [if_pos hgoal, if_pos (show selD.key = (dijCtx ctx).goalKey by
      rw [hkey, hgoalD]; exact hgoal)]
    have hcf : (pushStep (dijCtx ctx) stD'
        { phase := .select, currentKey := some selD.key,
          current := some selD.«at», selected := some selD,
          selectionReason := some (selectionReasonFor
            (dijCtx ctx).options.algorithm selD),
          whyNot :=
            if (dijCtx ctx).fk = .minheap then
              some (compareWhyNot
                (selD :: frontierToArray (dijCtx ctx) stD') selD
                (if (dijCtx ctx).options.algorithm = .dijkstra then .g
                else .f))
            else none }).cameFrom =
        (pushStep ctx stA'
        { phase := .select, currentKey := some selA.key,
          current := some selA.«at», selected := some selA,
          selectionReason := some (selectionReasonFor
            ctx.options.algorithm selA),
          whyNot :=
            if ctx.fk = .minheap then
              some (compareWhyNot (selA :: frontierToArray ctx stA') selA
                (if ctx.options.algorithm = .dijkstra then .g else .f))
            else none }).cameFrom := by
      rw [pushStep_cameFrom, pushStep_cameFrom]
      exact hsim'.2.2.1
    have hwA : (if ctx.options.algorithm = .astar ∧
        ctx.options.heuristicWeight > 1 then
          some [weightedFoundWarning] else none) = none := by
      rw [if_neg]
      rw [halg, hw]
      rintro ⟨-, hgt⟩
      exact absurd hgt (by norm_num)
    have hwD : (if (dijCtx ctx).options.algorithm = .astar ∧
        (dijCtx ctx).options.heuristicWeight > 1 then
          some [weightedFoundWarning] else none) = none := by
      rw [if_neg]
      rintro ⟨hc, -⟩
      exact AlgorithmId.noConfusion hc
    refine ⟨pushStep_sim ctx hfk hsim2 _ _ rfl (by rw [hkey])
      (by rw [hat]) (by exact congrArg some hproj) rfl ?_ ?_, rfl⟩
    · show some _ = some _
      rw [hcf]
      rfl
    · show (if (dijCtx ctx).options.algorithm = .astar ∧
        (dijCtx ctx).options.heuristicWeight > 1 then
          some [weightedFoundWarning] else none) = _
      rw [hwA, hwD]
  · rw [if_neg hgoal, if_neg (show ¬(selD.key = (dijCtx ctx).goalKey) by
      rw [hkey, hgoalD]; exact hgoal)]
    exact ⟨expandPhase_sim ctx halg hw hfk hsim2 hproj _ _, rfl⟩

theorem runLoop_sim (ctx : Ctx)
    (halg : ctx.options.algorithm = .astar)
    (hw : ctx.options.heuristicWeight = 0) (hfk : ctx.fk = .minheap) :
    ∀ (fuel : ℕ) {stA stD : EngineState}, SimState stA stD →
      SimState (runLoop ctx stA fuel)
        (runLoop (dijCtx ctx) stD fuel) := by
  intro fuel
  induction fuel with
  | zero =>
    intro stA stD hsim
    rw [runLoop, runLoop, frontier_len_sim ctx hfk hsim]
    by_cases hf : (frontierToArray ctx stA).length > 0
    · rw [if_pos hf, if_pos hf]
      exact pushStep_sim ctx hfk hsim
        { phase := .exhausted, currentKey := none,
          warnings := some [exhaustedWarning] }
        { phase := .exhausted, currentKey := none,
          warnings := some [exhaustedWarning] }
        rfl rfl rfl rfl rfl rfl rfl
    · rw [if_neg hf, if_neg hf]
      exact hsim
  | succ n ih =>
    intro stA stD hsim
    rw [runLoop, runLoop, frontier_len_sim ctx hfk hsim]
    by_cases hf : (frontierToArray ctx stA).length > 0
    · rw [if_pos hf, if_pos hf]
      obtain ⟨hsimb, hcont⟩ := loopBody_sim ctx halg hw hfk hsim
      rcases hA : loopBody ctx stA with ⟨stA', cA⟩
      rcases hD : loopBody (dijCtx ctx) stD with ⟨stD', cD⟩
      rw [hA, hD] at hsimb hcont
      simp only at hsimb hcont
      subst hcont
      rcases cA
      · exact hsimb
      · exact ih hsimb
    · rw [if_neg hf, if_neg hf]
      exact hsim

theorem seedState_sim (ctx : Ctx)
    (halg : ctx.options.algorithm = .astar)
    (hw : ctx.options.heuristicWeight = 0) (hfk : ctx.fk = .minheap) :
    SimState (seedState ctx) (seedState (dijCtx ctx)) := by
  have hfkD : (dijCtx ctx).fk = ctx.fk := rfl
  have halgD : (dijCtx ctx).options.algorithm = .dijkstra := rfl
  have hwD : (dijCtx ctx).options.heuristicWeight = 0 := hw
  unfold seedState
  have hnode : projNode
      { id := (dijCtx ctx).startKey,
        value := makeItem (dijCtx ctx).start (dijCtx ctx).startKey
          (dijCtx ctx).options.algorithm 0
          ((dijCtx ctx).hFn (dijCtx ctx).start (dijCtx ctx).goal) 0
          (dijCtx ctx).options.heuristicWeight,
        priority := (makeItem (dijCtx ctx).start (dijCtx ctx).startKey
          (dijCtx ctx).options.algorithm 0
          ((dijCtx ctx).hFn (dijCtx ctx).start (dijCtx ctx).goal) 0
          (dijCtx ctx).options.heuristicWeight).priority.getD 0 } =
      projNode
      { id := ctx.startKey,
        value := makeItem ctx.start ctx.startKey ctx.options.algorithm 0
          (ctx.hFn ctx.start ctx.goal) 0 ctx.options.heuristicWeight,
        priority := (makeItem ctx.start ctx.startKey
          ctx.options.algorithm 0 (ctx.hFn ctx.start ctx.goal) 0
          ctx.options.heuristicWeight).priority.getD 0 } := by
    have hstart : (dijCtx ctx).start = ctx.start := rfl
    have hsk : (dijCtx ctx).startKey = ctx.startKey := rfl
    have hgoal : (dijCtx ctx).goal = ctx.goal := rfl
    have hhFn : (dijCtx ctx).hFn = ctx.hFn := rfl
    rw [hstart, hsk, hgoal, hhFn, halgD, halg, hw, hwD]
    unfold projNode
    rw [projItem_makeItem ctx.start ctx.startKey 0
        (ctx.hFn ctx.start ctx.goal) (ctx.hFn ctx.start ctx.goal) 0 0 0,
      priority_makeItem ctx.start ctx.startKey 0
        (ctx.hFn ctx.start ctx.goal) (ctx.hFn ctx.start ctx.goal) 0 0 0]
  refine pushStep_sim ctx hfk ?_
    { phase := .init, currentKey := none }
    { phase := .init, currentKey := none }
    rfl rfl rfl rfl rfl rfl rfl
  refine ⟨rfl, rfl, rfl, rfl, rfl, rfl, rfl, ?_, rfl⟩
  show (if (dijCtx ctx).fk = .minheap then _ else (⟨[]⟩ : MinHeap _)).arr.map
      projNode = _
  rw [hfkD, hfk]
  simp only [if_pos rfl]
  show (MinHeap.push ⟨[]⟩ _).arr.map projNode =
    (MinHeap.push ⟨[]⟩ _).arr.map projNode
  show (bubbleUpAux 0 _ 0).map projNode = (bubbleUpAux 0 _ 0).map projNode
  show List.map projNode [_] = List.map projNode [_]
  rw [List.map_singleton, List.map_singleton, hnode]

/-! ### C5: weight-0 A* is the Dijkstra run -/

theorem mkCtx_dijkstra (hFn : Coord → Coord → ℚ) (env : Environment)
    (sK gK : String) (o : RunOptions) (halg : o.algorithm = .astar) :
    mkCtx hFn env sK gK { o with algorithm := .dijkstra } =
      dijCtx (mkCtx hFn env sK gK o) := by
  simp [mkCtx, dijCtx, halg, frontierKindFor]

theorem projSnap_key_view (l : List StepSnapshot) :
    (l.map projSnap).map (fun s => (s.phase, s.currentKey,
      Option.map (fun it => it.key) s.selected)) =
    l.map (fun s => (s.phase, s.currentKey,
      Option.map (fun it => it.key) s.selected)) := by
  rw [List.map_map]
  refine List.map_congr_left ?_
  intro s _
  show ((projSnap s).phase, (projSnap s).currentKey,
    Option.map (fun it => it.key) (projSnap s).selected) =
    (s.phase, s.currentKey, Option.map (fun it => it.key) s.selected)
  have h3 : Option.map (fun it : FrontierItem => it.key)
      (projSnap s).selected =
      Option.map (fun it : FrontierItem => it.key) s.selected := by
    show Option.map _ (Option.map projItem s.selected) = _
    rw [Option.map_map]
    rfl
  rw [h3]
  rfl

theorem projSnap_any_found (l : List StepSnapshot) :
    (l.map projSnap).any (fun s => s.phase = Phase.found) =
      l.any (fun s => s.phase = Phase.found) := by
  rw [List.any_map]
  rfl

theorem projSnap_find_path (l : List StepSnapshot) :
    (((l.map projSnap).reverse.find?
      (fun s => s.phase = Phase.found ∧ s.path.isSome)).bind
        (fun s => s.path)) =
    ((l.reverse.find?
      (fun s => s.phase = Phase.found ∧ s.path.isSome)).bind
        (fun s => s.path)) := by
  rw [← List.map_reverse, List.find?_map]
  show ((l.reverse.find?
      (fun s => s.phase = Phase.found ∧ s.path.isSome)).map
        projSnap).bind (fun s => s.path) = _
  rcases h : l.reverse.find?
      (fun s => s.phase = Phase.found ∧ s.path.isSome) with _ | s
  · rw [h]
    rfl
  · rw [h]
    rfl

theorem keyview_eq_of_map {l1 l2 : List StepSnapshot}
    (h : l1.map projSnap = l2.map projSnap) :
    l1.map (fun s => (s.phase, s.currentKey,
      Option.map (fun it => it.key) s.selected)) =
    l2.map (fun s => (s.phase, s.currentKey,
      Option.map (fun it => it.key) s.selected)) := by
  rw [← projSnap_key_view, h, projSnap_key_view]

theorem anyfound_eq_of_map {l1 l2 : List StepSnapshot}
    (h : l1.map projSnap = l2.map projSnap) :
    l1.any (fun s => s.phase = Phase.found) =
      l2.any (fun s => s.phase = Phase.found) := by
  rw [← projSnap_any_found, h, projSnap_any_found]

theorem findpath_eq_of_map {l1 l2 : List StepSnapshot}
    (h : l1.map projSnap = l2.map projSnap) :
    ((l1.reverse.find?
      (fun s => s.phase = Phase.found ∧ s.path.isSome)).bind
        (fun s => s.path)) =
    ((l2.reverse.find?
      (fun s => s.phase = Phase.found ∧ s.path.isSome)).bind
        (fun s => s.path)) := by
  rw [← projSnap_find_path, h, projSnap_find_path]

/-- C5: with heuristicWeight 0, an A* run degenerates to the Dijkstra run
under otherwise identical options — every snapshot agrees on phase,
current key and selected key (so the nodes are selected in the same
order), and the two traces report the same found flag and the same final
path. -/
theorem C5_astar_weight_zero (hFn : Coord → Coord → ℚ) (env : Environment)
    (sK gK : String) (o : RunOptions)
    (halg : o.algorithm = .astar) (hw : o.heuristicWeight = 0) :
    ((buildTrace hFn env sK gK o).steps.map
        (fun s => (s.phase, s.currentKey,
          Option.map (fun it => it.key) s.selected)) =
      (buildTrace hFn env sK gK
        { o with algorithm := .dijkstra }).steps.map
        (fun s => (s.phase, s.currentKey,
          Option.map (fun it => it.key) s.selected))) ∧
    (buildTrace hFn env sK gK o).found =
      (buildTrace hFn env sK gK { o with algorithm := .dijkstra }).found ∧
    (buildTrace hFn env sK gK o).path =
      (buildTrace hFn env sK gK { o with algorithm := .dijkstra }).path := by
  have halg2 : (mkCtx hFn env sK gK o).options.algorithm = .astar := halg
  have hw2 : (mkCtx hFn env sK gK o).options.heuristicWeight = 0 := hw
  have hfk : (mkCtx hFn env sK gK o).fk = .minheap := by
    show frontierKindFor o.algorithm = .minheap
    rw [halg]
    rfl
  have hsim := runLoop_sim (mkCtx hFn env sK gK o) halg2 hw2 hfk
    ⌊maxIterationsOf env⌋₊
    (seedState_sim (mkCtx hFn env sK gK o) halg2 hw2 hfk)
  have hmap := hsim.2.2.2.2.2.2.2.2
  have hfound : (buildTrace hFn env sK gK o).found =
      (buildTrace hFn env sK gK
        { o with algorithm := .dijkstra }).found := by
    rw [buildTrace_found_eq, buildTrace_found_eq,
      mkCtx_dijkstra hFn env sK gK o halg]
    exact anyfound_eq_of_map hmap.symm
  refine ⟨?_, hfound, ?_⟩
  · rw [buildTrace_steps_eq, buildTrace_steps_eq,
      mkCtx_dijkstra hFn env sK gK o halg]
    exact keyview_eq_of_map hmap.symm
  · rw [buildTrace_path_eq, buildTrace_path_eq, hfound,
      mkCtx_dijkstra hFn env sK gK o halg]
    by_cases hb : (buildTrace hFn env sK gK
        { o with algorithm := .dijkstra }).found = true
    · rw [if_pos hb, if_pos hb, findpath_eq_of_map hmap.symm]
    · rw [if_neg hb, if_neg hb]

def optsC5 : RunOptions :=
  { environmentId := .custom, algorithm := .astar,
    heuristic := .manhattan, heuristicWeight := 0, diagonal := false }

/-- A concrete instance of C5 on the star graph. -/
theorem C5_astar_weight_zero_witness :
    ((buildTrace (fun _ _ => 0) envWhy "s" "z" optsC5).steps.map
        (fun s => (s.phase, s.currentKey,
          Option.map (fun it => it.key) s.selected)) =
      (buildTrace (fun _ _ => 0) envWhy "s" "z"
        { optsC5 with algorithm := .dijkstra }).steps.map
        (fun s => (s.phase, s.currentKey,
          Option.map (fun it => it.key) s.selected))) ∧
    (buildTrace (fun _ _ => 0) envWhy "s" "z" optsC5).found =
      (buildTrace (fun _ _ => 0) envWhy "s" "z"
        { optsC5 with algorithm := .dijkstra }).found ∧
    (buildTrace (fun _ _ => 0) envWhy "s" "z" optsC5).path =
      (buildTrace (fun _ _ => 0) envWhy "s" "z"
        { optsC5 with algorithm := .dijkstra }).path :=
  C5_astar_weight_zero (fun _ _ => 0) envWhy "s" "z" optsC5 rfl rfl

/-! ### C3 groundwork: hop reachability along the adapter's neighbors -/

/-- Reachability in at most `n` hops along the adapter's neighbor
relation; the "true minimum number of hops" of claim C3 is the least `n`
with `ReachesInN env n a b`. -/
def ReachesInN (env : Environment) : ℕ → String → String → Prop
  | 0, a, b => a = b
  | n + 1, a, b => a = b ∨
      ∃ nb ∈ (adapterOf env).neighbors a, ReachesInN env n nb.key b

def reachesInNDec (env : Environment) :
    ∀ (n : ℕ) (a b : String), Decidable (ReachesInN env n a b)
  | 0, a, b => inferInstanceAs (Decidable (a = b))
  | n + 1, a, b =>
    haveI : DecidablePred (fun nb : Neighbor => ReachesInN env n nb.key b) :=
      fun nb => reachesInNDec env n nb.key b
    inferInstanceAs (Decidable (a = b ∨
      ∃ nb ∈ (adapterOf env).neighbors a, ReachesInN env n nb.key b))

instance (env : Environment) (n : ℕ) (a b : String) :
    Decidable (ReachesInN env n a b) := reachesInNDec env n a b

theorem ReachesInN.succ {env : Environment} {n : ℕ} {a b : String}
    (h : ReachesInN env n a b) : ReachesInN env (n + 1) a b := by
  induction n generalizing a with
  | zero => exact Or.inl h
  | succ n ih =>
    rcases h with h | ⟨nb, hm, hr⟩
    · exact Or.inl h
    · exact Or.inr ⟨nb, hm, ih hr⟩

theorem ReachesInN.mono {env : Environment} {m n : ℕ} {a b : String}
    (hmn : m ≤ n) (h : ReachesInN env m a b) : ReachesInN env n a b := by
  induction n with
  | zero => rwa [Nat.le_zero.mp hmn] at h
  | succ n ih =>
    rcases Nat.lt_or_ge m (n + 1) with hlt | hge
    · exact (ih (Nat.lt_succ_iff.mp hlt)).succ
    · rwa [Nat.le_antisymm hmn hge] at h

theorem ReachesInN.refl (env : Environment) (n : ℕ) (a : String) :
    ReachesInN env n a a := by
  cases n
  · rfl
  · exact Or.inl rfl

theorem ReachesInN.snoc {env : Environment} {n : ℕ} {a b c : String}
    (h : ReachesInN env n a b)
    (hc : ∃ nb ∈ (adapterOf env).neighbors b, nb.key = c) :
    ReachesInN env (n + 1) a c := by
  induction n generalizing a with
  | zero =>
    subst h
    obtain ⟨nb, hm, hk⟩ := hc
    exact Or.inr ⟨nb, hm, hk⟩
  | succ n ih =>
    rcases h with h | ⟨nb, hm, hr⟩
    · subst h
      obtain ⟨nb, hm, hk⟩ := hc
      exact Or.inr ⟨nb, hm, hk ▸ ReachesInN.refl env (n + 1) nb.key⟩
    · exact Or.inr ⟨nb, hm, ih hr⟩

theorem ReachesInN.back {env : Environment} {n : ℕ} {a b : String}
    (h : ReachesInN env (n + 1) a b) :
    ReachesInN env n a b ∨ ∃ c, ReachesInN env n a c ∧
      ∃ nb ∈ (adapterOf env).neighbors c, nb.key = b := by
  induction n generalizing a with
  | zero =>
    rcases h with h | ⟨nb, hm, hr⟩
    · exact Or.inl h
    · exact Or.inr ⟨a, rfl, nb, hm, hr⟩
  | succ n ih =>
    rcases h with h | ⟨nb, hm, hr⟩
    · exact Or.inl (Or.inl h)
    · rcases ih hr with h1 | ⟨c, hrc, hstep⟩
      · exact Or.inl (Or.inr ⟨nb, hm, h1⟩)
      · exact Or.inr ⟨c, Or.inr ⟨nb, hm, hrc⟩, hstep⟩

/-- The true hop distance: reachable in `n` hops but in no fewer. -/
def HopDist (env : Environment) (a b : String) (n : ℕ) : Prop :=
  ReachesInN env n a b ∧ ∀ m < n, ¬ReachesInN env m a b

theorem hopDist_exists {env : Environment} {a b : String} {n : ℕ}
    (h : ReachesInN env n a b) : ∃ m, HopDist env a b m ∧ m ≤ n := by
  have hex : ∃ m, ReachesInN env m a b := ⟨n, h⟩
  exact ⟨Nat.find hex, ⟨Nat.find_spec hex,
    fun m hm => Nat.find_min hex hm⟩, Nat.find_le h⟩

theorem hopDist_unique {env : Environment} {a b : String} {m n : ℕ}
    (h1 : HopDist env a b m) (h2 : HopDist env a b n) : m = n := by
  rcases lt_trichotomy m n with h | h | h
  · exact absurd h1.1 (h2.2 m h)
  · exact h
  · exact absurd h2.1 (h1.2 n h)

theorem hopDist_self (env : Environment) (a : String) :
    HopDist env a a 0 :=
  ⟨rfl, fun m hm => absurd hm (Nat.not_lt_zero m)⟩

theorem hopDist_zero {env : Environment} {a b : String}
    (h : HopDist env a b 0) : a = b := h.1

/-! ### Cell keys -/

def cellKey (x y : ℕ) : String := keyOf ⟨(x : ℚ), (y : ℚ)⟩

theorem cast_isCell (x y : ℕ) : (⟨(x : ℚ), (y : ℚ)⟩ : Coord).IsCell := by
  refine ⟨?_, ?_, ?_, ?_⟩ <;> simp

theorem coordOf_cellKey (x y : ℕ) :
    coordOf (cellKey x y) = ⟨(x : ℚ), (y : ℚ)⟩ :=
  coordOf_keyOf (cast_isCell x y)

theorem cellKey_inj {x y u v : ℕ} (h : cellKey x y = cellKey u v) :
    x = u ∧ y = v := by
  have h2 := keyOf_injective (cast_isCell x y) (cast_isCell u v) h
  have hx : (x : ℚ) = (u : ℚ) := congrArg Coord.x h2
  have hy : (y : ℚ) = (v : ℚ) := congrArg Coord.y h2
  exact ⟨Nat.cast_injective hx, Nat.cast_injective hy⟩

theorem cellKey_inj_iff (x y u v : ℕ) :
    cellKey x y = cellKey u v ↔ (x = u ∧ y = v) := by
  constructor
  · exact cellKey_inj
  · rintro ⟨rfl, rfl⟩
    rfl

/-! ### Shape of the grid neighbor list -/

theorem filterMap_two_ite {α β : Type} (p q : α → Prop) [DecidablePred p]
    [DecidablePred q] (f : α → β) :
    ∀ l : List α,
      l.filterMap (fun a => if p a then none
        else if q a then none else some (f a)) =
      (l.filter (fun a => decide ¬(p a ∨ q a))).map f := by
  intro l
  induction l with
  | nil => rfl
  | cons a t ih =>
    by_cases hp : p a
    · simp [List.filterMap_cons, List.filter_cons, hp, ih]
    · by_cases hq : q a
      · simp [List.filterMap_cons, List.filter_cons, hp, hq, ih]
      · simp [List.filterMap_cons, List.filter_cons, hp, hq, ih]

theorem gridNeighbors_eq (g : Grid) (k : String) :
    gridNeighbors g k =
      (([⟨(coordOf k).x + 1, (coordOf k).y⟩,
         ⟨(coordOf k).x - 1, (coordOf k).y⟩,
         ⟨(coordOf k).x, (coordOf k).y + 1⟩,
         ⟨(coordOf k).x, (coordOf k).y - 1⟩] : List Coord).filter
        (fun nb => decide ¬((nb.x < 0 ∨ nb.y < 0 ∨ g.width ≤ nb.x ∨
          g.height ≤ nb.y) ∨ keyOf nb ∈ g.walls))).map
        (fun nb => ⟨keyOf nb, 1⟩) := by
  unfold gridNeighbors
  exact filterMap_two_ite _ _ _ _

/-- A rational with denominator 1 is an integer cast. -/
theorem den_one_int {q : ℚ} (h : q.den = 1) : q = ((q.num : ℤ) : ℚ) := by
  conv_lhs => rw [← Rat.num_div_den q]
  rw [h]
  simp

theorem nat_of_bounds {z : ℤ} {W : ℕ} (h0 : (0 : ℚ) ≤ (z : ℚ))
    (hW : (z : ℚ) < (W : ℚ)) : ∃ x : ℕ, (z : ℚ) = (x : ℚ) ∧ x < W := by
  have hz : 0 ≤ z := by exact_mod_cast h0
  have hzW : z < (W : ℤ) := by exact_mod_cast hW
  refine ⟨z.toNat, ?_, ?_⟩
  · exact_mod_cast congrArg (fun w : ℤ => (w : ℚ)) (Int.toNat_of_nonneg hz).symm
  · omega

/-- `coordOf` always yields a cell coordinate (every branch parses into a
natural-number cast or 0). -/
theorem coordOf_isCell (k : String) : (coordOf k).IsCell := by
  unfold coordOf
  rcases splitComma k.data with _ | ⟨xs, _ | ⟨ys, rest⟩⟩
  · exact ⟨rfl, le_refl 0, rfl, le_refl 0⟩
  · refine ⟨?_, ?_, rfl, le_refl 0⟩ <;> simp [parseNum]
  · refine ⟨?_, ?_, ?_, ?_⟩ <;> simp [parseNum]

theorem den_one_add_one {q : ℚ} (h : q.den = 1) : (q + 1).den = 1 := by
  rw [den_one_int h, show ((q.num : ℚ) + 1) = ((q.num + 1 : ℤ) : ℚ) by
    push_cast; ring]
  exact Rat.den_intCast _

theorem den_one_sub_one {q : ℚ} (h : q.den = 1) : (q - 1).den = 1 := by
  rw [den_one_int h, show ((q.num : ℚ) - 1) = ((q.num - 1 : ℤ) : ℚ) by
    push_cast; ring]
  exact Rat.den_intCast _

theorem candidate_dens {b : Coord} (hb : b.IsCell) :
    ∀ c ∈ ([⟨b.x + 1, b.y⟩, ⟨b.x - 1, b.y⟩, ⟨b.x, b.y + 1⟩,
      ⟨b.x, b.y - 1⟩] : List Coord), c.x.den = 1 ∧ c.y.den = 1 := by
  obtain ⟨hx1, -, hy1, -⟩ := hb
  intro c hc
  simp only [List.mem_cons, List.not_mem_nil, or_false] at hc
  rcases hc with rfl | rfl | rfl | rfl
  · exact ⟨den_one_add_one hx1, hy1⟩
  · exact ⟨den_one_sub_one hx1, hy1⟩
  · exact ⟨hx1, den_one_add_one hy1⟩
  · exact ⟨hx1, den_one_sub_one hy1⟩

/-- A coordinate passing the bounds test with denominators 1 is a cell
within the grid bounds. -/
theorem kept_cell {g : Grid} {Wn Hn : ℕ} (hW : g.width = (Wn : ℚ))
    (hH : g.height = (Hn : ℚ)) {c : Coord} (hdx : c.x.den = 1)
    (hdy : c.y.den = 1)
    (hkeep : ¬((c.x < 0 ∨ c.y < 0 ∨ g.width ≤ c.x ∨ g.height ≤ c.y) ∨
      keyOf c ∈ g.walls)) :
    ∃ x y : ℕ, c = ⟨(x : ℚ), (y : ℚ)⟩ ∧ x < Wn ∧ y < Hn ∧
      cellKey x y ∉ g.walls := by
  push_neg at hkeep
  obtain ⟨⟨h0x, h0y, hxW, hyH⟩, hwall⟩ := hkeep
  rw [hW] at hxW
  rw [hH] at hyH
  have hex := den_one_int hdx
  have hey := den_one_int hdy
  rw [hex] at h0x hxW
  rw [hey] at h0y hyH
  obtain ⟨x, hx, hxlt⟩ := nat_of_bounds h0x hxW
  obtain ⟨y, hy, hylt⟩ := nat_of_bounds h0y hyH
  have hc : c = ⟨(x : ℚ), (y : ℚ)⟩ := by
    rcases c with ⟨cx, cy⟩
    simp only at hex hey
    rw [Coord.mk.injEq]
    exact ⟨hex.trans hx, hey.trans hy⟩
  refine ⟨x, y, hc, hxlt, hylt, ?_⟩
  rw [show cellKey x y = keyOf c by rw [hc]; rfl]
  exact hwall

/-- Every produced grid neighbor is a non-wall in-bounds cell key with
cost 1. -/
theorem gridNeighbors_cell_form {g : Grid} {Wn Hn : ℕ}
    (hW : g.width = (Wn : ℚ)) (hH : g.height = (Hn : ℚ)) (k : String)
    {nb : Neighbor} (h : nb ∈ gridNeighbors g k) :
    ∃ x y : ℕ, nb = ⟨cellKey x y, 1⟩ ∧ x < Wn ∧ y < Hn ∧
      cellKey x y ∉ g.walls := by
  rw [gridNeighbors_eq] at h
  obtain ⟨c, hc, hnb⟩ := List.mem_map.mp h
  obtain ⟨hcand, hkeep⟩ := List.mem_filter.mp hc
  have hkeep2 := of_decide_eq_true hkeep
  obtain ⟨hdx, hdy⟩ := candidate_dens (coordOf_isCell k) c hcand
  obtain ⟨x, y, hcxy, hxlt, hylt, hwall⟩ := kept_cell hW hH hdx hdy hkeep2
  refine ⟨x, y, ?_, hxlt, hylt, hwall⟩
  rw [← hnb, hcxy]
  rfl

/-- The four candidate coordinates are pairwise distinct, so the produced
neighbor keys are distinct. -/
theorem gridNeighbors_keys_nodup {g : Grid} {Wn Hn : ℕ}
    (hW : g.width = (Wn : ℚ)) (hH : g.height = (Hn : ℚ)) (k : String) :
    ((gridNeighbors g k).map (fun nb => nb.key)).Nodup := by
  rw [gridNeighbors_eq, List.map_map]
  show (List.map (fun c : Coord => keyOf c) _).Nodup
  refine List.Nodup.map_on ?_ (List.Nodup.filter _ ?_)
  · intro c hc d hd hkey
    obtain ⟨-, hc2⟩ := List.mem_filter.mp hc
    obtain ⟨-, hd2⟩ := List.mem_filter.mp hd
    obtain ⟨hcx, hcy⟩ := candidate_dens (coordOf_isCell k) c
      (List.mem_filter.mp hc).1
    obtain ⟨hdx, hdy⟩ := candidate_dens (coordOf_isCell k) d
      (List.mem_filter.mp hd).1
    obtain ⟨x, y, hcxy, -, -, -⟩ :=
      kept_cell hW hH hcx hcy (of_decide_eq_true hc2)
    obtain ⟨u, v, hduv, -, -, -⟩ :=
      kept_cell hW hH hdx hdy (of_decide_eq_true hd2)
    rw [hcxy, hduv]
    rw [hcxy, hduv] at hkey
    have := cellKey_inj hkey
    rw [this.1, this.2]
  · have hax : (coordOf k).x + 1 ≠ (coordOf k).x - 1 := by intro h2; linarith [congrArg id h2]
    have hax2 : (coordOf k).x + 1 ≠ (coordOf k).x := by intro h2; linarith [congrArg id h2]
    have hax3 : (coordOf k).x - 1 ≠ (coordOf k).x := by intro h2; linarith [congrArg id h2]
    have hay : (coordOf k).y + 1 ≠ (coordOf k).y - 1 := by intro h2; linarith [congrArg id h2]
    simp [List.nodup_cons, Coord.mk.injEq, hax, hax2, hax3, hay]

/-! ### The BFS view of the engine -/

/-- The frontier item `makeItem` builds for BFS and DFS. -/
def bfsItem (c : Coord) (key : String) (d : ℚ) : FrontierItem :=
  { key := key, «at» := c, depth := some d }

theorem makeItem_bfs (c : Coord) (k : String) (g h d w : ℚ) :
    makeItem c k .bfs g h d w = bfsItem c k d := rfl

/-- The keys freshly enqueued while expanding: neighbor keys that are
neither closed nor visited. -/
def freshKeys (closed visited : List String) (l : List Neighbor) :
    List String :=
  (l.map (fun nb => nb.key)).filter
    (fun k2 => decide (k2 ∉ closed) && decide (k2 ∉ visited))

theorem mem_freshKeys {closed visited : List String} {l : List Neighbor}
    {j : String} :
    j ∈ freshKeys closed visited l ↔
      j ∈ l.map (fun nb => nb.key) ∧ j ∉ closed ∧ j ∉ visited := by
  unfold freshKeys
  rw [List.mem_filter]
  simp

theorem processNeighbor_bfs_skip (ctx : Ctx)
    (halg : ctx.options.algorithm = .bfs) (sel : FrontierItem)
    (r : SelectionReason) (cg cd : ℚ) (st : EngineState) (nb : Neighbor)
    (h : nb.key ∈ st.closed ∨ nb.key ∈ st.visited) :
    processNeighbor ctx sel r cg cd st nb = st := by
  unfold processNeighbor
  rcases h with h | h
  · rw [if_pos h]
  · by_cases hc : nb.key ∈ st.closed
    · rw [if_pos hc]
    · rw [if_neg hc]
      simp only [halg]
      rw [if_pos (show (True ∨ AlgorithmId.bfs = AlgorithmId.dfs) from
        Or.inl trivial), if_pos h]

theorem processNeighbor_bfs_fresh (ctx : Ctx)
    (halg : ctx.options.algorithm = .bfs) (hfk : ctx.fk = .queue)
    (sel : FrontierItem) (r : SelectionReason) (cg cd : ℚ)
    (st : EngineState) (nb : Neighbor) (hc : nb.key ∉ st.closed)
    (hv : nb.key ∉ st.visited) :
    (processNeighbor ctx sel r cg cd st nb).closed = st.closed ∧
    (processNeighbor ctx sel r cg cd st nb).visited =
      sAdd st.visited nb.key ∧
    (processNeighbor ctx sel r cg cd st nb).queue =
      st.queue ++ [bfsItem (ctx.adapter.coordOfKey nb.key) nb.key (cd + 1)] ∧
    (processNeighbor ctx sel r cg cd st nb).cameFrom =
      mSet st.cameFrom nb.key sel.key ∧
    (processNeighbor ctx sel r cg cd st nb).steps.any
      (fun s => s.phase = .found) =
      st.steps.any (fun s => s.phase = .found) := by
  unfold processNeighbor
  simp only [halg]
  rw [if_neg hc, if_pos (show (True ∨ AlgorithmId.bfs = AlgorithmId.dfs) from
    Or.inl trivial), if_neg hv, hfk]
  rw [if_pos (show FrontierKind.queue = .queue from rfl)]
  refine ⟨rfl, rfl, rfl, rfl, ?_⟩
  simp [pushStep_steps, List.any_append, snapOf]

theorem bfsFold_spec (ctx : Ctx) (halg : ctx.options.algorithm = .bfs)
    (hfk : ctx.fk = .queue) (sel : FrontierItem) (r : SelectionReason)
    (cg cd : ℚ) :
    ∀ (l : List Neighbor) (st : EngineState),
      (l.map (fun nb => nb.key)).Nodup →
      (∀ k2, (mGet st.cameFrom k2).isSome → k2 ∈ st.visited) →
      (l.foldl (processNeighbor ctx sel r cg cd) st).closed = st.closed ∧
      (l.foldl (processNeighbor ctx sel r cg cd) st).visited =
        st.visited ++ freshKeys st.closed st.visited l ∧
      (l.foldl (processNeighbor ctx sel r cg cd) st).queue =
        st.queue ++ (freshKeys st.closed st.visited l).map
          (fun k2 => bfsItem (ctx.adapter.coordOfKey k2) k2 (cd + 1)) ∧
      (∀ j, mGet (l.foldl (processNeighbor ctx sel r cg cd) st).cameFrom j =
        if j ∈ freshKeys st.closed st.visited l then some sel.key
        else mGet st.cameFrom j) ∧
      (l.foldl (processNeighbor ctx sel r cg cd) st).cameFrom.length =
        st.cameFrom.length + (freshKeys st.closed st.visited l).length ∧
      (l.foldl (processNeighbor ctx sel r cg cd) st).steps.any
        (fun s => s.phase = .found) =
        st.steps.any (fun s => s.phase = .found) := by
  intro l
  induction l with
  | nil =>
    intro st _ _
    refine ⟨rfl, by simp [freshKeys], by simp [freshKeys], ?_, by simp [freshKeys], rfl⟩
    intro j
    rw [if_neg (by simp [freshKeys])]
    rfl
  | cons nb t ih =>
    intro st hnodup hdom
    rw [List.map_cons, List.nodup_cons] at hnodup
    obtain ⟨hnbt, hndt⟩ := hnodup
    by_cases hskip : nb.key ∈ st.closed ∨ nb.key ∈ st.visited
    · have hfilter : freshKeys st.closed st.visited (nb :: t) =
          freshKeys st.closed st.visited t := by
        unfold freshKeys
        rw [List.map_cons, List.filter_cons]
        rcases hskip with h | h
        · rw [if_neg (by simp [h])]
        · rw [if_neg (by simp [h])]
      rw [List.foldl_cons, processNeighbor_bfs_skip ctx halg sel r cg cd st nb hskip,
        hfilter]
      exact ih st hndt hdom
    · push_neg at hskip
      obtain ⟨hc, hv⟩ := hskip
      obtain ⟨g1, g2, g3, g4, g5⟩ :=
        processNeighbor_bfs_fresh ctx halg hfk sel r cg cd st nb hc hv
      set st1 := processNeighbor ctx sel r cg cd st nb with hst1
      have hsAdd : sAdd st.visited nb.key = st.visited ++ [nb.key] := by
        unfold sAdd
        rw [if_neg hv]
      have hcf1 : st1.cameFrom.length = st.cameFrom.length + 1 := by
        rw [g4]
        unfold mSet
        have hnone : st.cameFrom.find? (fun p => p.1 = nb.key) = none := by
          rcases hfind : st.cameFrom.find? (fun p => p.1 = nb.key) with _ | q
          · exact hfind
          · exact absurd (hdom nb.key (by unfold mGet; rw [hfind]; rfl)) hv
        rw [if_neg (by rw [hnone]; simp), List.length_append]
        rfl
      have hdom1 : ∀ k2, (mGet st1.cameFrom k2).isSome → k2 ∈ st1.visited := by
        intro k2 hk2
        rw [g2, hsAdd]
        by_cases hk2nb : k2 = nb.key
        · simp [hk2nb]
        · rw [g4, mGet_mSet_ne _ _ hk2nb] at hk2
          exact List.mem_append_left _ (hdom k2 hk2)
      have hfilter : freshKeys st1.closed st1.visited t =
          freshKeys st.closed st.visited t := by
        unfold freshKeys
        refine List.filter_congr ?_
        intro k2 hk2
        have hk2nb : k2 ≠ nb.key := by
          intro h2
          exact hnbt (h2 ▸ hk2)
        rw [g1, g2, hsAdd]
        have : (k2 ∈ st.visited ++ [nb.key]) ↔ k2 ∈ st.visited := by
          simp [hk2nb]
        simp only [this]
      have hfresh_cons : freshKeys st.closed st.visited (nb :: t) =
          nb.key :: freshKeys st.closed st.visited t := by
        unfold freshKeys
        rw [List.map_cons, List.filter_cons, if_pos (by simp [hc, hv])]
      obtain ⟨i1, i2, i3, i4, i5, i6⟩ := ih st1 hndt hdom1
      rw [List.foldl_cons, ← hst1]
      rw [hfilter] at i2 i3 i4 i5
      refine ⟨by rw [i1, g1], ?_, ?_, ?_, ?_, by rw [i6, g5]⟩
      · rw [i2, g2, hsAdd, hfresh_cons, List.append_assoc]
        rfl
      · rw [i3, g3, hfresh_cons, List.map_cons, List.append_assoc]
        rfl
      · intro j
        rw [i4 j, hfresh_cons]
        by_cases hj : j ∈ freshKeys st.closed st.visited t
        · rw [if_pos hj, if_pos (List.mem_cons_of_mem _ hj)]
        · rw [if_neg hj]
          by_cases hjnb : j = nb.key
          · rw [if_pos (by rw [hjnb]; exact List.mem_cons_self _ _), g4, hjnb,
              mGet_mSet_self]
          · have hnot : ¬(j ∈ nb.key :: freshKeys st.closed st.visited t) := by
              rw [List.mem_cons]
              rintro (h2 | h2)
              · exact hjnb h2
              · exact hj h2
            rw [if_neg hnot, g4, mGet_mSet_ne _ _ hjnb]
      · rw [i5, hcf1, hfresh_cons, List.length_cons]
        omega

/-- `expandPhase` is the neighbor fold from an intermediate state that
differs from the input only in the closed set and the appended (non-found)
snapshots. -/
theorem expandPhase_eq_foldl (ctx : Ctx) (sel : FrontierItem)
    (r : SelectionReason) (st : EngineState) :
    ∃ st3, expandPhase ctx sel r st =
      (ctx.adapter.neighbors sel.key).foldl
        (processNeighbor ctx sel r ((mGet st3.gScore sel.key).getD 0)
          (sel.depth.getD 0)) st3 ∧
      st3.closed = sAdd st.closed sel.key ∧
      st3.visited = st.visited ∧
      st3.queue = st.queue ∧
      st3.cameFrom = st.cameFrom ∧
      st3.gScore = st.gScore ∧
      st3.steps.any (fun s => s.phase = .found) =
        st.steps.any (fun s => s.phase = .found) := by
  refine ⟨_, rfl, ?_, ?_, ?_, ?_, ?_, ?_⟩
  · show (if _ then pushStep _ _ _ else _).closed = _
    split
    · rfl
    · rfl
  · show (if _ then pushStep _ _ _ else _).visited = _
    split
    · rfl
    · rfl
  · show (if _ then pushStep _ _ _ else _).queue = _
    split
    · rfl
    · rfl
  · show (if _ then pushStep _ _ _ else _).cameFrom = _
    split
    · rfl
    · rfl
  · show (if _ then pushStep _ _ _ else _).gScore = _
    split
    · rfl
    · rfl
  · show (if _ then pushStep _ _ _ else _).steps.any _ = _
    split
    · simp [pushStep_steps, snapOf, List.any_append]
    · simp [pushStep_steps, snapOf, List.any_append]

theorem expandPhase_bfs (ctx : Ctx) (halg : ctx.options.algorithm = .bfs)
    (hfk : ctx.fk = .queue) (sel : FrontierItem) (r : SelectionReason)
    (st : EngineState)
    (hnodup : ((ctx.adapter.neighbors sel.key).map (fun nb => nb.key)).Nodup)
    (hdom : ∀ k2, (mGet st.cameFrom k2).isSome → k2 ∈ st.visited) :
    (expandPhase ctx sel r st).closed = sAdd st.closed sel.key ∧
    (expandPhase ctx sel r st).visited = st.visited ++
      freshKeys (sAdd st.closed sel.key) st.visited
        (ctx.adapter.neighbors sel.key) ∧
    (expandPhase ctx sel r st).queue = st.queue ++
      (freshKeys (sAdd st.closed sel.key) st.visited
        (ctx.adapter.neighbors sel.key)).map
        (fun k2 => bfsItem (ctx.adapter.coordOfKey k2) k2
          (sel.depth.getD 0 + 1)) ∧
    (∀ j, mGet (expandPhase ctx sel r st).cameFrom j =
      if j ∈ freshKeys (sAdd st.closed sel.key) st.visited
          (ctx.adapter.neighbors sel.key) then some sel.key
      else mGet st.cameFrom j) ∧
    (expandPhase ctx sel r st).cameFrom.length = st.cameFrom.length +
      (freshKeys (sAdd st.closed sel.key) st.visited
        (ctx.adapter.neighbors sel.key)).length ∧
    (expandPhase ctx sel r st).steps.any (fun s => s.phase = .found) =
      st.steps.any (fun s => s.phase = .found) := by
  obtain ⟨st3, heq, h1, h2, h3, h4, h5, h6⟩ :=
    expandPhase_eq_foldl ctx sel r st
  have hdom3 : ∀ k2, (mGet st3.cameFrom k2).isSome → k2 ∈ st3.visited := by
    intro k2 hk2
    rw [h2]
    rw [h4] at hk2
    exact hdom k2 hk2
  obtain ⟨f1, f2, f3, f4, f5, f6⟩ := bfsFold_spec ctx halg hfk sel r
    ((mGet st3.gScore sel.key).getD 0) (sel.depth.getD 0)
    (ctx.adapter.neighbors sel.key) st3 hnodup hdom3
  rw [h1, h2] at f2 f3 f4 f5
  rw [heq]
  refine ⟨by rw [f1, h1], by rw [f2], by rw [f3, h3],
    ?_, by rw [f5, h4], by rw [f6, h6]⟩
  intro j
  rw [f4 j, h4]

/-- The goal-hit iteration: the found snapshot is the run's last step and
carries the reconstructed path from the pre-iteration parent map. -/
theorem loopBody_bfs_goal (ctx : Ctx) (hfk : ctx.fk = .queue)
    (st : EngineState) (it : FrontierItem) (rest : List FrontierItem)
    (hq : st.queue = it :: rest) (hncl : it.key ∉ st.closed)
    (hgoal : it.key = ctx.goalKey) :
    ∃ stF, loopBody ctx st = (stF, false) ∧
      stF.steps.any (fun s => s.phase = .found) = true ∧
      ((stF.steps.reverse.find?
        (fun s => s.phase = .found ∧ s.path.isSome)).bind
        (fun s => s.path)) =
        some (reconstructPathCoords ctx.adapter.coordOfKey st.cameFrom
          ctx.startKey ctx.goalKey) := by
  unfold loopBody selectItem
  rw [hfk, hq]
  simp only
  rw [if_neg hncl]
  rw [if_neg (show ¬(FrontierKind.queue = FrontierKind.minheap) by decide)]
  rw [if_pos hgoal]
  refine ⟨_, rfl, ?_, ?_⟩
  · simp [pushStep_steps, snapOf, List.any_append]
  · simp only [pushStep_steps, List.reverse_append, List.reverse_cons,
      List.reverse_nil, List.nil_append, List.cons_append]
    rw [List.find?_cons_of_pos _ (by simp [snapOf])]
    simp [snapOf, pushStep_cameFrom]

/-- A non-goal iteration: dequeue the head, close it, enqueue its fresh
neighbors at depth one deeper, record their parent, and continue. -/
theorem loopBody_bfs_expand (ctx : Ctx)
    (halg : ctx.options.algorithm = .bfs) (hfk : ctx.fk = .queue)
    (st : EngineState) (it : FrontierItem) (rest : List FrontierItem)
    (hq : st.queue = it :: rest) (hncl : it.key ∉ st.closed)
    (hgoal : it.key ≠ ctx.goalKey)
    (hnodup : ((ctx.adapter.neighbors it.key).map (fun nb => nb.key)).Nodup)
    (hdom : ∀ k2, (mGet st.cameFrom k2).isSome → k2 ∈ st.visited) :
    ∃ stR, loopBody ctx st = (stR, true) ∧
      stR.closed = sAdd st.closed it.key ∧
      stR.visited = st.visited ++
        freshKeys (sAdd st.closed it.key) st.visited
          (ctx.adapter.neighbors it.key) ∧
      stR.queue = rest ++
        (freshKeys (sAdd st.closed it.key) st.visited
          (ctx.adapter.neighbors it.key)).map
          (fun k2 => bfsItem (ctx.adapter.coordOfKey k2) k2
            (it.depth.getD 0 + 1)) ∧
      (∀ j, mGet stR.cameFrom j =
        if j ∈ freshKeys (sAdd st.closed it.key) st.visited
            (ctx.adapter.neighbors it.key) then some it.key
        else mGet st.cameFrom j) ∧
      stR.cameFrom.length = st.cameFrom.length +
        (freshKeys (sAdd st.closed it.key) st.visited
          (ctx.adapter.neighbors it.key)).length ∧
      stR.steps.any (fun s => s.phase = .found) =
        st.steps.any (fun s => s.phase = .found) := by
  unfold loopBody selectItem
  rw [hfk, hq]
  simp only
  rw [if_neg hncl]
  rw [if_neg (show ¬(FrontierKind.queue = FrontierKind.minheap) by decide)]
  rw [if_neg hgoal]
  set st1 := pushStep ctx { st with queue := rest }
    { phase := .select, currentKey := some it.key,
      current := some it.«at», selected := some it,
      selectionReason := some (selectionReasonFor
        ctx.options.algorithm it), whyNot := none } with hst1
  have hdom1 : ∀ k2, (mGet st1.cameFrom k2).isSome → k2 ∈ st1.visited := by
    intro k2 hk2
    exact hdom k2 hk2
  obtain ⟨e1, e2, e3, e4, e5, e6⟩ :=
    expandPhase_bfs ctx halg hfk it (selectionReasonFor
      ctx.options.algorithm it) st1 hnodup hdom1
  have hc1 : st1.closed = st.closed := rfl
  have hv1 : st1.visited = st.visited := rfl
  have hq1 : st1.queue = rest := rfl
  have hcf1 : st1.cameFrom = st.cameFrom := rfl
  rw [hv1] at e2
  rw [hq1, hv1] at e3
  rw [hv1, hcf1] at e4
  rw [hcf1, hv1] at e5
  refine ⟨_, rfl, e1, e2, e3, e4, e5, ?_⟩
  rw [e6]
  rw [hst1]
  simp [pushStep_steps, snapOf, List.any_append]

/-! ### The corridor grid: 1×10001 cells, so the iteration cap (10000)
falls one short of the 10001 selections BFS needs to reach the far end -/

def gCor : Grid := { width := 10001, height := 1, walls := [] }

def envCor : Environment :=
  { id := .custom, kind := .grid, grid := some gCor, graph := none,
    defaultStartKey := "0,0", defaultGoalKey := "10000,0" }

def optsCor : RunOptions :=
  { environmentId := .custom, algorithm := .bfs, heuristic := .manhattan,
    heuristicWeight := 1, diagonal := false }

def ctxCor : Ctx :=
  mkCtx (fun _ _ => 0) envCor (cellKey 0 0) (cellKey 10000 0) optsCor

def corItem (k : ℕ) : FrontierItem :=
  bfsItem ⟨(k : ℚ), (0 : ℚ)⟩ (cellKey k 0) (k : ℚ)

theorem gCor_width : gCor.width = ((10001 : ℕ) : ℚ) := by norm_num [gCor]

theorem gCor_height : gCor.height = ((1 : ℕ) : ℚ) := by norm_num [gCor]

theorem corNeighbors0 :
    gridNeighbors gCor (cellKey 0 0) = [⟨cellKey 1 0, 1⟩] := by
  rw [gridNeighbors_eq, coordOf_cellKey]
  simp only [List.filter_cons, List.filter_nil, decide_eq_true_eq,
    List.map_cons, List.map_nil]
  rw [if_pos (show ¬((((0:ℕ):ℚ) + 1 < 0 ∨ ((0:ℕ):ℚ) < 0 ∨
      gCor.width ≤ ((0:ℕ):ℚ) + 1 ∨ gCor.height ≤ ((0:ℕ):ℚ)) ∨
      keyOf ⟨((0:ℕ):ℚ) + 1, ((0:ℕ):ℚ)⟩ ∈ gCor.walls) by
    push_neg
    refine ⟨⟨by norm_num, by norm_num, by norm_num [gCor], by norm_num [gCor]⟩, ?_⟩
    show keyOf _ ∉ ([] : List String)
    exact List.not_mem_nil _)]
  rw [if_neg (show ¬¬((((0:ℕ):ℚ) - 1 < 0 ∨ ((0:ℕ):ℚ) < 0 ∨
      gCor.width ≤ ((0:ℕ):ℚ) - 1 ∨ gCor.height ≤ ((0:ℕ):ℚ)) ∨
      keyOf ⟨((0:ℕ):ℚ) - 1, ((0:ℕ):ℚ)⟩ ∈ gCor.walls) from
    not_not_intro (Or.inl (Or.inl (by norm_num))))]
  rw [if_neg (show ¬¬((((0:ℕ):ℚ) < 0 ∨ ((0:ℕ):ℚ) + 1 < 0 ∨
      gCor.width ≤ ((0:ℕ):ℚ) ∨ gCor.height ≤ ((0:ℕ):ℚ) + 1) ∨
      keyOf ⟨((0:ℕ):ℚ), ((0:ℕ):ℚ) + 1⟩ ∈ gCor.walls) from
    not_not_intro (Or.inl (Or.inr (Or.inr (Or.inr (by norm_num [gCor]))))))]
  rw [if_neg (show ¬¬((((0:ℕ):ℚ) < 0 ∨ ((0:ℕ):ℚ) - 1 < 0 ∨
      gCor.width ≤ ((0:ℕ):ℚ) ∨ gCor.height ≤ ((0:ℕ):ℚ) - 1) ∨
      keyOf ⟨((0:ℕ):ℚ), ((0:ℕ):ℚ) - 1⟩ ∈ gCor.walls) from
    not_not_intro (Or.inl (Or.inr (Or.inl (by norm_num)))))]
  have hkey : keyOf ⟨((0:ℕ):ℚ) + 1, ((0:ℕ):ℚ)⟩ = cellKey 1 0 := by
    show keyOf _ = keyOf _
    congr 1
    rw [Coord.mk.injEq]
    norm_num
  simp only [List.map_cons, List.map_nil]
  rw [hkey]

theorem corNeighborsS (k : ℕ) (h1 : 1 ≤ k) (h9 : k ≤ 9999) :
    gridNeighbors gCor (cellKey k 0) =
      [⟨cellKey (k + 1) 0, 1⟩, ⟨cellKey (k - 1) 0, 1⟩] := by
  have hk9 : (k : ℚ) ≤ 9999 := by exact_mod_cast h9
  have hk1 : (1 : ℚ) ≤ (k : ℚ) := by exact_mod_cast h1
  rw [gridNeighbors_eq, coordOf_cellKey]
  simp only [List.filter_cons, List.filter_nil, decide_eq_true_eq,
    List.map_cons, List.map_nil]
  rw [if_pos (show ¬((((k:ℕ):ℚ) + 1 < 0 ∨ ((0:ℕ):ℚ) < 0 ∨
      gCor.width ≤ ((k:ℕ):ℚ) + 1 ∨ gCor.height ≤ ((0:ℕ):ℚ)) ∨
      keyOf ⟨((k:ℕ):ℚ) + 1, ((0:ℕ):ℚ)⟩ ∈ gCor.walls) by
    push_neg
    refine ⟨⟨by positivity, by norm_num, ?_, by norm_num [gCor]⟩, ?_⟩
    · show gCor.width > _
      rw [show gCor.width = (10001 : ℚ) from rfl]
      push_cast
      linarith
    · show keyOf _ ∉ ([] : List String)
      exact List.not_mem_nil _)]
  rw [if_pos (show ¬((((k:ℕ):ℚ) - 1 < 0 ∨ ((0:ℕ):ℚ) < 0 ∨
      gCor.width ≤ ((k:ℕ):ℚ) - 1 ∨ gCor.height ≤ ((0:ℕ):ℚ)) ∨
      keyOf ⟨((k:ℕ):ℚ) - 1, ((0:ℕ):ℚ)⟩ ∈ gCor.walls) by
    push_neg
    refine ⟨⟨by push_cast; linarith, by norm_num, ?_, by norm_num [gCor]⟩, ?_⟩
    · show gCor.width > _
      rw [show gCor.width = (10001 : ℚ) from rfl]
      push_cast
      linarith
    · show keyOf _ ∉ ([] : List String)
      exact List.not_mem_nil _)]
  rw [if_neg (show ¬¬((((k:ℕ):ℚ) < 0 ∨ ((0:ℕ):ℚ) + 1 < 0 ∨
      gCor.width ≤ ((k:ℕ):ℚ) ∨ gCor.height ≤ ((0:ℕ):ℚ) + 1) ∨
      keyOf ⟨((k:ℕ):ℚ), ((0:ℕ):ℚ) + 1⟩ ∈ gCor.walls) from
    not_not_intro (Or.inl (Or.inr (Or.inr (Or.inr (by norm_num [gCor]))))))]
  rw [if_neg (show ¬¬((((k:ℕ):ℚ) < 0 ∨ ((0:ℕ):ℚ) - 1 < 0 ∨
      gCor.width ≤ ((k:ℕ):ℚ) ∨ gCor.height ≤ ((0:ℕ):ℚ) - 1) ∨
      keyOf ⟨((k:ℕ):ℚ), ((0:ℕ):ℚ) - 1⟩ ∈ gCor.walls) from
    not_not_intro (Or.inl (Or.inr (Or.inl (by norm_num)))))]
  have hkey1 : keyOf ⟨((k:ℕ):ℚ) + 1, ((0:ℕ):ℚ)⟩ = cellKey (k + 1) 0 := by
    show keyOf _ = keyOf _
    congr 1
    rw [Coord.mk.injEq]
    push_cast
    norm_num
  have hkey2 : keyOf ⟨((k:ℕ):ℚ) - 1, ((0:ℕ):ℚ)⟩ = cellKey (k - 1) 0 := by
    show keyOf _ = keyOf _
    congr 1
    rw [Coord.mk.injEq]
    rw [Nat.cast_sub h1]
    norm_num
  simp only [List.map_cons, List.map_nil]
  rw [hkey1, hkey2]

/-- The corridor invariant after `k` completed iterations. -/
def InvCor (k : ℕ) (st : EngineState) : Prop :=
  st.queue = [corItem k] ∧
  (∀ j : ℕ, (cellKey j 0 ∈ st.closed ↔ j < k)) ∧
  (∀ j : ℕ, (cellKey j 0 ∈ st.visited ↔ j ≤ k)) ∧
  (∀ q, (mGet st.cameFrom q).isSome → q ∈ st.visited) ∧
  st.steps.any (fun s => s.phase = .found) = false

theorem ctxCor_neighbors (k : String) :
    ctxCor.adapter.neighbors k = gridNeighbors gCor k := rfl

theorem corStep (k : ℕ) (hk : k ≤ 9999) (st : EngineState)
    (hinv : InvCor k st) :
    ∃ st', loopBody ctxCor st = (st', true) ∧ InvCor (k + 1) st' := by
  obtain ⟨hq, hcl, hvis, hdom, hfound⟩ := hinv
  have hncl : (corItem k).key ∉ st.closed := by
    show cellKey k 0 ∉ st.closed
    rw [hcl k]
    omega
  have hgoal : (corItem k).key ≠ ctxCor.goalKey := by
    show cellKey k 0 ≠ cellKey 10000 0
    intro h
    have h2 := (cellKey_inj h).1
    omega
  have hnodup : ((ctxCor.adapter.neighbors (corItem k).key).map
      (fun nb => nb.key)).Nodup := by
    rw [ctxCor_neighbors]
    exact gridNeighbors_keys_nodup gCor_width gCor_height _
  obtain ⟨stR, hlb, r1, r2, r3, r4, r5, r6⟩ :=
    loopBody_bfs_expand ctxCor rfl rfl st (corItem k) [] hq hncl hgoal
      hnodup hdom
  have hCK : (corItem k).key = cellKey k 0 := rfl
  have hmemC : ∀ j : ℕ,
      (cellKey j 0 ∈ sAdd st.closed (corItem k).key ↔ j < k + 1) := by
    intro j
    rw [hCK, mem_sAdd, hcl j, cellKey_inj_iff]
    constructor
    · rintro (h | ⟨h, -⟩)
      · omega
      · omega
    · intro h
      rcases Nat.lt_or_ge j k with h2 | h2
      · exact Or.inl h2
      · exact Or.inr ⟨by omega, rfl⟩
  have hfresh : freshKeys (sAdd st.closed (corItem k).key) st.visited
      (ctxCor.adapter.neighbors (corItem k).key) = [cellKey (k + 1) 0] := by
    rw [ctxCor_neighbors, hCK]
    have hkeep : (decide (cellKey (k+1) 0 ∉ sAdd st.closed (corItem k).key) &&
        decide (cellKey (k+1) 0 ∉ st.visited)) = true := by
      rw [Bool.and_eq_true, decide_eq_true_eq, decide_eq_true_eq]
      constructor
      · rw [hmemC (k+1)]
        omega
      · rw [hvis (k+1)]
        omega
    rcases Nat.eq_zero_or_pos k with rfl | hpos
    · rw [corNeighbors0]
      unfold freshKeys
      simp only [List.map_cons, List.map_nil, List.filter_cons,
        List.filter_nil]
      rw [if_pos (by rw [← hCK]; exact hkeep)]
    · rw [corNeighborsS k hpos hk]
      unfold freshKeys
      simp only [List.map_cons, List.map_nil, List.filter_cons,
        List.filter_nil]
      rw [if_pos (by rw [← hCK]; exact hkeep)]
      rw [if_neg (show ¬((decide (cellKey (k-1) 0 ∉ sAdd st.closed (cellKey k 0)) &&
          decide (cellKey (k-1) 0 ∉ st.visited)) = true) by
        rw [Bool.and_eq_true, decide_eq_true_eq, decide_eq_true_eq]
        rintro ⟨h2, -⟩
        rw [← hCK] at h2
        exact h2 ((hmemC (k-1)).mpr (by omega)))]
  rw [hfresh] at r2 r3 r4 r5
  have hco : ctxCor.adapter.coordOfKey (cellKey (k+1) 0) =
      (⟨((k+1:ℕ):ℚ), ((0:ℕ):ℚ)⟩ : Coord) := by
    show coordOf (cellKey (k+1) 0) = _
    exact coordOf_cellKey (k+1) 0
  have hd : ((corItem k).depth.getD 0 + 1 : ℚ) = ((k+1:ℕ):ℚ) := by
    show ((k:ℚ) + 1 : ℚ) = _
    push_cast
    ring
  have hitem : bfsItem (ctxCor.adapter.coordOfKey (cellKey (k+1) 0))
      (cellKey (k+1) 0) ((corItem k).depth.getD 0 + 1) = corItem (k + 1) := by
    rw [hd, hco, show ((0:ℕ):ℚ) = (0:ℚ) from Nat.cast_zero]
    rfl
  simp only [List.map_cons, List.map_nil, List.nil_append] at r3
  refine ⟨stR, hlb, ?_, ?_, ?_, ?_, ?_⟩
  · rw [r3, hitem]
  · intro j
    rw [r1]
    exact hmemC j
  · intro j
    rw [r2, List.mem_append, hvis j, List.mem_singleton, cellKey_inj_iff]
    constructor
    · rintro (h | ⟨h, -⟩)
      · omega
      · omega
    · intro h
      rcases Nat.lt_or_ge j (k+1) with h2 | h2
      · exact Or.inl (by omega)
      · exact Or.inr ⟨by omega, rfl⟩
  · intro q hq2
    rw [r4 q] at hq2
    rw [r2]
    by_cases hmem : q ∈ [cellKey (k+1) 0]
    · exact List.mem_append_right _ hmem
    · rw [if_neg hmem] at hq2
      exact List.mem_append_left _ (hdom q hq2)
  · rw [r6]
    exact hfound

theorem corRun : ∀ (fuel k : ℕ) (st : EngineState), InvCor k st →
    k + fuel ≤ 10000 →
    (runLoop ctxCor st fuel).steps.any (fun s => s.phase = .found) = false := by
  intro fuel
  induction fuel with
  | zero =>
    intro k st hinv _
    rw [runLoop]
    have hfr : frontierToArray ctxCor st = st.queue := rfl
    rw [if_pos (show (frontierToArray ctxCor st).length > 0 by
      rw [hfr, hinv.1]; norm_num)]
    simp only [pushStep_steps, List.any_append, List.any_cons, List.any_nil]
    rw [hinv.2.2.2.2]
    simp [snapOf]
  | succ n ih =>
    intro k st hinv hle
    rw [runLoop]
    have hfr : frontierToArray ctxCor st = st.queue := rfl
    rw [if_pos (show (frontierToArray ctxCor st).length > 0 by
      rw [hfr, hinv.1]; norm_num)]
    obtain ⟨st', hlb, hinv'⟩ := corStep k (by omega) st hinv
    rw [hlb]
    exact ih (k + 1) st' hinv' (by omega)

theorem corSeed : InvCor 0 (seedState ctxCor) := by
  refine ⟨?_, ?_, ?_, ?_, ?_⟩
  · have hq : (seedState ctxCor).queue =
        [makeItem ctxCor.start ctxCor.startKey ctxCor.options.algorithm 0
          (ctxCor.hFn ctxCor.start ctxCor.goal) 0
          ctxCor.options.heuristicWeight] := rfl
    rw [hq]
    rw [show ctxCor.options.algorithm = AlgorithmId.bfs from rfl,
      makeItem_bfs]
    have hst : ctxCor.start = (⟨((0:ℕ):ℚ), ((0:ℕ):ℚ)⟩ : Coord) := by
      show coordOf (cellKey 0 0) = _
      exact coordOf_cellKey 0 0
    rw [hst]
    unfold corItem bfsItem
    norm_num
    rfl
  · intro j
    show cellKey j 0 ∈ ([] : List String) ↔ j < 0
    simp
  · intro j
    show cellKey j 0 ∈ sAdd [] (cellKey 0 0) ↔ j ≤ 0
    rw [sAdd_nil, List.mem_singleton, cellKey_inj_iff]
    omega
  · intro q hq2
    exact absurd hq2 (by rw [show (seedState ctxCor).cameFrom = [] from rfl]; simp [mGet])
  · show (([] : List StepSnapshot) ++ [snapOf ctxCor _ _]).any _ = false
    simp [snapOf]

theorem corFuel : ⌊maxIterationsOf envCor⌋₊ = 10000 := by
  have h1 : maxIterationsOf envCor = 10000 := by
    unfold maxIterationsOf sizeBasisOf
    norm_num [envCor, gCor]
  rw [h1]
  norm_num

theorem corReach : ∀ j : ℕ, j ≤ 10000 →
    ReachesInN envCor j (cellKey 0 0) (cellKey j 0) := by
  intro j
  induction j with
  | zero => intro _; rfl
  | succ n ih =>
    intro h
    refine ReachesInN.snoc (ih (by omega)) ?_
    have hN : (adapterOf envCor).neighbors (cellKey n 0) =
        gridNeighbors gCor (cellKey n 0) := rfl
    rw [hN]
    rcases Nat.eq_zero_or_pos n with rfl | hpos
    · rw [corNeighbors0]
      exact ⟨⟨cellKey 1 0, 1⟩, List.mem_singleton_self _, rfl⟩
    · rw [corNeighborsS n hpos (by omega)]
      exact ⟨⟨cellKey (n+1) 0, 1⟩, List.mem_cons_self _ _, rfl⟩

/-- C3 counterexample: on the 1×10001 corridor grid the goal at the far
end is reachable (in 10000 hops), yet the BFS run returns found = false,
because the iteration cap maxIterations = min(10001·20, 10000) = 10000 is
one iteration short of the 10001 selections BFS needs. -/
theorem C3_counterexample :
    (∃ n, ReachesInN envCor n (cellKey 0 0) (cellKey 10000 0)) ∧
    (buildTrace (fun _ _ => 0) envCor (cellKey 0 0) (cellKey 10000 0)
      optsCor).found = false := by
  constructor
  · exact ⟨10000, corReach 10000 (le_refl _)⟩
  · rw [buildTrace_found_eq]
    show (runLoop ctxCor (seedState ctxCor)
      ⌊maxIterationsOf envCor⌋₊).steps.any _ = false
    rw [corFuel]
    exact corRun 10000 0 (seedState ctxCor) corSeed (by omega)

/-! ### Path reconstruction length under the BFS parent-map invariant -/

theorem walk_length (env : Environment) (sK : String)
    (P : List (String × String))
    (hP : ∀ k p, mGet P k = some p →
      (∃ n, HopDist env sK p n ∧ HopDist env sK k (n + 1)) ∧
      (p = sK ∨ (mGet P p).isSome)) :
    ∀ (fuel : ℕ) (cur : String) (m : ℕ), HopDist env sK cur m →
      (cur = sK ∨ (mGet P cur).isSome) → m ≤ fuel →
      (walkChainAux P sK cur fuel).length = m := by
  intro fuel
  induction fuel with
  | zero =>
    intro cur m _ _ hle
    have hm : m = 0 := by omega
    rw [hm]
    rfl
  | succ fuel ih =>
    intro cur m hd hdisj hle
    rw [walkChainAux]
    by_cases hcur : cur = sK
    · rw [if_pos hcur]
      have hm : m = 0 :=
        hopDist_unique (hcur ▸ hd) (hopDist_self env sK)
      rw [hm]
      rfl
    · rw [if_neg hcur]
      rcases hdisj with h | h
      · exact absurd h hcur
      obtain ⟨p, hp⟩ := Option.isSome_iff_exists.mp h
      rw [hp]
      obtain ⟨⟨n, hdp, hdc⟩, hpd⟩ := hP cur p hp
      have hmn : m = n + 1 := hopDist_unique hd hdc
      show (p :: walkChainAux P sK p fuel).length = m
      rw [List.length_cons, ih p n hdp hpd (by omega)]
      omega

theorem reconstruct_length (env : Environment) (coordFn : String → Coord)
    (P : List (String × String)) (sK gK : String)
    (hP : ∀ k p, mGet P k = some p →
      (∃ n, HopDist env sK p n ∧ HopDist env sK k (n + 1)) ∧
      (p = sK ∨ (mGet P p).isSome))
    (hPg : gK ≠ sK → (mGet P gK).isSome)
    (m : ℕ) (hgd : HopDist env sK gK m) (hm : m ≤ P.length) :
    (reconstructPathCoords coordFn P sK gK).length = m + 1 := by
  unfold reconstructPathCoords
  by_cases hsg : sK = gK
  · rw [if_pos hsg]
    have hm0 : m = 0 :=
      hopDist_unique hgd (hsg ▸ hopDist_self env sK)
    rw [hm0]
    rfl
  · rw [if_neg hsg]
    have hgs : gK ≠ sK := fun h => hsg h.symm
    have hsome := hPg hgs
    have hne : mGet P gK ≠ none := by
      intro h
      rw [h] at hsome
      exact Bool.noConfusion hsome
    rw [if_neg (show ¬((mGet P gK).isNone = true) from by
      rw [Option.isNone_iff_eq_none]; exact hne)]
    rw [List.length_map, List.length_reverse, List.length_cons,
      walk_length env sK P hP (P.length + 1) gK m hgd (Or.inr hsome)
        (by omega)]

/-! ### Cardinality: a duplicate-free list of in-bounds cell keys has at
most width·height entries -/

theorem visited_card (Wn Hn : ℕ) (V : List String) (hnd : V.Nodup)
    (hcell : ∀ k ∈ V, ∃ x y : ℕ, k = cellKey x y ∧ x < Wn ∧ y < Hn) :
    V.length ≤ Wn * Hn := by
  have hsub : V ⊆ ((List.range Wn ×ˢ List.range Hn)).map
      (fun p => cellKey p.1 p.2) := by
    intro k hk
    obtain ⟨x, y, rfl, hx, hy⟩ := hcell k hk
    exact List.mem_map.mpr ⟨(x, y), List.mem_product.mpr
      ⟨List.mem_range.mpr hx, List.mem_range.mpr hy⟩, rfl⟩
  have hlen : (((List.range Wn ×ˢ List.range Hn)).map
      (fun p => cellKey p.1 p.2)).length = Wn * Hn := by
    rw [List.length_map, List.length_product, List.length_range,
      List.length_range]
  calc V.length ≤ (((List.range Wn ×ˢ List.range Hn)).map
      (fun p => cellKey p.1 p.2)).length :=
        List.Subperm.length_le (List.Nodup.subperm hnd hsub)
    _ = Wn * Hn := hlen

/-! ### The BFS run invariant -/

/-- The master invariant of the BFS loop: the queue holds unvisited-depth
data in at most two consecutive levels, the parent map steps distances
down by one toward the start, every visited key is an in-bounds cell key,
and the goal has never been closed. -/
def BfsInv (ctx : Ctx) (env : Environment) (Wn Hn : ℕ)
    (st : EngineState) : Prop :=
  (∀ it ∈ st.queue, it.key ∈ st.visited) ∧
  (∀ it ∈ st.queue, it.key ∉ st.closed) ∧
  (∀ it ∈ st.queue, ∃ dN : ℕ, it.depth = some (dN : ℚ) ∧
      HopDist env ctx.startKey it.key dN ∧ dN ≤ st.cameFrom.length) ∧
  (st.queue.map (fun it => it.key)).Nodup ∧
  (∀ k, k ∈ st.visited ↔
    (k ∈ st.closed ∨ k ∈ st.queue.map (fun it => it.key))) ∧
  (∀ k ∈ st.closed, ∀ nb ∈ (adapterOf env).neighbors k,
    nb.key ∈ st.visited) ∧
  ((st.queue = [] ∧
      ∀ k n, HopDist env ctx.startKey k n → k ∈ st.visited) ∨
   (∃ ℓ A B, st.queue = A ++ B ∧ A ≠ [] ∧
     (∀ it ∈ A, it.depth = some ((ℓ : ℕ) : ℚ)) ∧
     (∀ it ∈ B, it.depth = some ((ℓ + 1 : ℕ) : ℚ)) ∧
     (∀ k n, HopDist env ctx.startKey k n → n ≤ ℓ → k ∈ st.visited))) ∧
  (∀ k p, mGet st.cameFrom k = some p →
     (∃ n, HopDist env ctx.startKey p n ∧
       HopDist env ctx.startKey k (n + 1)) ∧
     (p = ctx.startKey ∨ (mGet st.cameFrom p).isSome)) ∧
  (∀ k, (mGet st.cameFrom k).isSome ↔
    (k ∈ st.visited ∧ k ≠ ctx.startKey)) ∧
  st.visited.Nodup ∧
  (∀ k ∈ st.visited, ∃ x y : ℕ, k = cellKey x y ∧ x < Wn ∧ y < Hn) ∧
  ctx.goalKey ∉ st.closed ∧
  ctx.startKey ∈ st.visited

theorem bfsInv_step (ctx : Ctx) (env : Environment) (Wn Hn : ℕ)
    (halg : ctx.options.algorithm = .bfs) (hfk : ctx.fk = .queue)
    (hAdapt : ctx.adapter = adapterOf env)
    (hNcell : ∀ k nb, nb ∈ ctx.adapter.neighbors k →
      ∃ x y : ℕ, nb.key = cellKey x y ∧ x < Wn ∧ y < Hn)
    (hNnd : ∀ k, ((ctx.adapter.neighbors k).map (fun nb => nb.key)).Nodup)
    (st : EngineState) (it : FrontierItem) (rest : List FrontierItem)
    (hq : st.queue = it :: rest) (hgoal : it.key ≠ ctx.goalKey)
    (hinv : BfsInv ctx env Wn Hn st) :
    ∃ st' F, loopBody ctx st = (st', true) ∧ BfsInv ctx env Wn Hn st' ∧
      st'.queue.length = rest.length + F ∧
      st'.visited.length = st.visited.length + F := by
  obtain ⟨hQV, hQC, hQd, hQnd, hVC, hCN, hLvl, hP, hPdom, hVnd, hVcell,
    hGC, hSV⟩ := hinv
  have hitQ : it ∈ st.queue := by
    rw [hq]
    exact List.mem_cons_self _ _
  have hncl : it.key ∉ st.closed := hQC it hitQ
  have hdom : ∀ k2, (mGet st.cameFrom k2).isSome → k2 ∈ st.visited :=
    fun k2 h => ((hPdom k2).mp h).1
  obtain ⟨stR, hlb, r1, r2, r3, r4, r5, r6⟩ :=
    loopBody_bfs_expand ctx halg hfk st it rest hq hncl hgoal
      (hNnd it.key) hdom
  set fresh := freshKeys (sAdd st.closed it.key) st.visited
    (ctx.adapter.neighbors it.key) with hfr
  rcases hLvl with ⟨hqnil, -⟩ | ⟨ℓ, A, B, hAB, hAne, hdA, hdB, hComp⟩
  · rw [hq] at hqnil
    exact absurd hqnil (by simp)
  rcases A with _ | ⟨a0, A2⟩
  · exact absurd rfl hAne
  have hcons : it :: rest = a0 :: (A2 ++ B) := by
    rw [← hq, hAB]
    rfl
  have ha0 : a0 = it := by
    have h2 := hcons
    rw [List.cons.injEq] at h2
    exact h2.1.symm
  subst ha0
  have hrest : rest = A2 ++ B := by
    have h2 := hcons
    rw [List.cons.injEq] at h2
    exact h2.2
  have hitd : a0.depth = some ((ℓ : ℕ) : ℚ) :=
    hdA a0 (List.mem_cons_self _ _)
  obtain ⟨dN, hdN, hdist0, hbnd0⟩ := hQd a0 hitQ
  have hdNℓ : dN = ℓ := by
    have h2 := hdN.symm.trans hitd
    exact Nat.cast_injective (Option.some.inj h2)
  have hitdist : HopDist env ctx.startKey a0.key ℓ := hdNℓ ▸ hdist0
  have hℓbnd : ℓ ≤ st.cameFrom.length := hdNℓ ▸ hbnd0
  have hfreshdist : ∀ j ∈ fresh, HopDist env ctx.startKey j (ℓ + 1) := by
    intro j hj
    rw [hfr, mem_freshKeys] at hj
    obtain ⟨hjN, hjc, hjv⟩ := hj
    obtain ⟨nb, hnb, hnbk⟩ := List.mem_map.mp hjN
    constructor
    · refine ReachesInN.snoc hitdist.1 ?_
      rw [← hAdapt]
      exact ⟨nb, hnb, hnbk⟩
    · intro m hm hr
      obtain ⟨n2, hd2, hn2⟩ := hopDist_exists hr
      exact hjv (hComp j n2 hd2 (by omega))
  have hfreshnd : fresh.Nodup := List.Nodup.filter _ (hNnd a0.key)
  have hfreshV : ∀ j ∈ fresh, j ∉ st.visited := by
    intro j hj
    rw [hfr, mem_freshKeys] at hj
    exact hj.2.2
  have hgetd : a0.depth.getD 0 + 1 = ((ℓ + 1 : ℕ) : ℚ) := by
    rw [hitd]
    show ((ℓ : ℕ) : ℚ) + 1 = _
    push_cast
    ring
  have hV2 : ∀ k2, k2 ∈ stR.visited ↔ (k2 ∈ st.visited ∨ k2 ∈ fresh) := by
    intro k2
    rw [r2, List.mem_append]
  have hC2 : ∀ k2, k2 ∈ stR.closed ↔ (k2 ∈ st.closed ∨ k2 = a0.key) := by
    intro k2
    rw [r1, mem_sAdd]
  have hqkeys : stR.queue.map (fun it2 => it2.key) =
      (rest.map (fun it2 => it2.key)) ++ fresh := by
    rw [r3, List.map_append, List.map_map]
    congr 1
    rw [show ((fun it2 : FrontierItem => it2.key) ∘
      (fun k2 => bfsItem (ctx.adapter.coordOfKey k2) k2
        (a0.depth.getD 0 + 1))) = id from rfl, List.map_id]
  -- 6'
  have hCN2 : ∀ k ∈ stR.closed, ∀ nb ∈ (adapterOf env).neighbors k,
      nb.key ∈ stR.visited := by
    intro k hk nb hnb
    rcases (hC2 k).mp hk with hkC | hkit
    · exact (hV2 _).mpr (Or.inl (hCN k hkC nb hnb))
    · subst hkit
      rw [← hAdapt] at hnb
      by_cases hnbv : nb.key ∈ st.visited
      · exact (hV2 _).mpr (Or.inl hnbv)
      by_cases hnbc : nb.key ∈ sAdd st.closed a0.key
      · rcases (mem_sAdd _ _ _).mp hnbc with h2 | h2
        · exact (hV2 _).mpr (Or.inl ((hVC _).mpr (Or.inl h2)))
        · exact (hV2 _).mpr (Or.inl (h2 ▸ hQV a0 hitQ))
      · refine (hV2 _).mpr (Or.inr ?_)
        rw [hfr, mem_freshKeys]
        exact ⟨List.mem_map.mpr ⟨nb, hnb, rfl⟩, hnbc, hnbv⟩
  -- 5'
  have hVC2 : ∀ k, k ∈ stR.visited ↔
      (k ∈ stR.closed ∨ k ∈ stR.queue.map (fun it2 => it2.key)) := by
    intro k
    rw [hV2 k, hC2 k, hqkeys, List.mem_append]
    constructor
    · rintro (hkV | hkF)
      · rcases (hVC k).mp hkV with h | h
        · exact Or.inl (Or.inl h)
        · rw [hq, List.map_cons, List.mem_cons] at h
          rcases h with h | h
          · exact Or.inl (Or.inr h)
          · exact Or.inr (Or.inl h)
      · exact Or.inr (Or.inr hkF)
    · rintro ((h | h) | (h | h))
      · exact Or.inl ((hVC k).mpr (Or.inl h))
      · exact Or.inl (h ▸ hQV a0 hitQ)
      · refine Or.inl ((hVC k).mpr (Or.inr ?_))
        rw [hq, List.map_cons]
        exact List.mem_cons_of_mem _ h
      · exact Or.inr h
  have hBQ : ∀ itb ∈ B, itb ∈ st.queue := by
    intro itb hitb
    rw [hq, hrest]
    exact List.mem_cons_of_mem _ (List.mem_append_right _ hitb)
  have hBdist : ∀ itb ∈ B, HopDist env ctx.startKey itb.key (ℓ + 1) := by
    intro itb hitb
    obtain ⟨dB, hdB2, hdistB, -⟩ := hQd itb (hBQ itb hitb)
    have h2 := hdB2.symm.trans (hdB itb hitb)
    have h3 : dB = ℓ + 1 := Nat.cast_injective (Option.some.inj h2)
    exact h3 ▸ hdistB
  have hfreshitemd : ∀ it2 ∈ fresh.map (fun k2 => bfsItem
      (ctx.adapter.coordOfKey k2) k2 (a0.depth.getD 0 + 1)),
      it2.depth = some ((ℓ + 1 : ℕ) : ℚ) := by
    intro it2 h2
    obtain ⟨k2, -, rfl⟩ := List.mem_map.mp h2
    show some (a0.depth.getD 0 + 1) = _
    rw [hgetd]
  -- 7'
  have hLvl2 : (stR.queue = [] ∧
      ∀ k n, HopDist env ctx.startKey k n → k ∈ stR.visited) ∨
      (∃ ℓ2 A3 B3, stR.queue = A3 ++ B3 ∧ A3 ≠ [] ∧
        (∀ it2 ∈ A3, it2.depth = some ((ℓ2 : ℕ) : ℚ)) ∧
        (∀ it2 ∈ B3, it2.depth = some ((ℓ2 + 1 : ℕ) : ℚ)) ∧
        (∀ k n, HopDist env ctx.startKey k n → n ≤ ℓ2 →
          k ∈ stR.visited)) := by
    by_cases hA2 : A2 = []
    · -- level ℓ is exhausted: completeness advances to ℓ+1
      have hrB : rest = B := by rw [hrest, hA2, List.nil_append]
      have hcomp1 : ∀ k n, HopDist env ctx.startKey k n → n ≤ ℓ + 1 →
          k ∈ stR.visited := by
        intro k n hd hle
        rcases Nat.lt_or_ge n (ℓ + 1) with hlt | hge
        · exact (hV2 k).mpr (Or.inl (hComp k n hd (by omega)))
        have hn : n = ℓ + 1 := by omega
        subst hn
        rcases ReachesInN.back hd.1 with hr | ⟨c, hrc, hstep⟩
        · exact absurd hr (hd.2 ℓ (by omega))
        obtain ⟨n2, hd2, hn2⟩ := hopDist_exists hrc
        have hcV : c ∈ st.visited := hComp c n2 hd2 (by omega)
        rcases (hVC c).mp hcV with hcC | hcQ
        · obtain ⟨nb, hnb, hnbk⟩ := hstep
          exact (hV2 k).mpr (Or.inl (hnbk ▸ hCN c hcC nb hnb))
        · rw [hq, List.map_cons, List.mem_cons] at hcQ
          rcases hcQ with hcit | hcrest
          · obtain ⟨nb, hnb, hnbk⟩ := hstep
            rw [hcit] at hnb
            have hkmem : nb.key ∈ stR.visited := by
              refine hCN2 a0.key ((hC2 _).mpr (Or.inr rfl)) nb ?_
              exact hnb
            exact hnbk ▸ hkmem
          · rw [hrB] at hcrest
            obtain ⟨itb, hitb, hitbk⟩ := List.mem_map.mp hcrest
            have hdc : HopDist env ctx.startKey c (ℓ + 1) :=
              hitbk ▸ hBdist itb hitb
            have h2 : n2 = ℓ + 1 := hopDist_unique hd2 hdc
            omega
      by_cases hQ2nil : stR.queue = []
      · left
        refine ⟨hQ2nil, ?_⟩
        have hall : ∀ n k, HopDist env ctx.startKey k n →
            k ∈ stR.visited := by
          intro n
          induction n using Nat.strong_induction_on with
          | _ n ih =>
            intro k hd
            rcases le_or_lt n (ℓ + 1) with h | h
            · exact hcomp1 k n hd h
            rcases n with _ | m
            · omega
            rcases ReachesInN.back hd.1 with hr | ⟨c, hrc, hstep⟩
            · exact absurd hr (hd.2 m (by omega))
            obtain ⟨n2, hd2, hn2⟩ := hopDist_exists hrc
            have hcV2 : c ∈ stR.visited := ih n2 (by omega) c hd2
            rcases (hVC2 c).mp hcV2 with hcC2 | hcQ2
            · obtain ⟨nb, hnb, hnbk⟩ := hstep
              exact hnbk ▸ hCN2 c hcC2 nb hnb
            · rw [hQ2nil] at hcQ2
              simp at hcQ2
        exact fun k n hd => hall n k hd
      · right
        refine ⟨ℓ + 1, stR.queue, [], (List.append_nil _).symm, hQ2nil,
          ?_, ?_, hcomp1⟩
        · intro it2 h2
          rw [r3, hrB, List.mem_append] at h2
          rcases h2 with h2 | h2
          · exact hdB it2 h2
          · exact hfreshitemd it2 h2
        · intro it2 h2
          exact absurd h2 (List.not_mem_nil _)
    · right
      refine ⟨ℓ, A2, B ++ fresh.map (fun k2 => bfsItem
        (ctx.adapter.coordOfKey k2) k2 (a0.depth.getD 0 + 1)),
        ?_, hA2, ?_, ?_, ?_⟩
      · rw [r3, hrest, List.append_assoc]
      · intro it2 h2
        exact hdA it2 (List.mem_cons_of_mem _ h2)
      · intro it2 h2
        rw [List.mem_append] at h2
        rcases h2 with h2 | h2
        · exact hdB it2 h2
        · exact hfreshitemd it2 h2
      · intro k n hd hle
        exact (hV2 k).mpr (Or.inl (hComp k n hd hle))
  -- assemble
  refine ⟨stR, fresh.length, hlb, ?_, ?_, ?_⟩
  · refine ⟨?_, ?_, ?_, ?_, hVC2, hCN2, hLvl2, ?_, ?_, ?_, ?_, ?_, ?_⟩
    · -- 1'
      intro it2 h2
      rw [r3, List.mem_append] at h2
      rcases h2 with h2 | h2
      · exact (hV2 _).mpr (Or.inl (hQV it2 (by
          rw [hq]; exact List.mem_cons_of_mem _ h2)))
      · obtain ⟨k2, hk2, rfl⟩ := List.mem_map.mp h2
        exact (hV2 _).mpr (Or.inr hk2)
    · -- 2'
      intro it2 h2
      rw [r3, List.mem_append] at h2
      rw [hC2]
      rcases h2 with h2 | h2
      · rintro (h3 | h3)
        · exact hQC it2 (by rw [hq]; exact List.mem_cons_of_mem _ h2) h3
        · rw [hq, List.map_cons, List.nodup_cons] at hQnd
          exact hQnd.1 (h3 ▸ List.mem_map.mpr ⟨it2, h2, rfl⟩)
      · obtain ⟨k2, hk2, rfl⟩ := List.mem_map.mp h2
        rw [hfr, mem_freshKeys] at hk2
        intro h3
        exact hk2.2.1 ((mem_sAdd _ _ _).mpr h3)
    · -- 3'
      intro it2 h2
      rw [r3, List.mem_append] at h2
      rcases h2 with h2 | h2
      · obtain ⟨dN2, hd2, hdist2, hb2⟩ := hQd it2 (by
          rw [hq]; exact List.mem_cons_of_mem _ h2)
        exact ⟨dN2, hd2, hdist2, by rw [r5]; omega⟩
      · obtain ⟨k2, hk2, rfl⟩ := List.mem_map.mp h2
        refine ⟨ℓ + 1, ?_, hfreshdist k2 hk2, ?_⟩
        · show some (a0.depth.getD 0 + 1) = _
          rw [hgetd]
        · rw [r5]
          have hF : 1 ≤ fresh.length :=
            List.length_pos.mpr (List.ne_nil_of_mem hk2)
          omega
    · -- 4'
      rw [hqkeys]
      rw [hq, List.map_cons, List.nodup_cons] at hQnd
      refine List.Nodup.append hQnd.2 hfreshnd ?_
      intro a ha ha2
      obtain ⟨it2, hit2, rfl⟩ := List.mem_map.mp ha
      exact hfreshV _ ha2 (hQV it2 (by
        rw [hq]; exact List.mem_cons_of_mem _ hit2))
    · -- 8'
      intro k p hkp
      rw [r4 k] at hkp
      by_cases hk : k ∈ fresh
      · rw [if_pos hk] at hkp
        have hpk : p = a0.key := (Option.some.inj hkp).symm
        subst hpk
        refine ⟨⟨ℓ, hitdist, hfreshdist k hk⟩, ?_⟩
        by_cases hsk : a0.key = ctx.startKey
        · exact Or.inl hsk
        · right
          rw [r4 a0.key, if_neg (fun h2 =>
            hfreshV a0.key h2 (hQV a0 hitQ))]
          exact (hPdom a0.key).mpr ⟨hQV a0 hitQ, hsk⟩
      · rw [if_neg hk] at hkp
        obtain ⟨hd2, hdisj⟩ := hP k p hkp
        refine ⟨hd2, ?_⟩
        rcases hdisj with h2 | h2
        · exact Or.inl h2
        · right
          rw [r4 p]
          by_cases hp : p ∈ fresh
          · rw [if_pos hp]
            rfl
          · rw [if_neg hp]
            exact h2
    · -- 9'
      intro k
      rw [r4 k]
      by_cases hk : k ∈ fresh
      · rw [if_pos hk]
        refine ⟨fun _ => ⟨(hV2 k).mpr (Or.inr hk), ?_⟩, fun _ => rfl⟩
        intro h2
        exact hfreshV k hk (h2 ▸ hSV)
      · rw [if_neg hk]
        rw [hPdom k]
        constructor
        · rintro ⟨h1, h2⟩
          exact ⟨(hV2 k).mpr (Or.inl h1), h2⟩
        · rintro ⟨h1, h2⟩
          rcases (hV2 k).mp h1 with h3 | h3
          · exact ⟨h3, h2⟩
          · exact absurd h3 hk
    · -- 10'
      rw [r2]
      refine List.Nodup.append hVnd hfreshnd ?_
      intro a ha ha2
      exact hfreshV a ha2 ha
    · -- 11'
      intro k hk
      rcases (hV2 k).mp hk with h2 | h2
      · exact hVcell k h2
      · rw [hfr, mem_freshKeys] at h2
        obtain ⟨nb, hnb, rfl⟩ := List.mem_map.mp h2.1
        exact hNcell a0.key nb hnb
    · -- 12'
      rw [hC2]
      rintro (h2 | h2)
      · exact hGC h2
      · exact hgoal h2.symm
    · -- 13'
      exact (hV2 _).mpr (Or.inl hSV)
  · rw [r3, List.length_append, List.length_map]
  · rw [r2, List.length_append]

theorem bfsInv_seed (ctx : Ctx) (env : Environment) (Wn Hn : ℕ)
    (sx sy : ℕ) (halg : ctx.options.algorithm = .bfs)
    (hfk : ctx.fk = .queue) (hsK : ctx.startKey = cellKey sx sy)
    (hsx : sx < Wn) (hsy : sy < Hn) :
    BfsInv ctx env Wn Hn (seedState ctx) := by
  have hq : (seedState ctx).queue = [bfsItem ctx.start ctx.startKey 0] := by
    show (if ctx.fk = FrontierKind.queue then
      [makeItem ctx.start ctx.startKey ctx.options.algorithm 0
        (ctx.hFn ctx.start ctx.goal) 0 ctx.options.heuristicWeight]
      else []) = _
    rw [if_pos hfk, halg, makeItem_bfs]
  have hv : (seedState ctx).visited = [ctx.startKey] := rfl
  have hc : (seedState ctx).closed = [] := rfl
  have hcf : (seedState ctx).cameFrom = [] := rfl
  refine ⟨?_, ?_, ?_, ?_, ?_, ?_, ?_, ?_, ?_, ?_, ?_, ?_, ?_⟩
  · intro it2 h2
    rw [hq, List.mem_singleton] at h2
    subst h2
    rw [hv]
    exact List.mem_singleton.mpr rfl
  · intro it2 h2
    rw [hc]
    exact List.not_mem_nil _
  · intro it2 h2
    rw [hq, List.mem_singleton] at h2
    subst h2
    refine ⟨0, ?_, hopDist_self env _, by omega⟩
    show some (0 : ℚ) = some ((0 : ℕ) : ℚ)
    norm_num
  · rw [hq]
    simp
  · intro k
    rw [hv, hc, hq]
    show k ∈ [ctx.startKey] ↔ k ∈ ([] : List String) ∨
      k ∈ [bfsItem ctx.start ctx.startKey 0].map (fun it2 => it2.key)
    simp [bfsItem]
  · intro k hk
    rw [hc] at hk
    exact absurd hk (List.not_mem_nil _)
  · right
    refine ⟨0, [bfsItem ctx.start ctx.startKey 0], [], by rw [hq]; rfl,
      by simp, ?_, ?_, ?_⟩
    · intro it2 h2
      rw [List.mem_singleton] at h2
      subst h2
      show some (0 : ℚ) = some ((0 : ℕ) : ℚ)
      norm_num
    · intro it2 h2
      exact absurd h2 (List.not_mem_nil _)
    · intro k n hd hn
      have hn0 : n = 0 := by omega
      subst hn0
      have hks := hopDist_zero hd
      rw [hv, ← hks]
      exact List.mem_singleton_self _
  · intro k p hkp
    rw [hcf] at hkp
    exact absurd hkp (by simp [mGet])
  · intro k
    rw [hcf, hv]
    constructor
    · intro h2
      exact absurd h2 (by simp [mGet])
    · rintro ⟨h1, h2⟩
      rw [List.mem_singleton] at h1
      exact absurd h1 h2
  · rw [hv]
    simp
  · intro k hk
    rw [hv, List.mem_singleton] at hk
    subst hk
    exact ⟨sx, sy, hsK, hsx, hsy⟩
  · rw [hc]
    exact List.not_mem_nil _
  · rw [hv]
    exact List.mem_singleton_self _

theorem bfsRun (ctx : Ctx) (env : Environment) (Wn Hn : ℕ)
    (halg : ctx.options.algorithm = .bfs) (hfk : ctx.fk = .queue)
    (hAdapt : ctx.adapter = adapterOf env)
    (hNcell : ∀ k nb, nb ∈ ctx.adapter.neighbors k →
      ∃ x y : ℕ, nb.key = cellKey x y ∧ x < Wn ∧ y < Hn)
    (hNnd : ∀ k, ((ctx.adapter.neighbors k).map (fun nb => nb.key)).Nodup)
    (hreach : ∃ n, ReachesInN env n ctx.startKey ctx.goalKey) :
    ∀ (fuel : ℕ) (st : EngineState), BfsInv ctx env Wn Hn st →
      st.queue.length + (Wn * Hn - st.visited.length) ≤ fuel →
      ∃ m p, HopDist env ctx.startKey ctx.goalKey m ∧
        (runLoop ctx st fuel).steps.any (fun s => s.phase = .found) = true ∧
        ((runLoop ctx st fuel).steps.reverse.find?
          (fun s => s.phase = .found ∧ s.path.isSome)).bind
          (fun s => s.path) = some p ∧
        p.length = m + 1 := by
  have hqne : ∀ st, BfsInv ctx env Wn Hn st → st.queue ≠ [] := by
    intro st hinv hqnil
    obtain ⟨n0, hr⟩ := hreach
    obtain ⟨m0, hd0, -⟩ := hopDist_exists hr
    obtain ⟨-, -, -, -, hVC, -, hLvl, -, -, -, -, hGC, -⟩ := hinv
    rcases hLvl with ⟨-, hall⟩ | ⟨ℓ, A, B, hAB, hAne, -⟩
    · have hgV := hall ctx.goalKey m0 hd0
      rcases (hVC _).mp hgV with h | h
      · exact hGC h
      · rw [hqnil] at h
        simp at h
    · rw [hqnil] at hAB
      rcases A with _ | ⟨x, A2⟩
      · exact hAne rfl
      · exact List.noConfusion hAB
  intro fuel
  induction fuel with
  | zero =>
    intro st hinv hμ
    exfalso
    have hq0 : st.queue.length = 0 := by omega
    exact hqne st hinv (List.length_eq_zero.mp hq0)
  | succ f ih =>
    intro st hinv hμ
    rcases hQcase : st.queue with _ | ⟨it, rest⟩
    · exact absurd hQcase (hqne st hinv)
    rw [runLoop]
    have hfr : frontierToArray ctx st = st.queue := by
      unfold frontierToArray
      rw [hfk]
    rw [if_pos (show (frontierToArray ctx st).length > 0 by
      rw [hfr, hQcase]; simp)]
    have hitQ : it ∈ st.queue := by
      rw [hQcase]
      exact List.mem_cons_self _ _
    by_cases hg : it.key = ctx.goalKey
    · have hc := hinv
      obtain ⟨hQV, hQC, hQd, -, -, -, -, hP, hPdom, -, -, -, -⟩ := hc
      obtain ⟨stF, hlb, hany, hfind⟩ :=
        loopBody_bfs_goal ctx hfk st it rest hQcase (hQC it hitQ) hg
      rw [hlb]
      obtain ⟨dN, hdN, hdist, hbnd⟩ := hQd it hitQ
      refine ⟨dN, reconstructPathCoords ctx.adapter.coordOfKey st.cameFrom
        ctx.startKey ctx.goalKey, hg ▸ hdist, hany, hfind, ?_⟩
      refine reconstruct_length env ctx.adapter.coordOfKey st.cameFrom
        ctx.startKey ctx.goalKey hP ?_ dN (hg ▸ hdist) hbnd
      intro hgs
      exact (hPdom ctx.goalKey).mpr ⟨hg ▸ hQV it hitQ, hgs⟩
    · obtain ⟨st2, F, hlb, hinv2, hlen1, hlen2⟩ :=
        bfsInv_step ctx env Wn Hn halg hfk hAdapt hNcell hNnd st it rest
          hQcase hg hinv
      rw [hlb]
      have hc2 := hinv2
      obtain ⟨-, -, -, -, -, -, -, -, -, hVnd2, hVcell2, -, -⟩ := hc2
      have hVle : st2.visited.length ≤ Wn * Hn :=
        visited_card Wn Hn st2.visited hVnd2 hVcell2
      have hQlen : st.queue.length = rest.length + 1 := by
        rw [hQcase]
        rfl
      exact ih st2 hinv2 (by omega)

theorem floor_maxIterations_ge (env : Environment) (g : Grid)
    (Wn Hn : ℕ) (hkind : env.kind = .grid) (hgrid : env.grid = some g)
    (hW : g.width = (Wn : ℚ)) (hH : g.height = (Hn : ℚ))
    (hcells : Wn * Hn ≤ 10000) :
    Wn * Hn ≤ ⌊maxIterationsOf env⌋₊ := by
  have hbasis : sizeBasisOf env = ((Wn * Hn : ℕ) : ℚ) := by
    unfold sizeBasisOf
    rw [if_pos hkind, hgrid]
    show g.width * g.height = _
    rw [hW, hH]
    push_cast
    ring
  have h1 : maxIterationsOf env =
      ((max 100 (min (Wn * Hn * 20) 10000) : ℕ) : ℚ) := by
    unfold maxIterationsOf
    rw [hbasis]
    push_cast
    ring_nf
  rw [h1, Nat.floor_natCast]
  rcases le_or_lt (Wn * Hn * 20) 10000 with h | h
  · rw [min_eq_left h]
    rcases le_or_lt 100 (Wn * Hn * 20) with h2 | h2
    · rw [max_eq_right h2]
      omega
    · rw [max_eq_left (by omega)]
      omega
  · rw [min_eq_right (by omega), max_eq_right (by omega)]
    omega

/-- C3 (amended): on every grid environment with at most 10000 cells, the
BFS run from an in-bounds start cell to a reachable goal key returns
found = true, and the returned path consists of exactly (minimum hop
count) + 1 coordinates — its edge count is the true minimum number of
hops (`HopDist` is the least `n` with `ReachesInN env n start goal`).
On larger grids the claim fails: see the corridor counterexample. -/
theorem C3_bfs_minimal (hFn : Coord → Coord → ℚ) (env : Environment)
    (g : Grid) (Wn Hn : ℕ) (o : RunOptions) (sx sy : ℕ) (gK : String)
    (hkind : env.kind = .grid) (hgrid : env.grid = some g)
    (hW : g.width = (Wn : ℚ)) (hH : g.height = (Hn : ℚ))
    (hcells : Wn * Hn ≤ 10000) (halg : o.algorithm = .bfs)
    (hsx : sx < Wn) (hsy : sy < Hn)
    (hreach : ∃ n, ReachesInN env n (cellKey sx sy) gK) :
    (buildTrace hFn env (cellKey sx sy) gK o).found = true ∧
    ∃ m, HopDist env (cellKey sx sy) gK m ∧
      (buildTrace hFn env (cellKey sx sy) gK o).path.length = m + 1 := by
  have halg2 : (mkCtx hFn env (cellKey sx sy) gK o).options.algorithm =
      .bfs := halg
  have hfk2 : (mkCtx hFn env (cellKey sx sy) gK o).fk = .queue := by
    show frontierKindFor o.algorithm = _
    rw [halg]
    rfl
  have hAdapt : (mkCtx hFn env (cellKey sx sy) gK o).adapter =
      adapterOf env := rfl
  have hNeigh : ∀ k, (adapterOf env).neighbors k = gridNeighbors g k := by
    intro k
    unfold adapterOf
    rw [if_pos hkind]
    show gridNeighbors (env.grid.getD ⟨0, 0, []⟩) k = _
    rw [hgrid]
    rfl
  have hNcell2 : ∀ k nb,
      nb ∈ (mkCtx hFn env (cellKey sx sy) gK o).adapter.neighbors k →
      ∃ x y : ℕ, nb.key = cellKey x y ∧ x < Wn ∧ y < Hn := by
    intro k nb h
    rw [hAdapt, hNeigh] at h
    obtain ⟨x, y, hnb, hx, hy, -⟩ := gridNeighbors_cell_form hW hH k h
    exact ⟨x, y, by rw [hnb], hx, hy⟩
  have hNnd2 : ∀ k, (((mkCtx hFn env (cellKey sx sy) gK o).adapter.neighbors
      k).map (fun nb => nb.key)).Nodup := by
    intro k
    rw [hAdapt, hNeigh]
    exact gridNeighbors_keys_nodup hW hH k
  have hseed := bfsInv_seed (mkCtx hFn env (cellKey sx sy) gK o) env Wn Hn
    sx sy halg2 hfk2 rfl hsx hsy
  have hfuel := floor_maxIterations_ge env g Wn Hn hkind hgrid hW hH hcells
  have hql : (seedState (mkCtx hFn env (cellKey sx sy) gK o)).queue.length
      = 1 := by
    have hq : (seedState (mkCtx hFn env (cellKey sx sy) gK o)).queue =
        [bfsItem (mkCtx hFn env (cellKey sx sy) gK o).start
          (mkCtx hFn env (cellKey sx sy) gK o).startKey 0] := by
      show (if (mkCtx hFn env (cellKey sx sy) gK o).fk =
          FrontierKind.queue then
        [makeItem (mkCtx hFn env (cellKey sx sy) gK o).start
          (mkCtx hFn env (cellKey sx sy) gK o).startKey
          (mkCtx hFn env (cellKey sx sy) gK o).options.algorithm 0
          ((mkCtx hFn env (cellKey sx sy) gK o).hFn
            (mkCtx hFn env (cellKey sx sy) gK o).start
            (mkCtx hFn env (cellKey sx sy) gK o).goal) 0
          (mkCtx hFn env (cellKey sx sy) gK o).options.heuristicWeight]
        else []) = _
      rw [if_pos hfk2, halg2, makeItem_bfs]
    rw [hq]
    rfl
  have hvl : (seedState (mkCtx hFn env (cellKey sx sy) gK o)).visited.length
      = 1 := rfl
  have hpos : 0 < Wn * Hn := Nat.mul_pos (by omega) (by omega)
  obtain ⟨m, p, hdm, hany, hfind, hplen⟩ :=
    bfsRun (mkCtx hFn env (cellKey sx sy) gK o) env Wn Hn halg2 hfk2
      hAdapt hNcell2 hNnd2 hreach ⌊maxIterationsOf env⌋₊
      (seedState (mkCtx hFn env (cellKey sx sy) gK o)) hseed
      (by rw [hql, hvl]; omega)
  constructor
  · rw [buildTrace_found_eq]
    exact hany
  · refine ⟨m, hdm, ?_⟩
    rw [buildTrace_path_eq,
      if_pos (show (buildTrace hFn env (cellKey sx sy) gK o).found = true by
        rw [buildTrace_found_eq]; exact hany),
      hfind, Option.getD_some]
    exact hplen

def gWit : Grid := { width := 2, height := 2, walls := [] }

def envWit : Environment :=
  { id := .custom, kind := .grid, grid := some gWit, graph := none,
    defaultStartKey := "0,0", defaultGoalKey := "1,1" }

/-- A concrete instance of the amended C3 statement: BFS on an empty 2×2
grid from (0,0) to the reachable corner (1,1). -/
theorem C3_bfs_minimal_witness :
    (buildTrace (fun _ _ => 0) envWit (cellKey 0 0) (cellKey 1 1)
      optsCor).found = true ∧
    ∃ m, HopDist envWit (cellKey 0 0) (cellKey 1 1) m ∧
      (buildTrace (fun _ _ => 0) envWit (cellKey 0 0) (cellKey 1 1)
        optsCor).path.length = m + 1 :=
  C3_bfs_minimal (fun _ _ => 0) envWit gWit 2 2 optsCor 0 0 (cellKey 1 1)
    rfl rfl (by norm_num [gWit]) (by norm_num [gWit]) (by norm_num) rfl
    (by norm_num) (by norm_num)
    ⟨2, by with_unfolding_all decide⟩

end GlassBox
